import Mathlib

/-!
Dense linear-algebra kernel of NEURAL (`MATRICES.H`).

A shallow embedding of the `Matrix` class of `MATRICES.H` and a verification of
its elimination-based routines (determinant, inverse, PLU) and of the
Gram-Schmidt / QR routines.

Scalars: the source computes in `double`; the development is carried out in exact
arithmetic over an arbitrary linearly ordered field `K` (instantiated at `ℚ` for
evaluation and at `ℝ` where a square root is needed).  The square root used by
`cnorm` is passed as a parameter `sqrt : K → K`.  Where the rounding of `double`
decides the outcome, the routine is given a second time with every operation rounded
to the nearest `double` (`roundDouble`, `inverseDouble`).

Indices: `n`, `m` and loop counters are natural numbers; the pivot-row variable
`mrow`, which the source initialises to `-1`, is an integer.

Reads outside the grid (undefined behaviour in the source) yield `0`, writes
outside the grid are dropped, and a quotient with divisor `0` is `0`.  Where a routine
can read or write outside a grid, or divide by zero, a variant named `...Checked`
or `...Guarded` makes these events explicit: it returns `none` as soon as one of them happens.

Loops: `for` loops are `forLoop` over the loop state, `while` loops are recursive
functions with a fuel argument that is shown to be sufficient.  Passing or returning
a `Matrix` by value is the identity; an explicit copy `Matrix res(*this)` is `copy`.
The pivot scan and the row-elimination loop, which the source repeats verbatim in
`ref`, `det` and `PLU`, are defined once (`pivotScan`, `elimBelow`).
-/

namespace NEURAL

/-- Counted loop `for (i = lo; i < lo + cnt; i++) s = f i s`. -/
def loopFrom {σ : Type} (f : Nat → σ → σ) : Nat → Nat → σ → σ
  | _, 0, s => s
  | lo, cnt + 1, s => loopFrom f (lo + 1) cnt (f lo s)

/-- The loop `for (int i = lo; i < hi; i++) s = f i s`. -/
def forLoop {σ : Type} (lo hi : Nat) (f : Nat → σ → σ) (s : σ) : σ :=
  loopFrom f lo (hi - lo) s

/-- The class `Matrix`: `n` rows, `m` columns and the row-major grid `mat`. -/
structure Mat (K : Type) where
  n : Nat
  m : Nat
  mat : List (List K)
deriving DecidableEq, Repr

namespace Mat

variable {K : Type}

/-- Read `mat[i][j]`. -/
def get [Zero K] (A : Mat K) (i j : Nat) : K :=
  (A.mat.getD i []).getD j 0

/-- Write `mat[i][j] = v`. -/
def set (A : Mat K) (i j : Nat) (v : K) : Mat K :=
  { A with mat := A.mat.set i ((A.mat.getD i []).set j v) }

/-- Constructor `Matrix(int a, int b)`: the `a × b` grid filled with `0`. -/
def new [Zero K] (a b : Nat) : Mat K :=
  ⟨a, b, List.replicate a (List.replicate b 0)⟩

/-- Copy constructor `Matrix(const Matrix& other)`. -/
def copy [Zero K] (other : Mat K) : Mat K :=
  forLoop 0 other.n (fun i res =>
    forLoop 0 other.m (fun j res => res.set i j (other.get i j)) res)
    (new other.n other.m)

/-- Static `NIL()`: the `0 × 0` matrix. -/
def NIL [Zero K] : Mat K := new 0 0

/-- Static `eye(n)`. -/
def eye [Zero K] [One K] (n : Nat) : Mat K :=
  forLoop 0 n (fun i m => m.set i i 1) (new n n)

/-- Static `swap(n, a, b)`: the identity with rows `a` and `b` exchanged. -/
def swap [Zero K] [One K] (n a b : Nat) : Mat K :=
  forLoop 0 n (fun i m =>
    let temp := m.get a i
    let m := m.set a i (m.get b i)
    m.set b i temp) (eye n)

/-- Static `add(n, r1, r2, v)`: `m = eye(n); m.mat[r2][r1] = v;` with `int v`. -/
def Static.add [Zero K] [One K] [IntCast K] (n r1 r2 : Nat) (v : Int) : Mat K :=
  (eye n).set r2 r1 (v : K)

/-- Predicate `isSquare()`. -/
def isSquare (A : Mat K) : Bool := A.n == A.m

/-- Predicate `isNull()`. -/
def isNull (A : Mat K) : Bool := A.n == 0 && A.m == 0

/-- Product `matmul(other)`, also `operator*`. -/
def matmul [Zero K] [Add K] [Mul K] (A other : Mat K) : Mat K :=
  if A.m ≠ other.n then NIL
  else
    forLoop 0 A.n (fun i res =>
      forLoop 0 other.m (fun j res =>
        forLoop 0 A.m (fun k res =>
          res.set i j (res.get i j + A.get i k * other.get k j)) res) res)
      (new A.n other.m)

/-- Method `transpose()`. -/
def transpose [Zero K] (A : Mat K) : Mat K :=
  forLoop 0 A.n (fun i res =>
    forLoop 0 A.m (fun j res => res.set j i (A.get i j)) res)
    (new A.m A.n)

section Elimination

variable [LinearOrderedField K]

/-- The pivot scan shared verbatim by `ref`, `det`, `inverse` and `PLU`:
`mrow = -1; mbeep = 0; for (i = h; i < n; i++) if (|res[i][k]| > mbeep) ...`.
Returns `(mrow, mbeep)`. -/
def pivotScan (res : Mat K) (n h k : Nat) : Int × K :=
  forLoop h n (fun i (s : Int × K) =>
    let test := |res.get i k|
    if test > s.2 then ((i : Int), test) else s) (-1, 0)

/-- The row-elimination loop of `ref`, `det` and `PLU`:
`for (i = h + 1; i < n; i++) { val = res[i][k] / res[h][k]; res[i][k] = 0;
 for (j = k + 1; j < n; j++) res[i][j] -= val * res[h][j]; }`.
The inner bound is the row count `n`, as in the source.  On a grid with `n ≤ m` every
access is in range; on a grid with more rows than columns the source reads and writes
`res[i][j]` with `j ≥ m`, outside the row, which this definition does not show (reads
yield `0`, writes are dropped): `elimBelowGuarded` makes these accesses explicit. -/
def elimBelow (res : Mat K) (n h k : Nat) : Mat K :=
  forLoop (h + 1) n (fun i res =>
    let val := res.get i k / res.get h k
    let res := res.set i k 0
    forLoop (k + 1) n (fun j res => res.set i j (res.get i j - val * res.get h j)) res) res

/-- State of the `while` loop of `det`. -/
structure DetState (K : Type) where
  res : Mat K
  h : Nat
  k : Nat
  detscal : K

/-- The `while (h < n && k < m)` loop of `det`; `fuel` bounds the iterations. -/
def detLoop (n m : Nat) : Nat → DetState K → DetState K
  | 0, s => s
  | fuel + 1, s =>
    if s.h < n ∧ s.k < m then
      let scan := pivotScan s.res n s.h s.k
      let mrow := scan.1
      let mbeep := scan.2
      if mbeep = 0 then
        detLoop n m fuel { s with k := s.k + 1 }
      else
        let s :=
          if mrow ≠ (s.h : Int) then
            { s with detscal := s.detscal * (-1),
                     res := (swap n mrow.toNat s.h).matmul s.res }
          else s
        let res := elimBelow s.res n s.h s.k
        detLoop n m fuel { s with res := res, h := s.h + 1, k := s.k + 1 }
    else s

/-- Method `det()`.  Every iteration of the loop increments `k`, so `m`
iterations suffice (`detLoop_fuel`). -/
def det (A : Mat K) : K :=
  if A.n ≠ A.m then 0
  else
    let s := detLoop A.n A.m A.m ⟨copy A, 0, 0, 1⟩
    forLoop 0 A.n (fun i detscal => detscal * s.res.get i i) s.detscal

/-- State of the `while` loop of `inverse`. -/
structure InvState (K : Type) where
  res : Mat K
  inv : Mat K
  h : Nat
  k : Nat

/-- The `while (h < n && k < m)` loop of `inverse`; `fuel` bounds the iterations. -/
def invLoop (n m : Nat) : Nat → InvState K → InvState K
  | 0, s => s
  | fuel + 1, s =>
    if s.h < n ∧ s.k < m then
      let scan := pivotScan s.res n s.h s.k
      let mrow := scan.1
      let mbeep := scan.2
      if mbeep = 0 then
        invLoop n m fuel { s with k := s.k + 1 }
      else
        let res := (swap n mrow.toNat s.h).matmul s.res
        let inv := (swap n mrow.toNat s.h).matmul s.inv
        let p := forLoop (s.h + 1) n (fun i (p : Mat K × Mat K) =>
          let res := p.1
          let inv := p.2
          let val := res.get i s.k / res.get s.h s.k
          let res := res.set i s.k 0
          let res := forLoop (s.k + 1) n
            (fun j res => res.set i j (res.get i j - val * res.get s.h j)) res
          let inv := forLoop 0 n
            (fun j inv => inv.set i j (inv.get i j - val * inv.get s.h j)) inv
          (res, inv)) (res, inv)
        invLoop n m fuel { s with res := p.1, inv := p.2, h := s.h + 1, k := s.k + 1 }
    else s

/-- Method `inverse()`, in exact arithmetic.  Every iteration of the `while` loop
increments `k`, so `m` iterations suffice (`invLoop_stop`, `invLoop_fuel`).  The same
routine with the rounding of `double` is `inverseDouble`. -/
def inverse (A : Mat K) : Mat K :=
  if A.n ≠ A.m then NIL
  else
    let s := invLoop A.n A.m A.m ⟨copy A, eye A.n, 0, 0⟩
    -- for (i = 0; i < n; i++) if (res.mat[i][i] == 0) return NIL();
    if forLoop 0 A.n (fun i (ret : Bool) => ret || decide (s.res.get i i = 0)) false then NIL
    else
      let p := forLoop 1 A.n (fun h (p : Mat K × Mat K) =>
        forLoop 0 h (fun i (p : Mat K × Mat K) =>
          let res := p.1
          let inv := p.2
          if res.get i h = 0 then (res, inv)
          else
            let val := res.get i h / res.get h h
            forLoop 0 A.m (fun j (p : Mat K × Mat K) =>
              let res := p.1
              let inv := p.2
              let res := res.set i j (res.get i j - val * res.get h j)
              let inv := inv.set i j (inv.get i j - val * inv.get h j)
              (res, inv)) (res, inv)) p) (s.res, s.inv)
      let res := p.1
      forLoop 0 A.n (fun i inv =>
        forLoop 0 A.m (fun j inv => inv.set i j (inv.get i j / res.get i i)) inv) p.2

/-- State of the `while` loop of `PLU`. -/
structure PLUState (K : Type) where
  res : Mat K
  L : Mat K
  P : Mat K
  h : Nat
  k : Nat

/-- The `while (h < n && k < m)` loop of `PLU`; `fuel` bounds the iterations. -/
def pluLoop (n m : Nat) : Nat → PLUState K → PLUState K
  | 0, s => s
  | fuel + 1, s =>
    if s.h < n ∧ s.k < m then
      let scan := pivotScan s.res n s.h s.k
      let mrow := scan.1
      let mbeep := scan.2
      if mbeep = 0 then
        pluLoop n m fuel { s with k := s.k + 1 }
      else
        let s :=
          if mrow ≠ (s.h : Int) then
            { s with P := (swap n mrow.toNat s.h).matmul s.P,
                     L := (swap n mrow.toNat s.h).matmul s.L,
                     res := (swap n mrow.toNat s.h).matmul s.res }
          else s
        let p := forLoop (s.h + 1) n (fun i (p : Mat K × Mat K) =>
          let res := p.1
          let L := p.2
          let val := res.get i s.k / res.get s.h s.k
          let res := res.set i s.k 0
          let res := forLoop (s.k + 1) n
            (fun j res => res.set i j (res.get i j - val * res.get s.h j)) res
          let L := L.set i s.h val
          (res, L)) (s.res, s.L)
        pluLoop n m fuel { s with res := p.1, L := p.2, h := s.h + 1, k := s.k + 1 }
    else s

/-- Method `PLU()`: the vector `{P, L, res}`.  Every iteration of the `while`
loop increments `k`, so `m` iterations suffice (`pluLoop_stop`, `pluLoop_fuel`). -/
def PLU (A : Mat K) : List (Mat K) :=
  if A.n ≠ A.m then [NIL, NIL, NIL]
  else
    let s := pluLoop A.n A.m A.m ⟨copy A, new A.n A.m, eye A.n, 0, 0⟩
    let L := forLoop 0 A.n (fun i L => L.set i i 1) s.L
    [s.P, L, s.res]

end Elimination

section Vectors

variable [LinearOrderedField K]

/-- Method `add(other)`, also `operator+`. -/
def add (A other : Mat K) : Mat K :=
  let nx := min A.n other.n
  let mx := min A.m other.m
  forLoop 0 nx (fun i res =>
    forLoop 0 mx (fun j res => res.set i j (A.get i j + other.get i j)) res) (new nx mx)

/-- Method `sub(other)`, also `operator-`. -/
def sub (A other : Mat K) : Mat K :=
  let nx := min A.n other.n
  let mx := min A.m other.m
  forLoop 0 nx (fun i res =>
    forLoop 0 mx (fun j res => res.set i j (A.get i j - other.get i j)) res) (new nx mx)

/-- Scalar product `operator*(const double& other)`. -/
def scale (A : Mat K) (other : K) : Mat K :=
  forLoop 0 A.n (fun i res =>
    forLoop 0 A.m (fun j res => res.set i j (res.get i j * other)) res) (copy A)

/-- Predicate `isZero()`. -/
def isZero (A : Mat K) : Bool :=
  A.mat.all fun i => i.all fun j => decide (j = 0)

/-- Method `col(i)`: column `i` as an `n × 1` matrix. -/
def col (A : Mat K) (i : Nat) : Mat K :=
  forLoop 0 A.n (fun r res => res.set r 0 (A.get r i)) (new A.n 1)

/-- Method `row(i)`: `Matrix res(1, n); for (r = 0; r < m; r++) res.mat[0][r] = mat[i][r];`. -/
def row (A : Mat K) (i : Nat) : Mat K :=
  forLoop 0 A.m (fun r res => res.set 0 r (A.get i r)) (new 1 A.n)

/-- Method `implant(other, s)`. -/
def implant (A other : Mat K) (s : Nat) : Mat K :=
  forLoop 0 (min other.n A.n) (fun i A =>
    forLoop s (min (s + other.m) A.m) (fun j A => A.set i j (other.get i (j - s))) A) A

/-- Method `cdot(other)`: the `[0][0]` entry of `transpose() * other`. -/
def cdot (A other : Mat K) : K :=
  (A.transpose.matmul other).get 0 0

/-- Method `crsq()`. -/
def crsq (A : Mat K) : K := A.cdot A

/-- Method `cnorm()`. -/
def cnorm (sqrt : K → K) (A : Mat K) : K := sqrt A.crsq

/-- Method `cproj(other)`: projection onto the direction of `other`. -/
def cproj (A other : Mat K) : Mat K :=
  other.scale (A.cdot other / other.crsq)

/-- Method `unit()`. -/
def unit (sqrt : K → K) (A : Mat K) : Mat K :=
  (copy A).scale (1 / A.cnorm sqrt)

/-- Method `gramschmidt()`; the loop state is `(res, index)`. -/
def gramschmidt (sqrt : K → K) (A : Mat K) : Mat K :=
  (forLoop 0 A.m (fun i (s : Mat K × Nat) =>
    let res := s.1
    let index := s.2
    let crazyprojection := new A.n 1
    let column := A.col i
    let crazyprojection := forLoop 0 i
      (fun j crazyprojection => crazyprojection.add (column.cproj (res.col j))) crazyprojection
    let incoming := column.sub crazyprojection
    if incoming.isZero then (res, index)
    else (res.implant (incoming.unit sqrt) index, index + 1)) (new A.n A.m, 0)).1

/-- Method `QR()`. -/
def QR (sqrt : K → K) (A : Mat K) : Mat K × Mat K :=
  if A.n ≠ A.m then (NIL, NIL)
  else
    let q := A.gramschmidt sqrt
    let r := forLoop 0 A.n (fun i r =>
      forLoop i A.n (fun j r => r.set i j ((q.col i).cdot (A.col j))) r) (new A.n A.m)
    (q, r)

end Vectors

section Echelon

variable [LinearOrderedField K]

/-- State of the `while` loop of `ref`. -/
structure RefState (K : Type) where
  res : Mat K
  h : Nat
  k : Nat

/-- The `while (h < n && k < m)` loop of `ref`; `fuel` bounds the iterations.  As in
the source, the inner loop of the elimination (`elimBelow`) runs over `j < n`. -/
def refLoop (n m : Nat) : Nat → RefState K → RefState K
  | 0, s => s
  | fuel + 1, s =>
    if s.h < n ∧ s.k < m then
      let scan := pivotScan s.res n s.h s.k
      let mrow := scan.1
      let mbeep := scan.2
      if mbeep = 0 then
        refLoop n m fuel { s with k := s.k + 1 }
      else
        let res := if mrow ≠ (s.h : Int) then (swap n mrow.toNat s.h).matmul s.res else s.res
        let res := elimBelow res n s.h s.k
        refLoop n m fuel { res := res, h := s.h + 1, k := s.k + 1 }
    else s

/-- Method `ref()`.  Every iteration of the loop increments `k`, so `m` iterations
suffice (`refLoop_stop`, `refLoop_fuel`).  On a grid with more rows than columns the
row update of the source leaves the rows (see `elimBelow`); `refGuarded` is the routine
with these accesses checked. -/
def ref (A : Mat K) : Mat K :=
  (refLoop A.n A.m A.m ⟨copy A, 0, 0⟩).res

end Echelon

section Editors

variable [Zero K]

/-- Method `remrow(desired)`; the loop state is `(res, row)`. -/
def remrow (A : Mat K) (desired : Int) : Mat K :=
  if desired < 0 ∨ desired ≥ (A.n : Int) then NIL
  else
    (forLoop 0 A.n (fun i (s : Mat K × Nat) =>
      if (i : Int) = desired then s
      else (forLoop 0 A.m (fun j res => res.set s.2 j (A.get i j)) s.1, s.2 + 1))
      (new (A.n - 1) A.m, 0)).1

/-- Method `remcol(desired)`; the loop state is `(res, col)`. -/
def remcol (A : Mat K) (desired : Int) : Mat K :=
  if desired < 0 ∨ desired ≥ (A.m : Int) then NIL
  else
    (forLoop 0 A.m (fun i (s : Mat K × Nat) =>
      if (i : Int) = desired then s
      else (forLoop 0 A.n (fun j res => res.set j s.2 (A.get j i)) s.1, s.2 + 1))
      (new A.n (A.m - 1), 0)).1

/-- Method `emplace(other, sr, sc)`. -/
def emplace (A other : Mat K) (sr sc : Nat) : Mat K :=
  forLoop sr (min (sr + other.n) A.n) (fun i A =>
    forLoop sc (min (sc + other.m) A.m) (fun j A => A.set i j (other.get (i - sr) (j - sc))) A) A

/-! ### Checked accesses

The source indexes `std::vector` without bounds checks.  The checked variants below
make every access explicit: they return `none` as soon as an index is outside the
stored grid. -/

/-- Checked read of `mat[i][j]`: `none` outside the stored grid. -/
def get? (A : Mat K) (i j : Nat) : Option K :=
  (A.mat.get? i).bind fun r => r.get? j

/-- Checked write `mat[i][j] = v`: `none` outside the stored grid. -/
def set? (A : Mat K) (i j : Nat) (v : K) : Option (Mat K) :=
  if i < A.mat.length ∧ j < (A.mat.getD i []).length then some (A.set i j v) else none

/-- Method `row` with every access checked. -/
def rowChecked (A : Mat K) (i : Nat) : Option (Mat K) :=
  forLoop 0 A.m (fun r (st : Option (Mat K)) =>
    st.bind fun res => (A.get? i r).bind fun v => res.set? 0 r v) (some (new 1 A.n))

/-- Method `emplace` with every access checked. -/
def emplaceChecked (A other : Mat K) (sr sc : Nat) : Option (Mat K) :=
  forLoop sr (min (sr + other.n) A.n) (fun i (st : Option (Mat K)) =>
    st.bind fun A =>
      forLoop sc (min (sc + other.m) A.m) (fun j (st : Option (Mat K)) =>
        st.bind fun A => (other.get? (i - sr) (j - sc)).bind fun v => A.set? i j v) (some A))
    (some A)

/-- Method `implant` with every access checked. -/
def implantChecked (A other : Mat K) (s : Nat) : Option (Mat K) :=
  forLoop 0 (min other.n A.n) (fun i (st : Option (Mat K)) =>
    st.bind fun A =>
      forLoop s (min (s + other.m) A.m) (fun j (st : Option (Mat K)) =>
        st.bind fun A => (other.get? i (j - s)).bind fun v => A.set? i j v) (some A))
    (some A)

end Editors

section CheckedVectors

variable [LinearOrderedField K]

/-- Method `cdot` with the read of `[0][0]` checked. -/
def cdotChecked (A other : Mat K) : Option K :=
  (A.transpose.matmul other).get? 0 0

/-- Method `cproj` with its division checked: `none` when the divisor `other.crsq()`
is `0`.  The source then divides by zero; in `double` the quotient is an infinity or,
for `0 / 0`, a NaN, which spreads to every entry of the projection. -/
def cprojChecked (A other : Mat K) : Option (Mat K) :=
  if other.crsq = 0 then none else some (A.cproj other)

/-- Method `unit` with its division checked: `none` when the divisor `cnorm()` is `0`. -/
def unitChecked (sqrt : K → K) (A : Mat K) : Option (Mat K) :=
  if A.cnorm sqrt = 0 then none else some (A.unit sqrt)

/-- Method `gramschmidt` with every division checked: the same loop as `gramschmidt`,
`none` as soon as `cproj` or `unit` divides by zero. -/
def gramschmidtChecked (sqrt : K → K) (A : Mat K) : Option (Mat K) :=
  (forLoop 0 A.m (fun i (st : Option (Mat K × Nat)) =>
    st.bind fun s =>
      let res := s.1
      let index := s.2
      let crazyprojection := new A.n 1
      let column := A.col i
      let crazyprojection := forLoop 0 i
        (fun j (cp : Option (Mat K)) =>
          cp.bind fun crazyprojection =>
            (column.cprojChecked (res.col j)).map fun p => crazyprojection.add p)
        (some crazyprojection)
      crazyprojection.bind fun crazyprojection =>
        let incoming := column.sub crazyprojection
        if incoming.isZero then some (res, index)
        else (incoming.unitChecked sqrt).map fun u => (res.implant u index, index + 1))
    (some (new A.n A.m, 0))).map fun s => s.1

end CheckedVectors

section CheckedElimination

variable [LinearOrderedField K]

/-! ### Checked divisions of the elimination routines

The variants below are the routines `ref`, `det`, `inverse` and `PLU` with every
division made explicit: they return `none` as soon as a divisor is `0`. -/

/-- Checked quotient `a / b`: `none` when the divisor is `0`. -/
def div? (a b : K) : Option K := if b = 0 then none else some (a / b)

/-- The row-elimination loop of `ref` and `det` with its division checked. -/
def elimBelowChecked (res : Mat K) (n h k : Nat) : Option (Mat K) :=
  forLoop (h + 1) n (fun i (st : Option (Mat K)) =>
    st.bind fun res =>
      (div? (res.get i k) (res.get h k)).map fun val =>
        let res := res.set i k 0
        forLoop (k + 1) n (fun j res => res.set i j (res.get i j - val * res.get h j)) res)
    (some res)

/-- The loop of `ref` with every division checked. -/
def refLoopChecked (n m : Nat) : Nat → RefState K → Option (RefState K)
  | 0, s => some s
  | fuel + 1, s =>
    if s.h < n ∧ s.k < m then
      let scan := pivotScan s.res n s.h s.k
      let mrow := scan.1
      let mbeep := scan.2
      if mbeep = 0 then refLoopChecked n m fuel { s with k := s.k + 1 }
      else
        let res := if mrow ≠ (s.h : Int) then (swap n mrow.toNat s.h).matmul s.res else s.res
        (elimBelowChecked res n s.h s.k).bind fun res =>
          refLoopChecked n m fuel { res := res, h := s.h + 1, k := s.k + 1 }
    else some s

/-- Method `ref` with every division checked. -/
def refChecked (A : Mat K) : Option (Mat K) :=
  (refLoopChecked A.n A.m A.m ⟨copy A, 0, 0⟩).map fun s => s.res

/-- The loop of `det` with every division checked. -/
def detLoopChecked (n m : Nat) : Nat → DetState K → Option (DetState K)
  | 0, s => some s
  | fuel + 1, s =>
    if s.h < n ∧ s.k < m then
      let scan := pivotScan s.res n s.h s.k
      let mrow := scan.1
      let mbeep := scan.2
      if mbeep = 0 then
        detLoopChecked n m fuel { s with k := s.k + 1 }
      else
        let s :=
          if mrow ≠ (s.h : Int) then
            { s with detscal := s.detscal * (-1),
                     res := (swap n mrow.toNat s.h).matmul s.res }
          else s
        (elimBelowChecked s.res n s.h s.k).bind fun res =>
          detLoopChecked n m fuel { s with res := res, h := s.h + 1, k := s.k + 1 }
    else some s

/-- Method `det` with every division checked. -/
def detChecked (A : Mat K) : Option K :=
  if A.n ≠ A.m then some 0
  else
    (detLoopChecked A.n A.m A.m ⟨copy A, 0, 0, 1⟩).map fun s =>
      forLoop 0 A.n (fun i detscal => detscal * s.res.get i i) s.detscal

/-- The loop of `inverse` with every division checked. -/
def invLoopChecked (n m : Nat) : Nat → InvState K → Option (InvState K)
  | 0, s => some s
  | fuel + 1, s =>
    if s.h < n ∧ s.k < m then
      let scan := pivotScan s.res n s.h s.k
      let mrow := scan.1
      let mbeep := scan.2
      if mbeep = 0 then
        invLoopChecked n m fuel { s with k := s.k + 1 }
      else
        let res := (swap n mrow.toNat s.h).matmul s.res
        let inv := (swap n mrow.toNat s.h).matmul s.inv
        let p := forLoop (s.h + 1) n (fun i (st : Option (Mat K × Mat K)) =>
          st.bind fun p =>
            let res := p.1
            let inv := p.2
            (div? (res.get i s.k) (res.get s.h s.k)).map fun val =>
              let res := res.set i s.k 0
              let res := forLoop (s.k + 1) n
                (fun j res => res.set i j (res.get i j - val * res.get s.h j)) res
              let inv := forLoop 0 n
                (fun j inv => inv.set i j (inv.get i j - val * inv.get s.h j)) inv
              (res, inv)) (some (res, inv))
        p.bind fun p =>
          invLoopChecked n m fuel { s with res := p.1, inv := p.2, h := s.h + 1, k := s.k + 1 }
    else some s

/-- Method `inverse` with every division checked: the forward elimination, the
backward pass and the final scaling of the rows. -/
def inverseChecked (A : Mat K) : Option (Mat K) :=
  if A.n ≠ A.m then some NIL
  else
    (invLoopChecked A.n A.m A.m ⟨copy A, eye A.n, 0, 0⟩).bind fun s =>
      if forLoop 0 A.n (fun i (ret : Bool) => ret || decide (s.res.get i i = 0)) false then
        some NIL
      else
        let p := forLoop 1 A.n (fun h (st : Option (Mat K × Mat K)) =>
          forLoop 0 h (fun i (st : Option (Mat K × Mat K)) =>
            st.bind fun p =>
              let res := p.1
              let inv := p.2
              if res.get i h = 0 then some (res, inv)
              else
                (div? (res.get i h) (res.get h h)).map fun val =>
                  forLoop 0 A.m (fun j (p : Mat K × Mat K) =>
                    let res := p.1
                    let inv := p.2
                    let res := res.set i j (res.get i j - val * res.get h j)
                    let inv := inv.set i j (inv.get i j - val * inv.get h j)
                    (res, inv)) (res, inv)) st) (some (s.res, s.inv))
        p.bind fun p =>
          let res := p.1
          forLoop 0 A.n (fun i (st : Option (Mat K)) =>
            forLoop 0 A.m (fun j (st : Option (Mat K)) =>
              st.bind fun inv =>
                (div? (inv.get i j) (res.get i i)).map fun q => inv.set i j q) st) (some p.2)

/-- The loop of `PLU` with every division checked. -/
def pluLoopChecked (n m : Nat) : Nat → PLUState K → Option (PLUState K)
  | 0, s => some s
  | fuel + 1, s =>
    if s.h < n ∧ s.k < m then
      let scan := pivotScan s.res n s.h s.k
      let mrow := scan.1
      let mbeep := scan.2
      if mbeep = 0 then
        pluLoopChecked n m fuel { s with k := s.k + 1 }
      else
        let s :=
          if mrow ≠ (s.h : Int) then
            { s with P := (swap n mrow.toNat s.h).matmul s.P,
                     L := (swap n mrow.toNat s.h).matmul s.L,
                     res := (swap n mrow.toNat s.h).matmul s.res }
          else s
        let p := forLoop (s.h + 1) n (fun i (st : Option (Mat K × Mat K)) =>
          st.bind fun p =>
            let res := p.1
            let L := p.2
            (div? (res.get i s.k) (res.get s.h s.k)).map fun val =>
              let res := res.set i s.k 0
              let res := forLoop (s.k + 1) n
                (fun j res => res.set i j (res.get i j - val * res.get s.h j)) res
              let L := L.set i s.h val
              (res, L)) (some (s.res, s.L))
        p.bind fun p =>
          pluLoopChecked n m fuel { s with res := p.1, L := p.2, h := s.h + 1, k := s.k + 1 }
    else some s

/-- Method `PLU` with every division checked. -/
def PLUChecked (A : Mat K) : Option (List (Mat K)) :=
  if A.n ≠ A.m then some [NIL, NIL, NIL]
  else
    (pluLoopChecked A.n A.m A.m ⟨copy A, new A.n A.m, eye A.n, 0, 0⟩).map fun s =>
      let L := forLoop 0 A.n (fun i L => L.set i i 1) s.L
      [s.P, L, s.res]

end CheckedElimination

section GuardedEchelon

variable [LinearOrderedField K]

/-! ### Checked accesses of `ref`

The row update of the elimination step runs over the columns `k + 1 .. n - 1`, where
`n` is the row count.  The variants below are the loop of `ref` with every read and
write of `res.mat` checked: they return `none` as soon as an index is outside the
stored grid. -/

/-- The pivot scan with every read checked. -/
def pivotScanGuarded (res : Mat K) (n h k : Nat) : Option (Int × K) :=
  forLoop h n (fun i (st : Option (Int × K)) =>
    st.bind fun s =>
      (res.get? i k).map fun x =>
        let test := |x|
        if test > s.2 then ((i : Int), test) else s) (some (-1, 0))

/-- The row-elimination loop with every read and write checked. -/
def elimBelowGuarded (res : Mat K) (n h k : Nat) : Option (Mat K) :=
  forLoop (h + 1) n (fun i (st : Option (Mat K)) =>
    st.bind fun res =>
      (res.get? i k).bind fun a =>
        (res.get? h k).bind fun b =>
          let val := a / b
          (res.set? i k 0).bind fun res =>
            forLoop (k + 1) n (fun j (st : Option (Mat K)) =>
              st.bind fun res =>
                (res.get? i j).bind fun x =>
                  (res.get? h j).bind fun y => res.set? i j (x - val * y)) (some res))
    (some res)

/-- The loop of `ref` with every access to `res.mat` checked. -/
def refLoopGuarded (n m : Nat) : Nat → RefState K → Option (RefState K)
  | 0, s => some s
  | fuel + 1, s =>
    if s.h < n ∧ s.k < m then
      (pivotScanGuarded s.res n s.h s.k).bind fun scan =>
        let mrow := scan.1
        let mbeep := scan.2
        if mbeep = 0 then refLoopGuarded n m fuel { s with k := s.k + 1 }
        else
          let res := if mrow ≠ (s.h : Int) then (swap n mrow.toNat s.h).matmul s.res else s.res
          (elimBelowGuarded res n s.h s.k).bind fun res =>
            refLoopGuarded n m fuel { res := res, h := s.h + 1, k := s.k + 1 }
    else some s

/-- Method `ref` with every access to `res.mat` checked. -/
def refGuarded (A : Mat K) : Option (Mat K) :=
  (refLoopGuarded A.n A.m A.m ⟨copy A, 0, 0⟩).map fun s => s.res

end GuardedEchelon

section DoubleArithmetic

/-! ### Arithmetic in `double`

The source computes in IEEE 754 `double`.  The definitions below model it on the
rationals: a finite `double` is the rational it denotes, and every operation returns
the exact result rounded to the nearest `double`, ties to even (`roundDouble`), without
fused multiply-add.  `none` stands for a result outside the finite doubles: an overflow
or a division by zero, where the source produces an infinity or a NaN. -/

/-- The power `2 ^ e` for an integer exponent. -/
def pow2 (e : Int) : ℚ :=
  if 0 ≤ e then ((2 ^ e.toNat : Nat) : ℚ) else 1 / ((2 ^ (-e).toNat : Nat) : ℚ)

/-- Halving `n` until it is below `2`, at most `fuel` times: the number of halvings. -/
def halvings : Nat → Nat → Nat
  | 0, _ => 0
  | fuel + 1, n => if n < 2 then 0 else halvings fuel (n / 2) + 1

/-- The binary logarithm `⌊log₂ n⌋` of a positive natural number. -/
def floorLog2 (n : Nat) : Nat := halvings n n

/-- The binary exponent `⌊log₂ a⌋` of a positive rational. -/
def ilog2 (a : ℚ) : Int :=
  let e0 : Int := (floorLog2 a.num.natAbs : Int) - (floorLog2 a.den : Int)
  if a < pow2 e0 then e0 - 1 else e0

/-- Rounding to the nearest `double`, ties to even: 53 significant bits for normal
numbers, multiples of `2 ^ (-1074)` below `2 ^ (-1022)`; `none` from `2 ^ 1024` on. -/
def roundDouble (q : ℚ) : Option ℚ :=
  if q = 0 then some 0
  else
    let a := |q|
    let quantum := pow2 (max (ilog2 a - 52) (-1074))
    let t := a / quantum
    let f : Int := Rat.floor t
    let r := t - (f : ℚ)
    let m : Int :=
      if r < 1 / 2 then f else if 1 / 2 < r then f + 1 else if f % 2 = 0 then f else f + 1
    let v := (m : ℚ) * quantum
    if pow2 1024 ≤ v then none else some (if q < 0 then -v else v)

/-- The sum `a + b` in `double`. -/
def fadd (a b : ℚ) : Option ℚ := roundDouble (a + b)

/-- The difference `a - b` in `double`. -/
def fsub (a b : ℚ) : Option ℚ := roundDouble (a - b)

/-- The product `a * b` in `double`. -/
def fmul (a b : ℚ) : Option ℚ := roundDouble (a * b)

/-- The quotient `a / b` in `double`; `none` for a zero divisor. -/
def fdiv (a b : ℚ) : Option ℚ := if b = 0 then none else roundDouble (a / b)

/-- The update `x -= val * y` in `double`: the product is rounded, then the difference. -/
def fsubmul (x val y : ℚ) : Option ℚ := (fmul val y).bind fun p => fsub x p

/-- Product `matmul(other)` in `double`: `res.mat[i][j] += mat[i][k] * other.mat[k][j]`. -/
def matmulDouble (A other : Mat ℚ) : Option (Mat ℚ) :=
  if A.m ≠ other.n then some NIL
  else
    forLoop 0 A.n (fun i (st : Option (Mat ℚ)) =>
      forLoop 0 other.m (fun j (st : Option (Mat ℚ)) =>
        forLoop 0 A.m (fun k (st : Option (Mat ℚ)) =>
          st.bind fun res =>
            (fmul (A.get i k) (other.get k j)).bind fun p =>
              (fadd (res.get i j) p).map fun s => res.set i j s) st) st)
      (some (new A.n other.m))

/-- The `while` loop of `inverse` in `double`. -/
def invLoopDouble (n m : Nat) : Nat → InvState ℚ → Option (InvState ℚ)
  | 0, s => some s
  | fuel + 1, s =>
    if s.h < n ∧ s.k < m then
      let scan := pivotScan s.res n s.h s.k
      let mrow := scan.1
      let mbeep := scan.2
      if mbeep = 0 then
        invLoopDouble n m fuel { s with k := s.k + 1 }
      else
        (matmulDouble (swap n mrow.toNat s.h) s.res).bind fun res =>
        (matmulDouble (swap n mrow.toNat s.h) s.inv).bind fun inv =>
          let p := forLoop (s.h + 1) n (fun i (st : Option (Mat ℚ × Mat ℚ)) =>
            st.bind fun p =>
              let res := p.1
              let inv := p.2
              (fdiv (res.get i s.k) (res.get s.h s.k)).bind fun val =>
                let res := res.set i s.k 0
                let res := forLoop (s.k + 1) n (fun j (st : Option (Mat ℚ)) =>
                  st.bind fun res =>
                    (fsubmul (res.get i j) val (res.get s.h j)).map fun x => res.set i j x)
                  (some res)
                let inv := forLoop 0 n (fun j (st : Option (Mat ℚ)) =>
                  st.bind fun inv =>
                    (fsubmul (inv.get i j) val (inv.get s.h j)).map fun x => inv.set i j x)
                  (some inv)
                res.bind fun res => inv.map fun inv => (res, inv)) (some (res, inv))
          p.bind fun p =>
            invLoopDouble n m fuel
              { s with res := p.1, inv := p.2, h := s.h + 1, k := s.k + 1 }
    else some s

/-- Method `inverse()` in `double`: the forward elimination, the test
`res.mat[i][i] == 0`, the backward pass and the final scaling of the rows. -/
def inverseDouble (A : Mat ℚ) : Option (Mat ℚ) :=
  if A.n ≠ A.m then some NIL
  else
    (invLoopDouble A.n A.m A.m ⟨copy A, eye A.n, 0, 0⟩).bind fun s =>
      if forLoop 0 A.n (fun i (ret : Bool) => ret || decide (s.res.get i i = 0)) false then
        some NIL
      else
        let p := forLoop 1 A.n (fun h (st : Option (Mat ℚ × Mat ℚ)) =>
          forLoop 0 h (fun i (st : Option (Mat ℚ × Mat ℚ)) =>
            st.bind fun p =>
              let res := p.1
              let inv := p.2
              if res.get i h = 0 then some (res, inv)
              else
                (fdiv (res.get i h) (res.get h h)).bind fun val =>
                  forLoop 0 A.m (fun j (st : Option (Mat ℚ × Mat ℚ)) =>
                    st.bind fun p =>
                      let res := p.1
                      let inv := p.2
                      (fsubmul (res.get i j) val (res.get h j)).bind fun x =>
                        (fsubmul (inv.get i j) val (inv.get h j)).map fun y =>
                          (res.set i j x, inv.set i j y)) (some (res, inv))) st)
          (some (s.res, s.inv))
        p.bind fun p =>
          let res := p.1
          forLoop 0 A.n (fun i (st : Option (Mat ℚ)) =>
            forLoop 0 A.m (fun j (st : Option (Mat ℚ)) =>
              st.bind fun inv =>
                (fdiv (inv.get i j) (res.get i i)).map fun q => inv.set i j q) st) (some p.2)

end DoubleArithmetic

/-! ### Specification-level definitions

Well-formedness, the abstraction to mathematical matrices and the loop invariants
used by the proofs below. -/

/-- Well-formedness: the grid has exactly `n` rows, each of length `m`, and the
stored dimensions are `n` and `m`. -/
def WF (A : Mat K) (n m : Nat) : Prop :=
  A.n = n ∧ A.m = m ∧ A.mat.length = n ∧ ∀ r ∈ A.mat, r.length = m

/-- Abstraction of a stored grid as a mathematical matrix. -/
def toM [Zero K] (A : Mat K) (n m : Nat) : Matrix (Fin n) (Fin m) K :=
  Matrix.of fun i j => A.get i j

/-- Index exchange: `a ↦ b`, `b ↦ a`, everything else fixed. -/
def swapIdx (a b r : Nat) : Nat := if r = a then b else if r = b then a else r

/-- Multiplier of row `a` in the elimination step with pivot `(h, k)`:
`res[a][k] / res[h][k]` for the rows below `h`, and `0` for the other rows. -/
def elimCoef [LinearOrderedField K] (res : Mat K) (n h k a : Nat) : K :=
  if h + 1 ≤ a ∧ a < n then res.get a k / res.get h k else 0

/-- Progress invariant of the forward elimination on an `n × n` grid: the rows
from `h` on vanish left of column `k`, the rows above `h` vanish left of the
diagonal. -/
def Ech [Zero K] (res : Mat K) (n h k : Nat) : Prop :=
  res.WF n n ∧ h ≤ k ∧ k ≤ n ∧
  (∀ a b, h ≤ a → b < k → res.get a b = 0) ∧
  (∀ a b, a < h → b < a → res.get a b = 0)

/-- The row operation `row i -= c i * row h` on mathematical matrices. -/
def rowOp [Ring K] {n p : Nat} (c : Fin n → K) (h : Fin n)
    (R : Matrix (Fin n) (Fin p) K) : Matrix (Fin n) (Fin p) K :=
  Matrix.of fun i j => R i j - c i * R h j

/-- Invariant of the backward pass of `inverse` before pivot row `t` is used:
`inv * M = res`, `res` is upper triangular with diagonal `d`, and the columns left
of `t` are already cleared above the diagonal. -/
def BackInv [LinearOrderedField K] {n : Nat} (M : Matrix (Fin n) (Fin n) K) (d : Nat → K)
    (t : Nat) (p : Mat K × Mat K) : Prop :=
  p.1.WF n n ∧ p.2.WF n n ∧ p.2.toM n n * M = p.1.toM n n ∧
  (∀ a b, b < a → p.1.get a b = 0) ∧ (∀ a, p.1.get a a = d a) ∧
  (∀ a b, a < b → b < t → p.1.get a b = 0)

/-- Invariant of the `while` loop of `PLU` for the input `M`: `P * M = res + L * res`
(the diagonal of `L` is still `0`), `L` is strictly lower triangular with zero
columns from `h` on, and `P` is the matrix of a permutation. -/
def PLUInv [LinearOrderedField K] {n : Nat} (M : Matrix (Fin n) (Fin n) K)
    (s : PLUState K) : Prop :=
  Ech s.res n s.h s.k ∧ s.L.WF n n ∧ s.P.WF n n ∧
  s.P.toM n n * M = s.res.toM n n + s.L.toM n n * s.res.toM n n ∧
  (∀ a b, s.h ≤ b → s.L.get a b = 0) ∧ (∀ a b, a ≤ b → s.L.get a b = 0) ∧
  ∃ σ : Equiv.Perm (Fin n), ∀ i j : Fin n, s.P.get i j = if σ i = j then 1 else 0

/-- Column `c` of a grid with `n` rows, as a vector. -/
def colv [Zero K] (M : Mat K) (n c : Nat) : Fin n → K := fun r => M.get r c

/-- Invariant of the loop of `gramschmidt` on a full-rank input after `i` columns:
`index = i`, the first `i` columns of `res` are orthonormal, the later ones are still
zero, every processed column of `A` is the combination of the output columns up to
its own index with the coefficients that `QR` stores, and the output columns lie in
the span of the processed input columns. -/
def GSInv [LinearOrderedField K] (A : Mat K) (n i : Nat) (st : Mat K × Nat) : Prop :=
  st.2 = i ∧ st.1.WF n n ∧ (∀ r c, i ≤ c → st.1.get r c = 0) ∧
  (∀ c d, c < i → d < i →
    Matrix.dotProduct (colv st.1 n c) (colv st.1 n d) = if c = d then 1 else 0) ∧
  (∀ c, c < i → colv A n c = ∑ t in Finset.range (c + 1),
    Matrix.dotProduct (colv st.1 n t) (colv A n c) • colv st.1 n t) ∧
  (∀ c, c < i → colv st.1 n c ∈
    Submodule.span K ((fun t : Fin n => colv A n t) '' {t | (t : Nat) < i}))

/-- Column `j` holds the leading (first non-zero) entry of row `i`. -/
def IsLead [Zero K] (R : Mat K) (i j : Nat) : Prop :=
  R.get i j ≠ 0 ∧ ∀ t, t < j → R.get i t = 0

/-- Row `i` consists of zeros. -/
def ZeroRow [Zero K] (R : Mat K) (i : Nat) : Prop := ∀ j, R.get i j = 0

/-- Row echelon form of a grid with `n` rows: the zero rows come after the non-zero
rows, and the leading entry of a non-zero row lies strictly to the right of the
leading entry of the row above (which is therefore a non-zero row too). -/
def IsEchelon [Zero K] (R : Mat K) (n : Nat) : Prop :=
  (∀ i i', i < i' → i' < n → ZeroRow R i → ZeroRow R i') ∧
  (∀ i j', i + 1 < n → IsLead R (i + 1) j' → ∃ j, j < j' ∧ IsLead R i j)

/-- Progress invariant of the loop of `ref` on an `n × m` grid: the rows from `h` on
vanish left of column `k`, and the rows above `h` have leading entries in strictly
increasing columns left of `k`. -/
def RefInv [Zero K] (res : Mat K) (n m h k : Nat) : Prop :=
  res.WF n m ∧ h ≤ n ∧ k ≤ m ∧
  (∀ a b, h ≤ a → b < k → res.get a b = 0) ∧
  (∀ i, i < h → ∃ j, j < k ∧ IsLead res i j) ∧
  (∀ i j', i + 1 < h → IsLead res (i + 1) j' → ∃ j, j < j' ∧ IsLead res i j)

instance decidableWF (A : Mat K) (n m : Nat) : Decidable (A.WF n m) := by
  unfold WF
  infer_instance

end Mat

/-! ### Concrete inputs -/

/-- Scenario 1 of the specification: `[[2, 1], [1, 1]]`. -/
def exampleA : Mat ℚ := ⟨2, 2, [[2, 1], [1, 1]]⟩

/-- Scenario 2 of the specification: `[[0, 1], [1, 0]]`. -/
def exampleSwap : Mat ℚ := ⟨2, 2, [[0, 1], [1, 0]]⟩

/-- A singular grid whose first column is zero, so that elimination skips a column. -/
def exampleSkip : Mat ℚ := ⟨3, 3, [[0, 1, 2], [0, 3, 4], [0, 7, 11]]⟩

/-- A non-square `2 × 3` grid (scenario 5 of the specification). -/
def exampleWide : Mat ℚ := ⟨2, 3, [[1, 2, 3], [4, 5, 6]]⟩

/-- A `2 × 3` grid on which `ref` eliminates one row. -/
def exampleRef : Mat ℚ := ⟨2, 3, [[1, 2, 3], [1, 1, 1]]⟩

/-- A rank-deficient `2 × 2` grid: the first column is zero, the second is not. -/
def exampleDep : Mat ℚ := ⟨2, 2, [[0, 1], [0, 0]]⟩

/-- A grid with one row and no column. -/
def exampleNoCol : Mat ℚ := ⟨1, 0, [[]]⟩

/-- A grid with one column and no row. -/
def exampleNoRow : Mat ℚ := ⟨0, 1, []⟩

/-- A grid with two rows and one column. -/
def exampleTall : Mat ℚ := ⟨2, 1, [[1], [2]]⟩

/-- A singular `3 × 3` grid: the third row is the sum of the first two. -/
def exampleSumRows : Mat ℚ := ⟨3, 3, [[1, 2, 3], [4, 5, 6], [5, 7, 9]]⟩

/-- A direction in the plane, as a column vector. -/
def exampleDir : Mat ℚ := ⟨2, 1, [[3], [1]]⟩

/-- A unit lower triangular grid whose first column ties in absolute value. -/
def exampleLower : Mat ℚ := ⟨2, 2, [[1, 0], [-1, 1]]⟩

/-- The column vector `[3, 4]ᵗ` over the reals. -/
def exampleV34 : Mat ℝ := ⟨2, 1, [[3], [4]]⟩

/-- The `2 × 2` identity over the reals. -/
def exampleRealId : Mat ℝ := ⟨2, 2, [[1, 0], [0, 1]]⟩

/-! ## Counted loops -/

theorem loopFrom_succ {σ : Type} (f : Nat → σ → σ) (cnt : Nat) :
    ∀ (lo : Nat) (s : σ), loopFrom f lo (cnt + 1) s = f (lo + cnt) (loopFrom f lo cnt s) := by
  induction cnt with
  | zero => intro lo s; rfl
  | succ c ih =>
    intro lo s
    have e := ih (lo + 1) (f lo s)
    have a : lo + 1 + c = lo + (c + 1) := by omega
    rw [a] at e
    exact e

theorem forLoop_of_le {σ : Type} {lo hi : Nat} (f : Nat → σ → σ) (s : σ) (h : hi ≤ lo) :
    forLoop lo hi f s = s := by
  unfold forLoop
  rw [Nat.sub_eq_zero_of_le h]
  rfl

theorem forLoop_succ {σ : Type} {lo hi : Nat} (f : Nat → σ → σ) (s : σ) (h : lo ≤ hi) :
    forLoop lo (hi + 1) f s = f hi (forLoop lo hi f s) := by
  unfold forLoop
  have a : hi + 1 - lo = (hi - lo) + 1 := by omega
  rw [a, loopFrom_succ]
  congr 1
  omega

/-- Invariant rule for counted loops. -/
theorem forLoop_inv {σ : Type} (lo hi : Nat) (f : Nat → σ → σ) (s : σ) (P : Nat → σ → Prop)
    (hle : lo ≤ hi) (h0 : P lo s)
    (hstep : ∀ i t, lo ≤ i → i < hi → P i t → P (i + 1) (f i t)) :
    P hi (forLoop lo hi f s) := by
  induction hi with
  | zero =>
    have : lo = 0 := by omega
    subst this
    simpa [forLoop, loopFrom] using h0
  | succ hi ih =>
    by_cases e : lo = hi + 1
    · subst e
      rw [forLoop_of_le f s (le_refl _)]
      exact h0
    · have hle2 : lo ≤ hi := by omega
      rw [forLoop_succ f s hle2]
      apply hstep hi _ hle2 (by omega)
      exact ih hle2 (fun i t h1 h2 h3 => hstep i t h1 (by omega) h3)

/-- Invariant rule that also covers empty ranges: the invariant does not mention the counter. -/
theorem forLoop_inv0 {σ : Type} {lo hi : Nat} (f : Nat → σ → σ) (s : σ) (P : σ → Prop)
    (h0 : P s) (hstep : ∀ i t, lo ≤ i → i < hi → P t → P (f i t)) :
    P (forLoop lo hi f s) := by
  by_cases hle : lo ≤ hi
  · exact forLoop_inv lo hi f s (fun _ t => P t) hle h0 hstep
  · rw [forLoop_of_le f s (by omega)]
    exact h0

namespace Mat

variable {K : Type}

/-! ## Grid accesses -/

theorem WF.length_getD {A : Mat K} {n m : Nat} (h : A.WF n m) {i : Nat} (hi : i < n) :
    (A.mat.getD i []).length = m := by
  obtain ⟨-, -, h3, h4⟩ := h
  apply h4
  rw [List.getD_eq_getElem _ _ (by omega)]
  exact List.getElem_mem _

theorem getD_set_list {α : Type} (l : List α) (i k : Nat) (a d : α) :
    (l.set i a).getD k d = if k = i ∧ i < l.length then a else l.getD k d := by
  simp only [List.getD_eq_getElem?_getD, List.getElem?_set]
  by_cases h1 : i = k
  · subst h1
    by_cases h2 : i < l.length
    · simp [h2]
    · simp [h2, List.getElem?_eq_none (by omega : l.length ≤ i)]
  · have h3 : ¬ k = i := fun e => h1 e.symm
    simp [h1, h3]

theorem WF.set {A : Mat K} {n m : Nat} (h : A.WF n m) (i j : Nat) (v : K) :
    (A.set i j v).WF n m := by
  have hlen := h.2.2.1
  refine ⟨h.1, h.2.1, by simp [Mat.set, hlen], ?_⟩
  intro r hr
  simp only [Mat.set] at hr
  rcases List.mem_or_eq_of_mem_set hr with hr | hr
  · exact h.2.2.2 r hr
  · subst hr
    rw [List.length_set]
    by_cases hi : i < n
    · exact h.length_getD hi
    · rw [List.set_eq_of_length_le (by omega)] at hr
      have := h.2.2.2 _ hr
      rw [List.length_set] at this
      exact this

theorem WF_new [Zero K] (a b : Nat) : (new a b : Mat K).WF a b := by
  refine ⟨rfl, rfl, by simp [new], ?_⟩
  intro r hr
  simp only [new] at hr
  rw [List.eq_of_mem_replicate hr]
  simp

theorem get_of_row_ge [Zero K] {A : Mat K} {n m : Nat} (h : A.WF n m) {i : Nat} (j : Nat)
    (hi : n ≤ i) : A.get i j = 0 := by
  have e : A.mat.getD i [] = [] := List.getD_eq_default _ _ (by rw [h.2.2.1]; exact hi)
  simp only [get, e, List.getD_nil]

theorem get_of_col_ge [Zero K] {A : Mat K} {n m : Nat} (h : A.WF n m) (i : Nat) {j : Nat}
    (hj : m ≤ j) : A.get i j = 0 := by
  by_cases hi : i < n
  · exact List.getD_eq_default _ _ (by rw [h.length_getD hi]; exact hj)
  · exact get_of_row_ge h j (by omega)

theorem get_new [Zero K] (a b i j : Nat) : (new a b : Mat K).get i j = 0 := by
  by_cases hi : i < a
  · have e : (new a b : Mat K).mat.getD i [] = List.replicate b 0 := by
      simp only [new]
      rw [List.getD_eq_getElem _ _ (by simpa using hi)]
      simp
    simp only [get, e]
    by_cases hj : j < b
    · rw [List.getD_eq_getElem _ _ (by simpa using hj)]
      simp
    · rw [List.getD_eq_default _ _ (by simpa using hj)]
  · exact get_of_row_ge (WF_new a b) j (by omega)

theorem get_set [Zero K] {A : Mat K} {n m : Nat} (h : A.WF n m) (i j : Nat) (v : K)
    (a b : Nat) :
    (A.set i j v).get a b = if a = i ∧ b = j ∧ i < n ∧ j < m then v else A.get a b := by
  simp only [get, Mat.set, getD_set_list, h.2.2.1]
  by_cases h1 : a = i ∧ i < n
  · obtain ⟨h1, h2⟩ := h1
    subst h1
    simp only [true_and, h2, if_true, getD_set_list, h.length_getD h2, and_true]
  · have h2 : ¬ (a = i ∧ b = j ∧ i < n ∧ j < m) := fun e => h1 ⟨e.1, e.2.2.1⟩
    rw [if_neg h1, if_neg h2]

theorem ext_get [Zero K] {A B : Mat K} {n m : Nat} (hA : A.WF n m) (hB : B.WF n m)
    (h : ∀ i j, i < n → j < m → A.get i j = B.get i j) : A = B := by
  obtain ⟨An, Am, Amat⟩ := A
  obtain ⟨Bn, Bm, Bmat⟩ := B
  have e1 : An = Bn := hA.1.trans hB.1.symm
  have e2 : Am = Bm := hA.2.1.trans hB.2.1.symm
  have e3 : Amat = Bmat := by
    apply List.ext_getElem
    · exact hA.2.2.1.trans hB.2.2.1.symm
    · intro i h1 h2
      have hi : i < n := by have := hA.2.2.1; simp only at this; omega
      have la := hA.length_getD hi
      have lb := hB.length_getD hi
      simp only at la lb
      rw [List.getD_eq_getElem _ _ h1] at la
      rw [List.getD_eq_getElem _ _ h2] at lb
      apply List.ext_getElem
      · rw [la, lb]
      · intro j h3 h4
        have hj : j < m := by omega
        have := h i j hi hj
        simp only [get] at this
        rw [List.getD_eq_getElem _ _ h1, List.getD_eq_getElem _ _ h2,
          List.getD_eq_getElem _ _ h3, List.getD_eq_getElem _ _ h4] at this
        exact this
  subst e1 e2 e3
  rfl

end Mat

theorem forLoop_prod {α β : Type} (lo hi : Nat) (f : Nat → α → α) (g : Nat → β → β)
    (a : α) (b : β) :
    forLoop lo hi (fun i (p : α × β) => (f i p.1, g i p.2)) (a, b)
      = (forLoop lo hi f a, forLoop lo hi g b) := by
  by_cases hle : lo ≤ hi
  · exact forLoop_inv lo hi (fun i (p : α × β) => (f i p.1, g i p.2)) (a, b)
      (fun t p => p = (forLoop lo t f a, forLoop lo t g b)) hle
      (by simp [forLoop_of_le]) (by
        intro i t h1 _ ht
        rw [ht, forLoop_succ f a h1, forLoop_succ g b h1])
  · rw [forLoop_of_le _ _ (by omega), forLoop_of_le _ _ (by omega),
      forLoop_of_le _ _ (by omega)]

namespace Mat

variable {K : Type}

theorem ext_get_all [Zero K] {A B : Mat K} {n m : Nat} (hA : A.WF n m) (hB : B.WF n m)
    (h : ∀ i j, A.get i j = B.get i j) : A = B :=
  ext_get hA hB (fun i j _ _ => h i j)

/-- A loop writing the cells `(i, lo) .. (i, hi - 1)` of one row, where the value
written at column `j` is determined by the cells not yet written. -/
theorem forLoop_set_row [Zero K] {n m : Nat} {res0 : Mat K} (hw : res0.WF n m)
    (i lo hi : Nat) (G : Mat K → Nat → K) (F : Nat → K)
    (hG : ∀ j res, lo ≤ j → j < hi → res.WF n m →
      (∀ a b, ¬ (a = i ∧ lo ≤ b ∧ b < j) → res.get a b = res0.get a b) → G res j = F j) :
    (forLoop lo hi (fun j res => res.set i j (G res j)) res0).WF n m ∧
    ∀ a b, (forLoop lo hi (fun j res => res.set i j (G res j)) res0).get a b
      = if a = i ∧ lo ≤ b ∧ b < hi ∧ i < n ∧ b < m then F b else res0.get a b := by
  by_cases hle : lo ≤ hi
  · refine forLoop_inv lo hi (fun j res => res.set i j (G res j)) res0
      (fun t res => res.WF n m ∧ ∀ a b, res.get a b
        = if a = i ∧ lo ≤ b ∧ b < t ∧ i < n ∧ b < m then F b else res0.get a b) hle
      ⟨hw, fun a b => by
        have : ¬ (a = i ∧ lo ≤ b ∧ b < lo ∧ i < n ∧ b < m) := by omega
        rw [if_neg this]⟩ ?_
    intro j t h1 h2 ⟨tw, tg⟩
    refine ⟨tw.set _ _ _, fun a b => ?_⟩
    have hGj : G t j = F j := hG j t h1 h2 tw (fun a b hab => by
      rw [tg]
      have : ¬ (a = i ∧ lo ≤ b ∧ b < j ∧ i < n ∧ b < m) := fun e => hab ⟨e.1, e.2.1, e.2.2.1⟩
      rw [if_neg this])
    rw [get_set tw, tg, hGj]
    by_cases c1 : a = i ∧ b = j ∧ i < n ∧ j < m
    · obtain ⟨rfl, rfl, c3, c4⟩ := c1
      have : a = a ∧ lo ≤ b ∧ b < b + 1 ∧ a < n ∧ b < m := ⟨rfl, h1, by omega, c3, c4⟩
      rw [if_pos ⟨rfl, rfl, c3, c4⟩, if_pos this]
    · rw [if_neg c1]
      have : (a = i ∧ lo ≤ b ∧ b < j + 1 ∧ i < n ∧ b < m)
          ↔ (a = i ∧ lo ≤ b ∧ b < j ∧ i < n ∧ b < m) := by
        constructor
        · rintro ⟨e1, e2, e3, e4, e5⟩
          refine ⟨e1, e2, ?_, e4, e5⟩
          rcases Nat.lt_or_ge b j with q | q
          · exact q
          · exact absurd ⟨e1, by omega, e4, by omega⟩ c1
        · rintro ⟨e1, e2, e3, e4, e5⟩
          exact ⟨e1, e2, by omega, e4, e5⟩
      simp only [this]
  · rw [forLoop_of_le _ _ (by omega)]
    refine ⟨hw, fun a b => ?_⟩
    have : ¬ (a = i ∧ lo ≤ b ∧ b < hi ∧ i < n ∧ b < m) := by omega
    rw [if_neg this]

/-- A loop over the rows `lo .. hi - 1` whose body rewrites only its own row. -/
theorem forLoop_rows [Zero K] {n m : Nat} {res0 : Mat K} (hw : res0.WF n m)
    (lo hi : Nat) (body : Nat → Mat K → Mat K) (F : Nat → Nat → K)
    (hbody : ∀ i res, lo ≤ i → i < hi → res.WF n m →
      (∀ a b, res.get a b = if lo ≤ a ∧ a < i then F a b else res0.get a b) →
      (body i res).WF n m ∧
        ∀ a b, (body i res).get a b = if a = i then F i b else res.get a b) :
    (forLoop lo hi body res0).WF n m ∧
    ∀ a b, (forLoop lo hi body res0).get a b
      = if lo ≤ a ∧ a < hi then F a b else res0.get a b := by
  by_cases hle : lo ≤ hi
  · refine forLoop_inv lo hi body res0
      (fun t res => res.WF n m ∧ ∀ a b, res.get a b
        = if lo ≤ a ∧ a < t then F a b else res0.get a b) hle
      ⟨hw, fun a b => by
        have : ¬ (lo ≤ a ∧ a < lo) := by omega
        rw [if_neg this]⟩ ?_
    intro i t h1 h2 ⟨tw, tg⟩
    obtain ⟨bw, bg⟩ := hbody i t h1 h2 tw tg
    refine ⟨bw, fun a b => ?_⟩
    rw [bg, tg]
    by_cases c1 : a = i
    · subst c1
      have : lo ≤ a ∧ a < a + 1 := ⟨h1, by omega⟩
      rw [if_pos rfl, if_pos this]
    · have : (lo ≤ a ∧ a < i + 1) ↔ (lo ≤ a ∧ a < i) := by omega
      rw [if_neg c1]
      simp only [this]
  · rw [forLoop_of_le _ _ (by omega)]
    refine ⟨hw, fun a b => ?_⟩
    have : ¬ (lo ≤ a ∧ a < hi) := by omega
    rw [if_neg this]

/-! ## Constructors, product and transpose -/

theorem copy_spec [Zero K] {A : Mat K} {n m : Nat} (hA : A.WF n m) :
    (copy A).WF n m ∧ ∀ a b, (copy A).get a b = A.get a b := by
  unfold copy
  rw [hA.1, hA.2.1]
  have key := forLoop_rows (WF_new n m) 0 n
    (fun i res => forLoop 0 m (fun j res => res.set i j (A.get i j)) res)
    (fun a b => A.get a b) (by
      intro i res _ hi hw _
      have r := forLoop_set_row hw i 0 m (fun _ j => A.get i j) (fun j => A.get i j)
        (fun _ _ _ _ _ _ => rfl)
      refine ⟨r.1, fun a b => ?_⟩
      rw [r.2]
      by_cases c : a = i
      · subst c
        by_cases hb : b < m
        · simp [hi, hb]
        · simp [hb, get_of_col_ge hA a (not_lt.mp hb), get_of_col_ge hw a (not_lt.mp hb)]
      · simp [c])
  refine ⟨key.1, fun a b => ?_⟩
  rw [key.2]
  by_cases ha : a < n
  · simp [ha]
  · simp [ha, get_new, get_of_row_ge hA b (not_lt.mp ha)]

theorem copy_eq [Zero K] {A : Mat K} {n m : Nat} (hA : A.WF n m) : copy A = A :=
  ext_get_all (copy_spec hA).1 hA (copy_spec hA).2

theorem eye_spec [Zero K] [One K] (n : Nat) :
    (eye n : Mat K).WF n n ∧
    ∀ a b, (eye n : Mat K).get a b = if a < n ∧ a = b then 1 else 0 := by
  unfold eye
  have key := forLoop_rows (WF_new n n) 0 n (fun i (m : Mat K) => m.set i i 1)
    (fun a b => if a = b then 1 else 0) (by
      intro i res _ hi hw hg
      refine ⟨hw.set _ _ _, fun a b => ?_⟩
      rw [get_set hw]
      by_cases c : a = i
      · subst c
        by_cases d : b = a
        · subst d
          simp [hi]
        · have d2 : ¬ a = b := fun e => d e.symm
          simp [d, d2, hg, get_new]
      · simp [c])
  refine ⟨key.1, fun a b => ?_⟩
  rw [key.2]
  by_cases ha : a < n
  · simp [ha]
  · simp [ha, get_new]

theorem swapIdx_lt {n a b r : Nat} (ha : a < n) (hb : b < n) (hr : r < n) :
    swapIdx a b r < n := by
  unfold swapIdx
  split_ifs <;> assumption

theorem swapIdx_self (a r : Nat) : swapIdx a a r = r := by
  unfold swapIdx
  split_ifs with h1 <;> simp [h1]

theorem swapIdx_swapIdx (a b r : Nat) : swapIdx a b (swapIdx a b r) = r := by
  unfold swapIdx
  split_ifs <;> simp_all

theorem swap_spec [Zero K] [One K] {n a b : Nat} (ha : a < n) (hb : b < n) :
    (swap n a b : Mat K).WF n n ∧
    ∀ r c, (swap n a b : Mat K).get r c = if r < n ∧ swapIdx a b r = c then 1 else 0 := by
  unfold swap
  obtain ⟨ew, eg⟩ := eye_spec (K := K) n
  have key := forLoop_inv 0 n
    (fun i (m : Mat K) => (m.set a i (m.get b i)).set b i (m.get a i)) (eye n)
    (fun i M => M.WF n n ∧ ∀ r c, M.get r c =
      if c < i then (if r < n ∧ swapIdx a b r = c then 1 else 0)
      else (if r < n ∧ r = c then 1 else 0))
    (Nat.zero_le _) ⟨ew, fun r c => by simp [eg]⟩ (by
      intro i M _ hi ⟨hw, hg⟩
      refine ⟨(hw.set _ _ _).set _ _ _, fun r c => ?_⟩
      rw [get_set (hw.set _ _ _), get_set hw, hg, hg, hg]
      by_cases hc : c = i
      · subst hc
        simp only [lt_irrefl, if_false, Nat.lt_succ_self, if_true, ha, hb, hi, true_and,
          and_true]
        unfold swapIdx
        by_cases h1 : r = b
        · subst h1
          by_cases h2 : r = a
          · subst h2; simp [ha]
          · simp [h2, hb]
        · by_cases h2 : r = a
          · subst h2; simp [h1, ha]
          · simp [h1, h2]
      · have e1 : ¬ (r = b ∧ c = i ∧ b < n ∧ i < n) := fun e => hc e.2.1
        have e2 : ¬ (r = a ∧ c = i ∧ a < n ∧ i < n) := fun e => hc e.2.1
        have e3 : c < i + 1 ↔ c < i := by omega
        rw [if_neg e1, if_neg e2]
        simp only [e3])
  refine ⟨key.1, fun r c => ?_⟩
  rw [key.2]
  by_cases hc : c < n
  · simp [hc]
  · by_cases hr : r < n
    · have h1 : swapIdx a b r < n := swapIdx_lt ha hb hr
      have h2 : ¬ swapIdx a b r = c := by omega
      have h3 : ¬ r = c := by omega
      simp [hc, h2, h3]
    · simp [hr]

theorem transpose_spec [Zero K] {A : Mat K} {n m : Nat} (hA : A.WF n m) :
    (transpose A).WF m n ∧ ∀ a b, (transpose A).get a b = A.get b a := by
  unfold transpose
  rw [hA.1, hA.2.1]
  have key := forLoop_inv 0 n
    (fun i res => forLoop 0 m (fun j res => res.set j i (A.get i j)) res) (new m n)
    (fun i res => res.WF m n ∧ ∀ a b, res.get a b = if b < i then A.get b a else 0)
    (Nat.zero_le _) ⟨WF_new m n, fun a b => by simp [get_new]⟩ (by
      intro i res _ hi ⟨hw, hg⟩
      have inner := forLoop_inv 0 m
        (fun j res => res.set j i (A.get i j)) res
        (fun j res => res.WF m n ∧
          ∀ a b, res.get a b = if b < i ∨ (b = i ∧ a < j) then A.get b a else 0)
        (Nat.zero_le _) ⟨hw, fun a b => by simp [hg]⟩ (by
          intro j t _ hj ⟨tw, tg⟩
          refine ⟨tw.set _ _ _, fun a b => ?_⟩
          rw [get_set tw, tg]
          by_cases h1 : a = j ∧ b = i
          · obtain ⟨rfl, rfl⟩ := h1
            simp [hi, hj]
          · have h2 : ¬ (a = j ∧ b = i ∧ j < m ∧ i < n) := fun e => h1 ⟨e.1, e.2.1⟩
            rw [if_neg h2]
            have h3 : (b < i ∨ b = i ∧ a < j + 1) ↔ (b < i ∨ b = i ∧ a < j) := by
              constructor
              · rintro (h | ⟨h, h'⟩)
                · exact Or.inl h
                · exact Or.inr ⟨h, by
                    rcases Nat.lt_or_ge a j with q | q
                    · exact q
                    · exact absurd ⟨by omega, h⟩ h1⟩
              · rintro (h | ⟨h, h'⟩)
                · exact Or.inl h
                · exact Or.inr ⟨h, by omega⟩
            simp only [h3])
      refine ⟨inner.1, fun a b => ?_⟩
      rw [inner.2]
      by_cases ha : a < m
      · have h3 : (b < i ∨ b = i ∧ a < m) ↔ b < i + 1 := by omega
        simp only [h3]
      · rw [get_of_col_ge hA b (by omega)]
        simp)
  refine ⟨key.1, fun a b => ?_⟩
  rw [key.2]
  by_cases hb : b < n
  · simp [hb]
  · rw [get_of_row_ge hA a (by omega)]
    simp

theorem matmul_spec [Semiring K] {A B : Mat K} {n m p : Nat} (hA : A.WF n m)
    (hB : B.WF m p) :
    (matmul A B).WF n p ∧
    ∀ a b, (matmul A B).get a b = ∑ k in Finset.range m, A.get a k * B.get k b := by
  unfold matmul
  rw [hA.1, hA.2.1, hB.1, hB.2.1]
  simp only [ne_eq, not_true_eq_false, if_false]
  have key := forLoop_rows (WF_new n p) 0 n
    (fun i res => forLoop 0 p (fun j res => forLoop 0 m (fun k res =>
      res.set i j (res.get i j + A.get i k * B.get k j)) res) res)
    (fun a b => ∑ k in Finset.range m, A.get a k * B.get k b) (by
      intro i res _ hi hw hg
      have hrow : ∀ b, res.get i b = 0 := fun b => by simp [hg, get_new]
      have r := forLoop_inv 0 p
        (fun j res => forLoop 0 m (fun k res =>
          res.set i j (res.get i j + A.get i k * B.get k j)) res) res
        (fun j t => t.WF n p ∧ ∀ a b, t.get a b =
          if a = i ∧ b < j then ∑ k in Finset.range m, A.get a k * B.get k b
          else res.get a b)
        (Nat.zero_le _) ⟨hw, fun a b => by simp⟩ (by
          intro j t _ hj ⟨tw, tg⟩
          have q := forLoop_inv 0 m
            (fun k res => res.set i j (res.get i j + A.get i k * B.get k j)) t
            (fun k u => u.WF n p ∧ ∀ a b, u.get a b =
              if a = i ∧ b = j then ∑ k in Finset.range k, A.get a k * B.get k b
              else t.get a b)
            (Nat.zero_le _) ⟨tw, fun a b => by
              by_cases c : a = i ∧ b = j
              · obtain ⟨rfl, rfl⟩ := c
                simp [tg, hrow]
              · simp [c]⟩ (by
              intro k u _ _ ⟨uw, ug⟩
              refine ⟨uw.set _ _ _, fun a b => ?_⟩
              rw [get_set uw, ug, ug]
              by_cases c : a = i ∧ b = j
              · obtain ⟨rfl, rfl⟩ := c
                simp [hi, hj, Finset.sum_range_succ]
              · have c2 : ¬ (a = i ∧ b = j ∧ i < n ∧ j < p) := fun e => c ⟨e.1, e.2.1⟩
                simp [c, c2])
          refine ⟨q.1, fun a b => ?_⟩
          rw [q.2, tg]
          by_cases c : a = i ∧ b = j
          · obtain ⟨rfl, rfl⟩ := c
            simp
          · rw [if_neg c]
            have : (a = i ∧ b < j + 1) ↔ (a = i ∧ b < j) := by
              constructor
              · rintro ⟨e1, e2⟩
                refine ⟨e1, ?_⟩
                rcases Nat.lt_or_ge b j with q | q
                · exact q
                · exact absurd ⟨e1, by omega⟩ c
              · rintro ⟨e1, e2⟩
                exact ⟨e1, by omega⟩
            simp only [this])
      refine ⟨r.1, fun a b => ?_⟩
      rw [r.2]
      by_cases c : a = i
      · subst c
        by_cases hb : b < p
        · simp [hb]
        · have : ∀ k, B.get k b = 0 := fun k => get_of_col_ge hB k (not_lt.mp hb)
          simp [hb, this, hrow]
      · simp [c])
  refine ⟨key.1, fun a b => ?_⟩
  rw [key.2]
  by_cases ha : a < n
  · simp [ha]
  · have : ∀ k, A.get a k = 0 := fun k => get_of_row_ge hA k (not_lt.mp ha)
    simp [ha, get_new, this]

/-! ## Abstraction to mathematical matrices -/

theorem toM_apply [Zero K] (A : Mat K) (n m : Nat) (i : Fin n) (j : Fin m) :
    A.toM n m i j = A.get i j := rfl

theorem toM_inj [Zero K] {A B : Mat K} {n m : Nat} (hA : A.WF n m) (hB : B.WF n m)
    (h : A.toM n m = B.toM n m) : A = B := by
  apply ext_get hA hB
  intro i j hi hj
  have := congrFun (congrFun h ⟨i, hi⟩) ⟨j, hj⟩
  simpa [toM_apply] using this

theorem toM_matmul [Semiring K] {A B : Mat K} {n m p : Nat} (hA : A.WF n m)
    (hB : B.WF m p) : (matmul A B).toM n p = A.toM n m * B.toM m p := by
  ext i j
  rw [toM_apply, (matmul_spec hA hB).2, Matrix.mul_apply, Finset.sum_range]
  rfl

theorem toM_eye [Zero K] [One K] (n : Nat) : (eye n : Mat K).toM n n = 1 := by
  ext i j
  rw [toM_apply, (eye_spec n).2, Matrix.one_apply]
  by_cases h : i = j
  · subst h; simp
  · have : ¬ (i : Nat) = (j : Nat) := fun e => h (Fin.ext e)
    simp [h, this]

theorem toM_transpose [Zero K] {A : Mat K} {n m : Nat} (hA : A.WF n m) :
    (transpose A).toM m n = (A.toM n m).transpose := by
  ext i j
  rw [toM_apply, (transpose_spec hA).2, Matrix.transpose_apply, toM_apply]

/-- Left multiplication by `swap(n, a, b)` exchanges rows `a` and `b`. -/
theorem swap_matmul_spec [Semiring K] {n p a b : Nat} {R : Mat K} (ha : a < n) (hb : b < n)
    (hR : R.WF n p) :
    ((swap n a b).matmul R).WF n p ∧
    ∀ r c, ((swap n a b).matmul R).get r c = R.get (swapIdx a b r) c := by
  obtain ⟨sw, sg⟩ := swap_spec (K := K) ha hb
  obtain ⟨mw, mg⟩ := matmul_spec sw hR
  refine ⟨mw, fun r c => ?_⟩
  rw [mg]
  by_cases hr : r < n
  · have hs := swapIdx_lt ha hb hr
    simp only [sg, hr, true_and, ite_mul, one_mul, zero_mul]
    rw [Finset.sum_ite_eq]
    simp [hs]
  · have e : swapIdx a b r = r := by
      unfold swapIdx
      have h1 : ¬ r = a := by omega
      have h2 : ¬ r = b := by omega
      simp [h1, h2]
    rw [e, get_of_row_ge hR c (not_lt.mp hr)]
    simp [sg, hr]

theorem swap_self_matmul [Semiring K] {n p a : Nat} {R : Mat K} (ha : a < n)
    (hR : R.WF n p) : (swap n a a).matmul R = R := by
  obtain ⟨w, g⟩ := swap_matmul_spec ha ha hR
  apply ext_get_all w hR
  intro i j
  rw [g, swapIdx_self]

section Scan

variable [LinearOrderedField K]

/-! ## Forward elimination -/

/-- The pivot scan returns the first row of largest magnitude in column `k` among
the rows `h .. n - 1`, together with that magnitude. -/
theorem pivotScan_spec (res : Mat K) (n h k : Nat) :
    (∀ i, h ≤ i → i < n → |res.get i k| ≤ (pivotScan res n h k).2) ∧
    ((pivotScan res n h k).2 = 0 ∨
      ∃ r : Nat, (pivotScan res n h k).1 = (r : Int) ∧ h ≤ r ∧ r < n ∧
        |res.get r k| = (pivotScan res n h k).2 ∧
        ∀ i, h ≤ i → i < r → |res.get i k| < (pivotScan res n h k).2) := by
  unfold pivotScan
  by_cases hle : h ≤ n
  · refine forLoop_inv h n (fun i (s : Int × K) =>
      if |res.get i k| > s.2 then ((i : Int), |res.get i k|) else s) (-1, 0)
      (fun t s => (∀ i, h ≤ i → i < t → |res.get i k| ≤ s.2) ∧
        (s.2 = 0 ∨ ∃ r : Nat, s.1 = (r : Int) ∧ h ≤ r ∧ r < t ∧ |res.get r k| = s.2 ∧
          ∀ i, h ≤ i → i < r → |res.get i k| < s.2)) hle
      ⟨fun i h1 h2 => by omega, Or.inl rfl⟩ ?_
    intro t s h1 h2 ⟨hmax, hrow⟩
    beta_reduce
    by_cases c : |res.get t k| > s.2
    · rw [if_pos c]
      refine ⟨fun i h3 h4 => ?_, Or.inr ⟨t, rfl, h1, by omega, rfl, fun i h3 h4 => ?_⟩⟩
      · rcases Nat.lt_or_ge i t with q | q
        · exact le_of_lt (lt_of_le_of_lt (hmax i h3 q) c)
        · have : i = t := by omega
          subst this
          exact le_refl _
      · exact lt_of_le_of_lt (hmax i h3 h4) c
    · rw [if_neg c]
      refine ⟨fun i h3 h4 => ?_, ?_⟩
      · rcases Nat.lt_or_ge i t with q | q
        · exact hmax i h3 q
        · have : i = t := by omega
          subst this
          exact not_lt.mp c
      · rcases hrow with z | ⟨r, e1, e2, e3, e4, e5⟩
        · exact Or.inl z
        · exact Or.inr ⟨r, e1, e2, by omega, e4, e5⟩
  · rw [forLoop_of_le _ _ (by omega)]
    exact ⟨fun i h1 h2 => by omega, Or.inl rfl⟩

theorem pivotScan_zero {res : Mat K} {n h k : Nat} (hz : (pivotScan res n h k).2 = 0) :
    ∀ i, h ≤ i → i < n → res.get i k = 0 := by
  intro i h1 h2
  have := (pivotScan_spec res n h k).1 i h1 h2
  rw [hz] at this
  exact abs_eq_zero.mp (le_antisymm this (abs_nonneg _))

theorem pivotScan_pivot {res : Mat K} {n h k : Nat} (hz : (pivotScan res n h k).2 ≠ 0) :
    ∃ r : Nat, (pivotScan res n h k).1 = (r : Int) ∧ h ≤ r ∧ r < n ∧ res.get r k ≠ 0 := by
  rcases (pivotScan_spec res n h k).2 with z | ⟨r, e1, e2, e3, e4, -⟩
  · exact absurd z hz
  · refine ⟨r, e1, e2, e3, fun e => hz ?_⟩
    rw [← e4, e]
    simp

end Scan

end Mat

namespace Mat

variable {K : Type} [LinearOrderedField K]

theorem elimBelow_spec {res : Mat K} {n m : Nat} (hw : res.WF n m) (h k : Nat) :
    (elimBelow res n h k).WF n m ∧
    ∀ a b, (elimBelow res n h k).get a b =
      if h + 1 ≤ a ∧ a < n then
        (if b = k then 0
         else if k + 1 ≤ b ∧ b < n ∧ b < m then
           res.get a b - res.get a k / res.get h k * res.get h b
         else res.get a b)
      else res.get a b := by
  unfold elimBelow
  refine forLoop_rows hw (h + 1) n _
    (fun a b => if b = k then 0
      else if k + 1 ≤ b ∧ b < n ∧ b < m then
        res.get a b - res.get a k / res.get h k * res.get h b
      else res.get a b) ?_
  intro i t h1 h2 tw tg
  have hi : ∀ b, t.get i b = res.get i b := fun b => by
    rw [tg]; simp
  have hh : ∀ b, t.get h b = res.get h b := fun b => by
    rw [tg]
    have : ¬ (h + 1 ≤ h ∧ h < i) := by omega
    rw [if_neg this]
  have sw := tw.set i k (0 : K)
  have r := forLoop_set_row sw i (k + 1) n
    (fun u j => u.get i j - t.get i k / t.get h k * u.get h j)
    (fun j => res.get i j - res.get i k / res.get h k * res.get h j) (by
      intro j u j1 j2 uw ug
      have e1 : u.get i j = res.get i j := by
        rw [ug i j (by omega), get_set tw, ← hi]
        have : ¬ (i = i ∧ j = k ∧ i < n ∧ k < m) := by omega
        rw [if_neg this]
      have e2 : u.get h j = res.get h j := by
        rw [ug h j (by omega), get_set tw, ← hh]
        have : ¬ (h = i ∧ j = k ∧ i < n ∧ k < m) := by omega
        rw [if_neg this]
      beta_reduce
      rw [e1, e2, hi, hh])
  refine ⟨r.1, fun a b => ?_⟩
  rw [r.2, get_set tw]
  by_cases c : a = i
  · subst c
    by_cases d : b = k
    · subst d
      have : ¬ (a = a ∧ b + 1 ≤ b ∧ b < n ∧ a < n ∧ b < m) := by omega
      rw [if_neg this]
      by_cases e : b < m
      · simp [e, h2]
      · simp [e, get_of_col_ge tw a (not_lt.mp e)]
    · by_cases e : k + 1 ≤ b ∧ b < n ∧ b < m
      · have : a = a ∧ k + 1 ≤ b ∧ b < n ∧ a < n ∧ b < m := ⟨rfl, e.1, e.2.1, h2, e.2.2⟩
        simp [this, d, e]
      · have : ¬ (a = a ∧ k + 1 ≤ b ∧ b < n ∧ a < n ∧ b < m) :=
          fun q => e ⟨q.2.1, q.2.2.1, q.2.2.2.2⟩
        have t2 : ¬ (a = a ∧ b = k ∧ a < n ∧ k < m) := fun q => d q.2.1
        rw [if_neg this, if_neg t2, if_pos rfl, hi]
        beta_reduce
        rw [if_neg d, if_neg e]
  · simp [c]

/-- On a square grid whose rows from `h` on vanish left of the pivot column, the
elimination step is the row operation `row a -= elimCoef a * row h`. -/
theorem elimBelow_rowop {res : Mat K} {n h k : Nat} (hw : res.WF n n) (hk : k < n)
    (hz : ∀ a b, h ≤ a → b < k → res.get a b = 0) (hp : res.get h k ≠ 0) (a b : Nat) :
    (elimBelow res n h k).get a b = res.get a b - elimCoef res n h k a * res.get h b := by
  rw [(elimBelow_spec hw h k).2]
  unfold elimCoef
  by_cases c : h + 1 ≤ a ∧ a < n
  · rw [if_pos c, if_pos c]
    by_cases d : b = k
    · subst d
      rw [if_pos rfl]
      field_simp
    · rw [if_neg d]
      by_cases e : k + 1 ≤ b
      · by_cases f : b < n
        · rw [if_pos ⟨e, f, f⟩]
        · have : ¬ (k + 1 ≤ b ∧ b < n ∧ b < n) := fun q => f q.2.1
          rw [if_neg this, get_of_col_ge hw a (not_lt.mp f), get_of_col_ge hw h (not_lt.mp f)]
          simp
      · have : ¬ (k + 1 ≤ b ∧ b < n ∧ b < n) := fun q => e q.1
        rw [if_neg this, hz a b (by omega) (by omega), hz h b (le_refl _) (by omega)]
        simp
  · rw [if_neg c, if_neg c]
    simp

theorem toM_elimBelow {res : Mat K} {n h k : Nat} (hw : res.WF n n) (hh : h < n) (hk : k < n)
    (hz : ∀ a b, h ≤ a → b < k → res.get a b = 0) (hp : res.get h k ≠ 0) :
    (elimBelow res n h k).toM n n
      = rowOp (fun i : Fin n => elimCoef res n h k i) ⟨h, hh⟩ (res.toM n n) := by
  ext i j
  simp only [toM_apply, rowOp, Matrix.of_apply]
  exact elimBelow_rowop hw hk hz hp i j

theorem elimCoef_self (res : Mat K) (n h k : Nat) : elimCoef res n h k h = 0 := by
  unfold elimCoef
  have : ¬ (h + 1 ≤ h ∧ h < n) := by omega
  rw [if_neg this]

theorem elimCoef_of_le (res : Mat K) (n h k : Nat) {a : Nat} (ha : a ≤ h) :
    elimCoef res n h k a = 0 := by
  unfold elimCoef
  have : ¬ (h + 1 ≤ a ∧ a < n) := by omega
  rw [if_neg this]

theorem Ech_init {A : Mat K} {n : Nat} (hA : A.WF n n) : Ech A n 0 0 :=
  ⟨hA, le_refl _, Nat.zero_le _, fun a b _ hb => by omega, fun a b ha _ => by omega⟩

theorem Ech.skip {res : Mat K} {n h k : Nat} (e : Ech res n h k) (hk : k < n)
    (hz : ∀ i, h ≤ i → i < n → res.get i k = 0) : Ech res n h (k + 1) := by
  obtain ⟨w, e1, e2, e3, e4⟩ := e
  refine ⟨w, by omega, by omega, fun a b ha hb => ?_, e4⟩
  rcases Nat.lt_or_ge b k with q | q
  · exact e3 a b ha q
  · have : b = k := by omega
    subst this
    rcases Nat.lt_or_ge a n with r | r
    · exact hz a ha r
    · exact get_of_row_ge w b r

theorem Ech.swap {res : Mat K} {n h k r : Nat} (e : Ech res n h k) (hh : h < n)
    (h1 : h ≤ r) (h2 : r < n) : Ech ((swap n r h).matmul res) n h k := by
  obtain ⟨w, e1, e2, e3, e4⟩ := e
  obtain ⟨sw, sg⟩ := swap_matmul_spec h2 hh w
  refine ⟨sw, e1, e2, fun a b ha hb => ?_, fun a b ha hb => ?_⟩
  · rw [sg]
    apply e3 _ _ _ hb
    unfold swapIdx
    split_ifs <;> omega
  · rw [sg]
    have : swapIdx r h a = a := by
      unfold swapIdx
      have q1 : ¬ a = r := by omega
      have q2 : ¬ a = h := by omega
      simp [q1, q2]
    rw [this]
    exact e4 a b ha hb

theorem Ech.elim {res : Mat K} {n h k : Nat} (e : Ech res n h k) (hk : k < n)
    (hp : res.get h k ≠ 0) : Ech (elimBelow res n h k) n (h + 1) (k + 1) := by
  obtain ⟨w, e1, e2, e3, e4⟩ := e
  have g := elimBelow_rowop w hk e3 hp
  refine ⟨(elimBelow_spec w h k).1, by omega, by omega, fun a b ha hb => ?_,
    fun a b ha hb => ?_⟩
  · rw [g]
    rcases Nat.lt_or_ge b k with q | q
    · rw [e3 a b (by omega) q, e3 h b (le_refl _) q]
      simp
    · have : b = k := by omega
      subst this
      rcases Nat.lt_or_ge a n with r | r
      · unfold elimCoef
        rw [if_pos ⟨ha, r⟩]
        field_simp
      · rw [get_of_row_ge w b r]
        unfold elimCoef
        have : ¬ (h + 1 ≤ a ∧ a < n) := by omega
        rw [if_neg this]
        simp
  · rw [g, elimCoef_of_le res n h k (by omega : a ≤ h)]
    simp only [zero_mul, sub_zero]
    rcases Nat.lt_or_ge a h with q | q
    · exact e4 a b q hb
    · exact e3 a b q (by omega)

/-- When the elimination loop has stopped the grid is upper triangular. -/
theorem Ech.upper {res : Mat K} {n h k : Nat} (e : Ech res n h k) (hstop : ¬ (h < n ∧ k < n)) :
    ∀ a b, b < a → res.get a b = 0 := by
  obtain ⟨w, e1, e2, e3, e4⟩ := e
  intro a b hb
  rcases Nat.lt_or_ge a n with r | r
  · rcases Nat.lt_or_ge a h with q | q
    · exact e4 a b q hb
    · exact e3 a b q (by omega)
  · exact get_of_row_ge w b r

/-! ## Determinant -/

theorem det_rowOp {n : Nat} (c : Fin n → K) (h : Fin n) (hc : c h = 0)
    (R : Matrix (Fin n) (Fin n) K) : (rowOp c h R).det = R.det := by
  apply Matrix.det_eq_of_forall_row_eq_smul_add_const (fun i => - c i) h (by simp [hc])
  intro i j
  simp only [rowOp, Matrix.of_apply]
  ring

theorem rowOp_mul {n p q : Nat} (c : Fin n → K) (h : Fin n)
    (X : Matrix (Fin n) (Fin p) K) (Y : Matrix (Fin p) (Fin q) K) :
    rowOp c h (X * Y) = rowOp c h X * Y := by
  ext i j
  simp only [rowOp, Matrix.of_apply, Matrix.mul_apply, Finset.mul_sum, ← Finset.sum_sub_distrib]
  apply Finset.sum_congr rfl
  intro t _
  ring

/-- Index exchange as a permutation of `Fin n`. -/
theorem swapIdx_fin {n : Nat} (a b i : Fin n) :
    swapIdx a b i = ((Equiv.swap a b i : Fin n) : Nat) := by
  unfold swapIdx
  rw [Equiv.swap_apply_def]
  by_cases h1 : i = a
  · subst h1; simp
  · have h1' : ¬ (i : Nat) = (a : Nat) := fun e => h1 (Fin.ext e)
    by_cases h2 : i = b
    · subst h2; simp [h1, h1']
    · have h2' : ¬ (i : Nat) = (b : Nat) := fun e => h2 (Fin.ext e)
      simp [h1, h2, h1', h2']

theorem toM_swap_matmul {n p a b : Nat} {R : Mat K} (ha : a < n) (hb : b < n)
    (hR : R.WF n p) :
    ((swap n a b).matmul R).toM n p
      = (R.toM n p).submatrix (Equiv.swap (⟨a, ha⟩ : Fin n) ⟨b, hb⟩) id := by
  ext i j
  rw [toM_apply, (swap_matmul_spec ha hb hR).2, Matrix.submatrix_apply, toM_apply,
    ← swapIdx_fin]
  rfl

theorem det_swap_matmul {n a b : Nat} {R : Mat K} (ha : a < n) (hb : b < n)
    (hR : R.WF n n) (hab : a ≠ b) :
    (((swap n a b).matmul R).toM n n).det = - (R.toM n n).det := by
  rw [toM_swap_matmul ha hb hR, Matrix.det_permute, Equiv.Perm.sign_swap]
  · simp
  · intro e
    exact hab (congrArg Fin.val e)

theorem det_upper {res : Mat K} {n : Nat} (hu : ∀ a b, b < a → res.get a b = 0) :
    (res.toM n n).det = ∏ i in Finset.range n, res.get i i := by
  rw [Matrix.det_of_upperTriangular, Finset.prod_range]
  · rfl
  · intro i j hij
    exact hu i j hij

theorem prodLoop_eq (f : Nat → K) (n : Nat) (d : K) :
    forLoop 0 n (fun i detscal => detscal * f i) d = d * ∏ i in Finset.range n, f i := by
  refine forLoop_inv 0 n (fun i detscal => detscal * f i) d
    (fun t x => x = d * ∏ i in Finset.range t, f i) (Nat.zero_le _) (by simp) ?_
  intro i t _ _ ht
  subst ht
  rw [Finset.prod_range_succ, ← mul_assoc]

/-- Invariant of the `while` loop of `det`: the grid stays in elimination form and
`detscal * det res` is constant; with enough fuel the loop ends with its guard false. -/
theorem detLoop_spec {n : Nat} (D : K) :
    ∀ (fuel : Nat) (s : DetState K), Ech s.res n s.h s.k →
      s.detscal * (s.res.toM n n).det = D → n ≤ s.k + fuel →
      Ech (detLoop n n fuel s).res n (detLoop n n fuel s).h (detLoop n n fuel s).k ∧
      ¬ ((detLoop n n fuel s).h < n ∧ (detLoop n n fuel s).k < n) ∧
      (detLoop n n fuel s).detscal * ((detLoop n n fuel s).res.toM n n).det = D := by
  intro fuel
  induction fuel with
  | zero =>
    intro s he hd hf
    simp only [detLoop]
    exact ⟨he, fun q => by omega, hd⟩
  | succ fuel ih =>
    intro s he hd hf
    rw [detLoop]
    by_cases hc : s.h < n ∧ s.k < n
    · rw [if_pos hc]
      by_cases hz : (pivotScan s.res n s.h s.k).2 = 0
      · simp only [hz, if_true]
        exact ih _ (he.skip hc.2 (pivotScan_zero hz)) hd (by simp only; omega)
      · simp only [hz, if_false]
        obtain ⟨r, e1, e2, e3, e4⟩ := pivotScan_pivot hz
        rw [e1]
        simp only [Int.toNat_ofNat, ne_eq, Nat.cast_inj]
        by_cases hr : r = s.h
        · subst hr
          simp only [not_true_eq_false, if_false]
          apply ih
          · exact he.elim hc.2 e4
          · simp only
            rw [toM_elimBelow he.1 hc.1 hc.2 he.2.2.2.1 e4,
              det_rowOp (fun i : Fin n => elimCoef s.res n s.h s.k i) ⟨s.h, hc.1⟩
                (elimCoef_self _ _ _ _)]
            exact hd
          · simp only; omega
        · simp only [hr, not_false_eq_true, if_true]
          have hs := he.swap hc.1 e2 e3
          have hp : ((swap n r s.h).matmul s.res).get s.h s.k ≠ 0 := by
            rw [(swap_matmul_spec e3 hc.1 he.1).2]
            have : swapIdx r s.h s.h = r := by
              unfold swapIdx
              simp [Ne.symm hr]
            rw [this]
            exact e4
          apply ih
          · exact hs.elim hc.2 hp
          · simp only
            rw [toM_elimBelow hs.1 hc.1 hc.2 hs.2.2.2.1 hp,
              det_rowOp (fun i : Fin n => elimCoef ((swap n r s.h).matmul s.res) n s.h s.k i)
                ⟨s.h, hc.1⟩ (elimCoef_self _ _ _ _),
              det_swap_matmul e3 hc.1 he.1 hr, ← hd]
            ring
          · simp only; omega
    · rw [if_neg hc]
      exact ⟨he, hc, hd⟩

/-- The routine `det` computes the determinant of a square grid. -/
theorem det_eq {A : Mat K} {n : Nat} (hA : A.WF n n) : det A = (A.toM n n).det := by
  unfold det
  rw [hA.1, hA.2.1]
  simp only [ne_eq, not_true_eq_false, if_false, copy_eq hA]
  obtain ⟨he, hstop, hd⟩ := detLoop_spec (n := n) (A.toM n n).det n ⟨A, 0, 0, 1⟩
    (Ech_init hA) (by simp) (by simp)
  rw [prodLoop_eq, ← det_upper (he.upper hstop)]
  exact hd

/-! ## Inverse -/

/-- One pass of the inner loop of the elimination: row `i` loses `val` times row `h`
to the right of column `k`, after `res[i][k] = 0`. -/
theorem elimRow_spec {t : Mat K} {n m : Nat} (tw : t.WF n m) (i h k : Nat) (val : K)
    (hi : i < n) (hih : i ≠ h) :
    (forLoop (k + 1) n (fun j res => res.set i j (res.get i j - val * res.get h j))
      (t.set i k 0)).WF n m ∧
    ∀ a b, (forLoop (k + 1) n (fun j res => res.set i j (res.get i j - val * res.get h j))
      (t.set i k 0)).get a b =
      if a = i then
        (if b = k then 0
         else if k + 1 ≤ b ∧ b < n ∧ b < m then t.get i b - val * t.get h b
         else t.get i b)
      else t.get a b := by
  have sw := tw.set i k (0 : K)
  have r := forLoop_set_row sw i (k + 1) n
    (fun u j => u.get i j - val * u.get h j)
    (fun j => t.get i j - val * t.get h j) (by
      intro j u j1 j2 uw ug
      have e1 : u.get i j = t.get i j := by
        rw [ug i j (by omega), get_set tw]
        have : ¬ (i = i ∧ j = k ∧ i < n ∧ k < m) := by omega
        rw [if_neg this]
      have e2 : u.get h j = t.get h j := by
        rw [ug h j (fun q => hih q.1.symm), get_set tw]
        have : ¬ (h = i ∧ j = k ∧ i < n ∧ k < m) := fun q => hih q.1.symm
        rw [if_neg this]
      beta_reduce
      rw [e1, e2])
  refine ⟨r.1, fun a b => ?_⟩
  rw [r.2, get_set tw]
  by_cases c : a = i
  · subst c
    by_cases d : b = k
    · subst d
      have : ¬ (a = a ∧ b + 1 ≤ b ∧ b < n ∧ a < n ∧ b < m) := by omega
      rw [if_neg this]
      by_cases e : b < m
      · simp [e, hi]
      · simp [e, get_of_col_ge tw a (not_lt.mp e)]
    · by_cases e : k + 1 ≤ b ∧ b < n ∧ b < m
      · have : a = a ∧ k + 1 ≤ b ∧ b < n ∧ a < n ∧ b < m := ⟨rfl, e.1, e.2.1, hi, e.2.2⟩
        simp [this, d, e]
      · have : ¬ (a = a ∧ k + 1 ≤ b ∧ b < n ∧ a < n ∧ b < m) :=
          fun q => e ⟨q.2.1, q.2.2.1, q.2.2.2.2⟩
        have t2 : ¬ (a = a ∧ b = k ∧ a < n ∧ k < m) := fun q => d q.2.1
        rw [if_neg this, if_neg t2, if_pos rfl, if_neg d, if_neg e]
  · simp [c]

/-- The loop `for j < m: t[i][j] -= val * t[h][j]` with `i ≠ h`. -/
theorem rowSub_spec {t : Mat K} {n m : Nat} (tw : t.WF n m) (i h : Nat) (val : K)
    (hi : i < n) (hih : i ≠ h) :
    (forLoop 0 m (fun j res => res.set i j (res.get i j - val * res.get h j)) t).WF n m ∧
    ∀ a b, (forLoop 0 m (fun j res => res.set i j (res.get i j - val * res.get h j)) t).get a b
      = if a = i then t.get i b - val * t.get h b else t.get a b := by
  have r := forLoop_set_row tw i 0 m
    (fun u j => u.get i j - val * u.get h j)
    (fun j => t.get i j - val * t.get h j) (by
      intro j u j1 j2 uw ug
      have e1 : u.get i j = t.get i j := ug i j (by omega)
      have e2 : u.get h j = t.get h j := ug h j (fun q => hih q.1.symm)
      beta_reduce
      rw [e1, e2])
  refine ⟨r.1, fun a b => ?_⟩
  rw [r.2]
  by_cases c : a = i
  · subst c
    by_cases d : b < m
    · simp [d, hi]
    · simp [d, get_of_col_ge tw _ (not_lt.mp d)]
  · simp [c]

/-- The row loop of `inverse`: the first component is the elimination step of
`det`, the carried matrix undergoes the same row operation. -/
theorem invElim_spec {res inv : Mat K} {n : Nat} (hw : res.WF n n) (iw : inv.WF n n)
    (h k : Nat) (p : Mat K × Mat K)
    (hp : p = forLoop (h + 1) n (fun i (p : Mat K × Mat K) =>
      (forLoop (k + 1) n (fun j res => res.set i j
          (res.get i j - p.1.get i k / p.1.get h k * res.get h j)) (p.1.set i k 0),
       forLoop 0 n (fun j inv => inv.set i j
          (inv.get i j - p.1.get i k / p.1.get h k * inv.get h j)) p.2)) (res, inv)) :
    p.1 = elimBelow res n h k ∧ p.2.WF n n ∧
    ∀ a b, p.2.get a b = inv.get a b - elimCoef res n h k a * inv.get h b := by
  subst hp
  by_cases hle : h + 1 ≤ n
  · obtain ⟨w1, w2, g1, g2⟩ := forLoop_inv (h + 1) n
      (fun i (p : Mat K × Mat K) =>
      (forLoop (k + 1) n (fun j res => res.set i j
          (res.get i j - p.1.get i k / p.1.get h k * res.get h j)) (p.1.set i k 0),
       forLoop 0 n (fun j inv => inv.set i j
          (inv.get i j - p.1.get i k / p.1.get h k * inv.get h j)) p.2)) (res, inv)
      (fun t p => p.1.WF n n ∧ p.2.WF n n ∧
        (∀ a b, p.1.get a b = if h + 1 ≤ a ∧ a < t then
            (if b = k then 0
             else if k + 1 ≤ b ∧ b < n ∧ b < n then
               res.get a b - res.get a k / res.get h k * res.get h b
             else res.get a b)
          else res.get a b) ∧
        (∀ a b, p.2.get a b = if h + 1 ≤ a ∧ a < t then
            inv.get a b - res.get a k / res.get h k * inv.get h b
          else inv.get a b)) hle
      ⟨hw, iw, fun a b => by
          have : ¬ (h + 1 ≤ a ∧ a < h + 1) := by omega
          rw [if_neg this], fun a b => by
          have : ¬ (h + 1 ≤ a ∧ a < h + 1) := by omega
          rw [if_neg this]⟩ (by
        intro i p h1 h2 ⟨w1, w2, g1, g2⟩
        have hi1 : ∀ b, p.1.get i b = res.get i b := fun b => by
          rw [g1]; simp
        have hh1 : ∀ b, p.1.get h b = res.get h b := fun b => by
          rw [g1]
          have : ¬ (h + 1 ≤ h ∧ h < i) := by omega
          rw [if_neg this]
        have hi2 : ∀ b, p.2.get i b = inv.get i b := fun b => by
          rw [g2]; simp
        have hh2 : ∀ b, p.2.get h b = inv.get h b := fun b => by
          rw [g2]
          have : ¬ (h + 1 ≤ h ∧ h < i) := by omega
          rw [if_neg this]
        obtain ⟨r1, r2⟩ := elimRow_spec w1 i h k (p.1.get i k / p.1.get h k) h2 (by omega)
        obtain ⟨q1, q2⟩ := rowSub_spec w2 i h (p.1.get i k / p.1.get h k) h2 (by omega)
        refine ⟨r1, q1, fun a b => ?_, fun a b => ?_⟩
        · beta_reduce
          rw [r2]
          by_cases c : a = i
          · subst c
            have : h + 1 ≤ a ∧ a < a + 1 := ⟨h1, by omega⟩
            rw [if_pos rfl, if_pos this]
            simp only [hi1, hh1]
          · have : (h + 1 ≤ a ∧ a < i + 1) ↔ (h + 1 ≤ a ∧ a < i) := by omega
            rw [if_neg c, g1]
            simp only [this]
        · beta_reduce
          rw [q2]
          by_cases c : a = i
          · subst c
            have : h + 1 ≤ a ∧ a < a + 1 := ⟨h1, by omega⟩
            rw [if_pos rfl, if_pos this]
            simp only [hi1, hh1, hi2, hh2]
          · have : (h + 1 ≤ a ∧ a < i + 1) ↔ (h + 1 ≤ a ∧ a < i) := by omega
            rw [if_neg c, g2]
            simp only [this])
    refine ⟨ext_get_all w1 (elimBelow_spec hw h k).1 (fun a b => ?_), w2, fun a b => ?_⟩
    · rw [g1, (elimBelow_spec hw h k).2]
    · rw [g2]
      unfold elimCoef
      by_cases c : h + 1 ≤ a ∧ a < n
      · rw [if_pos c, if_pos c]
      · rw [if_neg c, if_neg c]
        simp
  · rw [forLoop_of_le _ _ (by omega)]
    refine ⟨?_, iw, fun a b => ?_⟩
    · unfold elimBelow
      rw [forLoop_of_le _ _ (by omega)]
    · unfold elimCoef
      have : ¬ (h + 1 ≤ a ∧ a < n) := by omega
      rw [if_neg this]
      simp

theorem toM_rowOp_of_get {R R' : Mat K} {n p : Nat} (c : Nat → K) {h : Nat} (hh : h < n)
    (hg : ∀ a b, R'.get a b = R.get a b - c a * R.get h b) :
    R'.toM n p = rowOp (fun i : Fin n => c i) ⟨h, hh⟩ (R.toM n p) := by
  ext i j
  simp only [toM_apply, rowOp, Matrix.of_apply]
  exact hg i j

theorem swapIdx_right (a b : Nat) : swapIdx a b b = a := by
  unfold swapIdx
  by_cases h : b = a
  · simp [h]
  · simp [h]

theorem det_swap_matmul_ne {n a b : Nat} {R : Mat K} (ha : a < n) (hb : b < n)
    (hR : R.WF n n) (hd : (R.toM n n).det ≠ 0) :
    (((swap n a b).matmul R).toM n n).det ≠ 0 := by
  by_cases hab : a = b
  · subst hab
    rw [swap_self_matmul ha hR]
    exact hd
  · rw [det_swap_matmul ha hb hR hab]
    exact neg_ne_zero.mpr hd

/-- Invariant of the `while` loop of `inverse`: the grid stays in elimination form,
the carried matrix `inv` is invertible and `inv * M = res`; with enough fuel the loop
ends with its guard false. -/
theorem invLoop_spec {n : Nat} (M : Matrix (Fin n) (Fin n) K) :
    ∀ (fuel : Nat) (s : InvState K), Ech s.res n s.h s.k → s.inv.WF n n →
      s.inv.toM n n * M = s.res.toM n n → (s.inv.toM n n).det ≠ 0 → n ≤ s.k + fuel →
      Ech (invLoop n n fuel s).res n (invLoop n n fuel s).h (invLoop n n fuel s).k ∧
      ¬ ((invLoop n n fuel s).h < n ∧ (invLoop n n fuel s).k < n) ∧
      (invLoop n n fuel s).inv.WF n n ∧
      (invLoop n n fuel s).inv.toM n n * M = (invLoop n n fuel s).res.toM n n ∧
      ((invLoop n n fuel s).inv.toM n n).det ≠ 0 := by
  intro fuel
  induction fuel with
  | zero =>
    intro s he iw hm hd hf
    simp only [invLoop]
    exact ⟨he, fun q => by omega, iw, hm, hd⟩
  | succ fuel ih =>
    intro s he iw hm hd hf
    rw [invLoop]
    by_cases hc : s.h < n ∧ s.k < n
    · rw [if_pos hc]
      by_cases hz : (pivotScan s.res n s.h s.k).2 = 0
      · simp only [hz, if_true]
        exact ih _ (he.skip hc.2 (pivotScan_zero hz)) iw hm hd (by simp only; omega)
      · simp only [hz, if_false]
        obtain ⟨r, e1, e2, e3, e4⟩ := pivotScan_pivot hz
        rw [e1]
        simp only [Int.toNat_ofNat]
        have hs := he.swap hc.1 e2 e3
        obtain ⟨sw, sg⟩ := swap_matmul_spec e3 hc.1 iw
        have hp : ((swap n r s.h).matmul s.res).get s.h s.k ≠ 0 := by
          rw [(swap_matmul_spec e3 hc.1 he.1).2, swapIdx_right]
          exact e4
        obtain ⟨k1, k2, k3⟩ := invElim_spec hs.1 sw s.h s.k _ rfl
        have t1 := toM_elimBelow hs.1 hc.1 hc.2 hs.2.2.2.1 hp
        have t2 := toM_rowOp_of_get (n := n) (p := n)
          (elimCoef ((swap n r s.h).matmul s.res) n s.h s.k) hc.1 k3
        apply ih
        · simp only
          rw [k1]
          exact hs.elim hc.2 hp
        · exact k2
        · simp only
          rw [k1, t1, t2, ← rowOp_mul, toM_matmul (swap_spec e3 hc.1).1 iw,
            toM_matmul (swap_spec e3 hc.1).1 he.1, Matrix.mul_assoc, hm]
        · simp only
          rw [t2, det_rowOp (fun i : Fin n => elimCoef ((swap n r s.h).matmul s.res) n s.h s.k i)
            ⟨s.h, hc.1⟩ (elimCoef_self _ _ _ _)]
          exact det_swap_matmul_ne e3 hc.1 iw hd
        · simp only; omega
    · rw [if_neg hc]
      exact ⟨he, hc, iw, hm, hd⟩

theorem anyLoop_eq (f : Nat → Bool) (n : Nat) :
    forLoop 0 n (fun i (ret : Bool) => ret || f i) false = true ↔ ∃ i, i < n ∧ f i = true := by
  refine forLoop_inv 0 n (fun i (ret : Bool) => ret || f i) false
    (fun t x => x = true ↔ ∃ i, i < t ∧ f i = true) (Nat.zero_le _) (by simp) ?_
  intro i t _ _ ht
  beta_reduce
  rw [Bool.or_eq_true, ht]
  constructor
  · rintro (⟨j, h1, h2⟩ | h)
    · exact ⟨j, by omega, h2⟩
    · exact ⟨i, by omega, h⟩
  · rintro ⟨j, h1, h2⟩
    rcases Nat.lt_or_ge j i with q | q
    · exact Or.inl ⟨j, q, h2⟩
    · have : j = i := by omega
      subst this
      exact Or.inr h2

/-- One step of the backward pass: row `i` above the pivot row `h` is cleared in
column `h`; the same row operation is applied to the carried matrix. -/
theorem backStep_spec {n : Nat} (M : Matrix (Fin n) (Fin n) K) (d : Nat → K) {i h : Nat}
    (hih : i < h) (hh : h < n) (hd : d h ≠ 0) (p : Mat K × Mat K) (hb : BackInv M d h p)
    (hz : ∀ a, a < i → p.1.get a h = 0) (p' : Mat K × Mat K)
    (hp' : p' = if p.1.get i h = 0 then (p.1, p.2)
      else forLoop 0 n (fun j (q : Mat K × Mat K) =>
        (q.1.set i j (q.1.get i j - p.1.get i h / p.1.get h h * q.1.get h j),
         q.2.set i j (q.2.get i j - p.1.get i h / p.1.get h h * q.2.get h j))) (p.1, p.2)) :
    BackInv M d h p' ∧ ∀ a, a < i + 1 → p'.1.get a h = 0 := by
  obtain ⟨w1, w2, hm, hu, hdiag, hcl⟩ := hb
  by_cases c : p.1.get i h = 0
  · rw [if_pos c] at hp'
    subst hp'
    refine ⟨⟨w1, w2, hm, hu, hdiag, hcl⟩, fun a ha => ?_⟩
    rcases Nat.lt_or_ge a i with q | q
    · exact hz a q
    · have : a = i := by omega
      subst this
      exact c
  · rw [if_neg c, forLoop_prod 0 n
      (fun j (r : Mat K) => r.set i j (r.get i j - p.1.get i h / p.1.get h h * r.get h j))
      (fun j (r : Mat K) => r.set i j (r.get i j - p.1.get i h / p.1.get h h * r.get h j))] at hp'
    subst hp'
    obtain ⟨r1, r2⟩ := rowSub_spec w1 i h (p.1.get i h / p.1.get h h) (by omega) (by omega)
    obtain ⟨q1, q2⟩ := rowSub_spec w2 i h (p.1.get i h / p.1.get h h) (by omega) (by omega)
    have hhh : p.1.get h h ≠ 0 := by rw [hdiag]; exact hd
    have c1 : ∀ a b, (forLoop 0 n (fun j (r : Mat K) =>
        r.set i j (r.get i j - p.1.get i h / p.1.get h h * r.get h j)) p.1).get a b
        = p.1.get a b - (if a = i then p.1.get i h / p.1.get h h else 0) * p.1.get h b := by
      intro a b
      rw [r2]
      by_cases e : a = i
      · subst e; simp
      · simp [e]
    have c2 : ∀ a b, (forLoop 0 n (fun j (r : Mat K) =>
        r.set i j (r.get i j - p.1.get i h / p.1.get h h * r.get h j)) p.2).get a b
        = p.2.get a b - (if a = i then p.1.get i h / p.1.get h h else 0) * p.2.get h b := by
      intro a b
      rw [q2]
      by_cases e : a = i
      · subst e; simp
      · simp [e]
    refine ⟨⟨r1, q1, ?_, fun a b hab => ?_, fun a => ?_, fun a b hab hbt => ?_⟩, fun a ha => ?_⟩
    · simp only
      rw [toM_rowOp_of_get (n := n) (p := n) _ hh c1, toM_rowOp_of_get (n := n) (p := n) _ hh c2,
        ← rowOp_mul, hm]
    · simp only
      rw [r2]
      by_cases e : a = i
      · subst e
        rw [if_pos rfl, hu a b hab, hu h b (by omega)]
        simp
      · rw [if_neg e]
        exact hu a b hab
    · simp only
      rw [r2]
      by_cases e : a = i
      · subst e
        rw [if_pos rfl, hu h a hih, hdiag]
        simp
      · rw [if_neg e]
        exact hdiag a
    · simp only
      rw [r2]
      by_cases e : a = i
      · subst e
        rw [if_pos rfl, hcl a b hab hbt, hu h b hbt]
        simp
      · rw [if_neg e]
        exact hcl a b hab hbt
    · simp only
      rw [r2]
      by_cases e : a = i
      · subst e
        rw [if_pos rfl]
        field_simp
      · rw [if_neg e]
        exact hz a (by omega)

/-- The backward pass of `inverse` turns the upper triangular grid into a diagonal one. -/
theorem backPass_spec {n : Nat} (M : Matrix (Fin n) (Fin n) K) (d : Nat → K)
    (hd : ∀ a, a < n → d a ≠ 0) (p0 : Mat K × Mat K) (h0 : BackInv M d 1 p0)
    (p : Mat K × Mat K)
    (hp : p = forLoop 1 n (fun h (p : Mat K × Mat K) =>
      forLoop 0 h (fun i (p : Mat K × Mat K) =>
        if p.1.get i h = 0 then (p.1, p.2)
        else forLoop 0 n (fun j (q : Mat K × Mat K) =>
          (q.1.set i j (q.1.get i j - p.1.get i h / p.1.get h h * q.1.get h j),
           q.2.set i j (q.2.get i j - p.1.get i h / p.1.get h h * q.2.get h j)))
          (p.1, p.2)) p) p0) :
    p.1.WF n n ∧ p.2.WF n n ∧ p.2.toM n n * M = p.1.toM n n ∧
    ∀ a b, a < n → b < n → p.1.get a b = if a = b then d a else 0 := by
  have fin : ∀ q : Mat K × Mat K, (∃ t, n ≤ t ∧ BackInv M d t q) →
      q.1.WF n n ∧ q.2.WF n n ∧ q.2.toM n n * M = q.1.toM n n ∧
      ∀ a b, a < n → b < n → q.1.get a b = if a = b then d a else 0 := by
    rintro q ⟨t, ht, w1, w2, hm, hu, hdiag, hcl⟩
    refine ⟨w1, w2, hm, fun a b ha hb => ?_⟩
    by_cases e : a = b
    · subst e
      rw [if_pos rfl, hdiag]
    · rw [if_neg e]
      rcases Nat.lt_or_ge a b with q | q
      · exact hcl a b q (by omega)
      · exact hu a b (by omega)
  subst hp
  apply fin
  by_cases hn : 1 ≤ n
  · refine ⟨n, le_refl _, ?_⟩
    refine forLoop_inv 1 n _ p0 (fun t q => BackInv M d t q) hn h0 ?_
    intro h q h1 h2 hb
    have inner := forLoop_inv 0 h (fun i (p : Mat K × Mat K) =>
        if p.1.get i h = 0 then (p.1, p.2)
        else forLoop 0 n (fun j (q : Mat K × Mat K) =>
          (q.1.set i j (q.1.get i j - p.1.get i h / p.1.get h h * q.1.get h j),
           q.2.set i j (q.2.get i j - p.1.get i h / p.1.get h h * q.2.get h j)))
          (p.1, p.2)) q
      (fun u r => BackInv M d h r ∧ ∀ a, a < u → r.1.get a h = 0) (Nat.zero_le _)
      ⟨hb, fun a ha => by omega⟩ (by
        intro i r _ hi ⟨rb, rz⟩
        exact backStep_spec M d hi h2 (hd h h2) r rb rz _ rfl)
    obtain ⟨⟨w1, w2, hm, hu, hdiag, hcl⟩, hz⟩ := inner
    refine ⟨w1, w2, hm, hu, hdiag, fun a b hab hbt => ?_⟩
    rcases Nat.lt_or_ge b h with q | q
    · exact hcl a b hab q
    · have : b = h := by omega
      subst this
      exact hz a hab
  · rw [forLoop_of_le _ _ (by omega)]
    exact ⟨1, by omega, h0⟩

/-- The final loop of `inverse`: every row of the carried matrix is divided by the
diagonal entry of the reduced grid. -/
theorem scaleRows_spec {inv : Mat K} (res : Mat K) {n : Nat} (iw : inv.WF n n) :
    (forLoop 0 n (fun i inv =>
      forLoop 0 n (fun j inv => inv.set i j (inv.get i j / res.get i i)) inv) inv).WF n n ∧
    ∀ a b, (forLoop 0 n (fun i inv =>
      forLoop 0 n (fun j inv => inv.set i j (inv.get i j / res.get i i)) inv) inv).get a b
      = inv.get a b / res.get a a := by
  have key := forLoop_rows iw 0 n
    (fun i inv => forLoop 0 n (fun j inv => inv.set i j (inv.get i j / res.get i i)) inv)
    (fun a b => inv.get a b / res.get a a) (by
      intro i t _ hi tw tg
      have r := forLoop_set_row tw i 0 n (fun u j => u.get i j / res.get i i)
        (fun j => inv.get i j / res.get i i) (by
          intro j u _ _ uw ug
          beta_reduce
          rw [ug i j (by omega), tg]
          simp)
      refine ⟨r.1, fun a b => ?_⟩
      rw [r.2]
      by_cases c : a = i
      · subst c
        by_cases hb : b < n
        · simp [hi, hb]
        · simp [hb, get_of_col_ge iw a (not_lt.mp hb), get_of_col_ge tw a (not_lt.mp hb)]
      · simp [c])
  refine ⟨key.1, fun a b => ?_⟩
  rw [key.2]
  by_cases ha : a < n
  · simp [ha]
  · simp [ha, get_of_row_ge iw b (not_lt.mp ha)]

/-- Facts about the state in which the forward elimination of `inverse` ends. -/
theorem invForward_spec {A : Mat K} {n : Nat} (hA : A.WF n n) :
    let s := invLoop n n n ⟨A, eye n, 0, 0⟩
    s.res.WF n n ∧ s.inv.WF n n ∧ s.inv.toM n n * A.toM n n = s.res.toM n n ∧
    (s.inv.toM n n).det ≠ 0 ∧ (∀ a b, b < a → s.res.get a b = 0) ∧
    (s.res.toM n n).det = ∏ i in Finset.range n, s.res.get i i := by
  obtain ⟨he, hstop, iw, hm, hd⟩ := invLoop_spec (A.toM n n) n ⟨A, eye n, 0, 0⟩
    (Ech_init hA) (eye_spec n).1 (by simp [toM_eye]) (by simp [toM_eye]) (by simp)
  exact ⟨he.1, iw, hm, hd, he.upper hstop, det_upper (he.upper hstop)⟩

/-- On an invertible square grid `inverse` returns a left inverse. -/
theorem inverse_mul_toM {A : Mat K} {n : Nat} (hA : A.WF n n) (hdet : (A.toM n n).det ≠ 0) :
    (inverse A).WF n n ∧ (inverse A).toM n n * A.toM n n = 1 := by
  obtain ⟨rw1, iw, hm, hd, hu, hprod⟩ := invForward_spec hA
  have hres : ((invLoop n n n ⟨A, eye n, 0, 0⟩).res.toM n n).det ≠ 0 := by
    rw [← hm, Matrix.det_mul]
    exact mul_ne_zero hd hdet
  rw [hprod, Finset.prod_ne_zero_iff] at hres
  have hdiag : ∀ a, a < n → (invLoop n n n ⟨A, eye n, 0, 0⟩).res.get a a ≠ 0 :=
    fun a ha => hres a (Finset.mem_range.mpr ha)
  have hflag : ¬ (forLoop 0 n (fun i (ret : Bool) =>
      ret || decide ((invLoop n n n ⟨A, eye n, 0, 0⟩).res.get i i = 0)) false = true) := by
    rw [anyLoop_eq]
    rintro ⟨i, h1, h2⟩
    exact hdiag i h1 (of_decide_eq_true h2)
  obtain ⟨p, hp⟩ : ∃ p : Mat K × Mat K, p = forLoop 1 n (fun h (p : Mat K × Mat K) =>
      forLoop 0 h (fun i (p : Mat K × Mat K) =>
        if p.1.get i h = 0 then (p.1, p.2)
        else forLoop 0 n (fun j (q : Mat K × Mat K) =>
          (q.1.set i j (q.1.get i j - p.1.get i h / p.1.get h h * q.1.get h j),
           q.2.set i j (q.2.get i j - p.1.get i h / p.1.get h h * q.2.get h j)))
          (p.1, p.2)) p)
      ((invLoop n n n ⟨A, eye n, 0, 0⟩).res, (invLoop n n n ⟨A, eye n, 0, 0⟩).inv) := ⟨_, rfl⟩
  obtain ⟨w1, w2, hm2, hg⟩ := backPass_spec (A.toM n n)
    (fun a => (invLoop n n n ⟨A, eye n, 0, 0⟩).res.get a a) hdiag
    ((invLoop n n n ⟨A, eye n, 0, 0⟩).res, (invLoop n n n ⟨A, eye n, 0, 0⟩).inv)
    ⟨rw1, iw, hm, hu, fun a => rfl, fun a b h1 h2 => by omega⟩ p hp
  unfold inverse
  rw [hA.1, hA.2.1]
  simp only [ne_eq, not_true_eq_false, if_false, copy_eq hA]
  rw [if_neg hflag, ← hp]
  obtain ⟨fw, fg⟩ := scaleRows_spec p.1 w2
  refine ⟨fw, ?_⟩
  ext i j
  rw [Matrix.mul_apply]
  simp only [toM_apply, fg]
  have hsum := congrFun (congrFun hm2 i) j
  rw [Matrix.mul_apply] at hsum
  simp only [toM_apply] at hsum
  simp only [div_mul_eq_mul_div, ← Finset.sum_div, hsum, hg i j i.2 j.2, Matrix.one_apply]
  by_cases e : i = j
  · subst e
    simp only [if_true]
    rw [hg i i i.2 i.2, if_pos rfl]
    exact div_self (hdiag i i.2)
  · have : ¬ (i : Nat) = (j : Nat) := fun q => e (Fin.ext q)
    simp [e, this]

/-- On a singular square grid `inverse` returns the null matrix. -/
theorem inverse_singular {A : Mat K} {n : Nat} (hA : A.WF n n) (hdet : (A.toM n n).det = 0) :
    inverse A = NIL := by
  obtain ⟨rw1, iw, hm, hd, hu, hprod⟩ := invForward_spec hA
  have hres : ((invLoop n n n ⟨A, eye n, 0, 0⟩).res.toM n n).det = 0 := by
    rw [← hm, Matrix.det_mul, hdet, mul_zero]
  rw [hprod, Finset.prod_eq_zero_iff] at hres
  obtain ⟨i, hi, hz⟩ := hres
  have hflag : forLoop 0 n (fun i (ret : Bool) =>
      ret || decide ((invLoop n n n ⟨A, eye n, 0, 0⟩).res.get i i = 0)) false = true := by
    rw [anyLoop_eq]
    exact ⟨i, Finset.mem_range.mp hi, decide_eq_true hz⟩
  unfold inverse
  rw [hA.1, hA.2.1]
  simp only [ne_eq, not_true_eq_false, if_false, copy_eq hA]
  rw [if_pos hflag]

/-! ## PLU factorization -/

/-- The row loop of `PLU`: the first component is the elimination step of `det`,
and the multipliers are stored in column `h` of `L`. -/
theorem pluElim_spec {res L : Mat K} {n : Nat} (hw : res.WF n n) (lw : L.WF n n)
    (h k : Nat) (hh : h < n) (p : Mat K × Mat K)
    (hp : p = forLoop (h + 1) n (fun i (p : Mat K × Mat K) =>
      (forLoop (k + 1) n (fun j res => res.set i j
          (res.get i j - p.1.get i k / p.1.get h k * res.get h j)) (p.1.set i k 0),
       p.2.set i h (p.1.get i k / p.1.get h k))) (res, L)) :
    p.1 = elimBelow res n h k ∧ p.2.WF n n ∧
    ∀ a b, p.2.get a b = if b = h ∧ h + 1 ≤ a ∧ a < n then elimCoef res n h k a
      else L.get a b := by
  subst hp
  obtain ⟨w1, w2, g1, g2⟩ := forLoop_inv (h + 1) n
    (fun i (p : Mat K × Mat K) =>
    (forLoop (k + 1) n (fun j res => res.set i j
        (res.get i j - p.1.get i k / p.1.get h k * res.get h j)) (p.1.set i k 0),
     p.2.set i h (p.1.get i k / p.1.get h k))) (res, L)
    (fun t p => p.1.WF n n ∧ p.2.WF n n ∧
      (∀ a b, p.1.get a b = if h + 1 ≤ a ∧ a < t then
          (if b = k then 0
           else if k + 1 ≤ b ∧ b < n ∧ b < n then
             res.get a b - res.get a k / res.get h k * res.get h b
           else res.get a b)
        else res.get a b) ∧
      (∀ a b, p.2.get a b = if b = h ∧ h + 1 ≤ a ∧ a < t then res.get a k / res.get h k
        else L.get a b)) (by omega)
    ⟨hw, lw, fun a b => by
        have : ¬ (h + 1 ≤ a ∧ a < h + 1) := by omega
        rw [if_neg this], fun a b => by
        have : ¬ (b = h ∧ h + 1 ≤ a ∧ a < h + 1) := by omega
        rw [if_neg this]⟩ (by
      intro i p h1 h2 ⟨w1, w2, g1, g2⟩
      have hi1 : ∀ b, p.1.get i b = res.get i b := fun b => by
        rw [g1]; simp
      have hh1 : ∀ b, p.1.get h b = res.get h b := fun b => by
        rw [g1]
        have : ¬ (h + 1 ≤ h ∧ h < i) := by omega
        rw [if_neg this]
      obtain ⟨r1, r2⟩ := elimRow_spec w1 i h k (p.1.get i k / p.1.get h k) h2 (by omega)
      refine ⟨r1, w2.set _ _ _, fun a b => ?_, fun a b => ?_⟩
      · beta_reduce
        rw [r2]
        by_cases c : a = i
        · subst c
          have : h + 1 ≤ a ∧ a < a + 1 := ⟨h1, by omega⟩
          rw [if_pos rfl, if_pos this]
          simp only [hi1, hh1]
        · have : (h + 1 ≤ a ∧ a < i + 1) ↔ (h + 1 ≤ a ∧ a < i) := by omega
          rw [if_neg c, g1]
          simp only [this]
      · beta_reduce
        rw [get_set w2, g2, hi1, hh1]
        by_cases c : a = i ∧ b = h
        · obtain ⟨rfl, rfl⟩ := c
          have t1 : a = a ∧ b = b ∧ a < n ∧ b < n := ⟨rfl, rfl, h2, hh⟩
          have t2 : b = b ∧ b + 1 ≤ a ∧ a < a + 1 := ⟨rfl, h1, by omega⟩
          rw [if_pos t1, if_pos t2]
        · have t1 : ¬ (a = i ∧ b = h ∧ i < n ∧ h < n) := fun q => c ⟨q.1, q.2.1⟩
          have t2 : (b = h ∧ h + 1 ≤ a ∧ a < i + 1) ↔ (b = h ∧ h + 1 ≤ a ∧ a < i) := by
            constructor
            · rintro ⟨q1, q2, q3⟩
              refine ⟨q1, q2, ?_⟩
              rcases Nat.lt_or_ge a i with q | q
              · exact q
              · exact absurd ⟨by omega, q1⟩ c
            · rintro ⟨q1, q2, q3⟩
              exact ⟨q1, q2, by omega⟩
          rw [if_neg t1]
          simp only [t2])
  refine ⟨ext_get_all w1 (elimBelow_spec hw h k).1 (fun a b => ?_), w2, fun a b => ?_⟩
  · rw [g1, (elimBelow_spec hw h k).2]
  · rw [g2]
    unfold elimCoef
    by_cases c : b = h ∧ h + 1 ≤ a ∧ a < n
    · rw [if_pos c, if_pos c, if_pos c.2]
    · rw [if_neg c, if_neg c]

/-- Algebra of one elimination step of `PLU`. -/
theorem plu_step_algebra {n : Nat} (R L L2 : Matrix (Fin n) (Fin n) K) (c : Fin n → K)
    (h : Fin n) (hL : ∀ i t, h ≤ t → L i t = 0) (hc : ∀ t, t ≤ h → c t = 0)
    (hL2 : ∀ i t, L2 i t = if t = h then c i else L i t) :
    rowOp c h R + L2 * rowOp c h R = R + L * R := by
  ext i j
  simp only [Matrix.add_apply, Matrix.mul_apply, rowOp, Matrix.of_apply]
  have e : ∀ t, L2 i t * (R t j - c t * R h j)
      = L i t * R t j + (if t = h then c i * R h j else 0) := by
    intro t
    rw [hL2]
    by_cases q : t = h
    · subst q
      simp [hc t (le_refl _), hL i t (le_refl _)]
    · rw [if_neg q, if_neg q]
      rcases lt_or_le t h with q1 | q1
      · simp [hc t (le_of_lt q1)]
      · simp [hL i t q1]
  rw [Finset.sum_congr rfl (fun t _ => e t), Finset.sum_add_distrib,
    Finset.sum_ite_eq' Finset.univ h]
  simp only [Finset.mem_univ, if_true]
  ring

/-- Algebra of one row exchange of `PLU`. -/
theorem plu_swap_algebra {n : Nat} (R L : Matrix (Fin n) (Fin n) K) (σ : Equiv.Perm (Fin n))
    (hσ : ∀ i t, L i (σ t) = L i t) :
    L.submatrix σ id * R.submatrix σ id = (L * R).submatrix σ id := by
  ext i j
  simp only [Matrix.mul_apply, Matrix.submatrix_apply, id_eq]
  rw [← Equiv.sum_comp σ (fun t => L (σ i) t * R t j)]
  apply Finset.sum_congr rfl
  intro t _
  rw [hσ]

theorem submatrix_mul_left {n : Nat} (X Y : Matrix (Fin n) (Fin n) K) (σ : Equiv.Perm (Fin n)) :
    X.submatrix σ id * Y = (X * Y).submatrix σ id := by
  ext i j
  simp only [Matrix.mul_apply, Matrix.submatrix_apply, id_eq]

theorem PLUInv.skipCol {n : Nat} {M : Matrix (Fin n) (Fin n) K} {s : PLUState K}
    (hs : PLUInv M s) (hk : s.k < n) (hz : ∀ i, s.h ≤ i → i < n → s.res.get i s.k = 0) :
    PLUInv M { s with k := s.k + 1 } := by
  obtain ⟨he, lw, pw, hm, hcol, hlow, hperm⟩ := hs
  exact ⟨he.skip hk hz, lw, pw, hm, hcol, hlow, hperm⟩

theorem PLUInv.swapRows {n : Nat} {M : Matrix (Fin n) (Fin n) K} {s : PLUState K}
    (hs : PLUInv M s) {r : Nat} (hh : s.h < n) (h1 : s.h ≤ r) (h2 : r < n) :
    PLUInv M { s with P := (swap n r s.h).matmul s.P, L := (swap n r s.h).matmul s.L,
                      res := (swap n r s.h).matmul s.res } := by
  obtain ⟨he, lw, pw, hm, hcol, hlow, σ, hσ⟩ := hs
  obtain ⟨lw', lg⟩ := swap_matmul_spec h2 hh lw
  obtain ⟨pw', pg⟩ := swap_matmul_spec h2 hh pw
  have hcol' : ∀ a b, s.h ≤ b → ((swap n r s.h).matmul s.L).get a b = 0 := fun a b hb => by
    rw [lg]; exact hcol _ b hb
  refine ⟨he.swap hh h1 h2, lw', pw', ?_, hcol', fun a b hab => ?_, ?_⟩
  · simp only
    rw [toM_swap_matmul h2 hh pw, toM_swap_matmul h2 hh lw, toM_swap_matmul h2 hh he.1,
      submatrix_mul_left, hm, plu_swap_algebra]
    · rfl
    · intro i t
      simp only [toM_apply]
      rw [Equiv.swap_apply_def]
      by_cases q1 : t = ⟨r, h2⟩
      · subst q1
        rw [if_pos rfl]
        rw [hcol _ _ (le_refl _), hcol _ _ h1]
      · rw [if_neg q1]
        by_cases q2 : t = ⟨s.h, hh⟩
        · subst q2
          rw [if_pos rfl]
          rw [hcol _ _ (le_refl _), hcol _ _ h1]
        · rw [if_neg q2]
  · simp only
    rcases Nat.lt_or_ge b s.h with q | q
    · rw [lg]
      have : swapIdx r s.h a = a := by
        unfold swapIdx
        have q1 : ¬ a = r := by omega
        have q2 : ¬ a = s.h := by omega
        simp [q1, q2]
      rw [this]
      exact hlow a b hab
    · exact hcol' a b q
  · refine ⟨(Equiv.swap (⟨r, h2⟩ : Fin n) ⟨s.h, hh⟩).trans σ, fun i j => ?_⟩
    simp only
    rw [pg, swapIdx_fin (⟨r, h2⟩ : Fin n) ⟨s.h, hh⟩ i, hσ]
    rfl

theorem PLUInv.elimStep {n : Nat} {M : Matrix (Fin n) (Fin n) K} {s : PLUState K}
    (hs : PLUInv M s) (hh : s.h < n) (hk : s.k < n) (hp : s.res.get s.h s.k ≠ 0)
    (p : Mat K × Mat K)
    (hp' : p = forLoop (s.h + 1) n (fun i (p : Mat K × Mat K) =>
      (forLoop (s.k + 1) n (fun j res => res.set i j
          (res.get i j - p.1.get i s.k / p.1.get s.h s.k * res.get s.h j)) (p.1.set i s.k 0),
       p.2.set i s.h (p.1.get i s.k / p.1.get s.h s.k))) (s.res, s.L)) :
    PLUInv M { s with res := p.1, L := p.2, h := s.h + 1, k := s.k + 1 } := by
  obtain ⟨he, lw, pw, hm, hcol, hlow, hperm⟩ := hs
  obtain ⟨k1, k2, k3⟩ := pluElim_spec he.1 lw s.h s.k hh p hp'
  have k3' : ∀ a b, p.2.get a b = if b = s.h then elimCoef s.res n s.h s.k a
      else s.L.get a b := by
    intro a b
    rw [k3]
    by_cases q : b = s.h
    · subst q
      by_cases q2 : s.h + 1 ≤ a ∧ a < n
      · simp [q2]
      · have : ¬ (s.h = s.h ∧ s.h + 1 ≤ a ∧ a < n) := fun e => q2 e.2
        rw [if_neg this, if_pos rfl, hcol a _ (le_refl _)]
        unfold elimCoef
        rw [if_neg q2]
    · simp [q]
  refine ⟨?_, k2, pw, ?_, fun a b hb => ?_, fun a b hab => ?_, hperm⟩
  · simp only
    rw [k1]
    exact he.elim hk hp
  · simp only
    rw [k1, toM_elimBelow he.1 hh hk he.2.2.2.1 hp, hm]
    symm
    apply plu_step_algebra
    · intro i t ht
      exact hcol _ _ ht
    · intro t ht
      exact elimCoef_of_le _ _ _ _ ht
    · intro i t
      rw [toM_apply, k3', toM_apply]
      by_cases q : t = ⟨s.h, hh⟩
      · subst q
        simp
      · have : ¬ (t : Nat) = s.h := fun e => q (Fin.ext e)
        simp [q, this]
  · simp only at hb ⊢
    rw [k3']
    have : ¬ b = s.h := by omega
    rw [if_neg this]
    exact hcol a b (by omega)
  · simp only
    rw [k3']
    by_cases q : b = s.h
    · rw [if_pos q]
      exact elimCoef_of_le _ _ _ _ (by omega)
    · rw [if_neg q]
      exact hlow a b hab

/-- Invariant of the `while` loop of `PLU`; with enough fuel the loop ends with its
guard false. -/
theorem pluLoop_spec {n : Nat} (M : Matrix (Fin n) (Fin n) K) :
    ∀ (fuel : Nat) (s : PLUState K), PLUInv M s → n ≤ s.k + fuel →
      PLUInv M (pluLoop n n fuel s) ∧
      ¬ ((pluLoop n n fuel s).h < n ∧ (pluLoop n n fuel s).k < n) := by
  intro fuel
  induction fuel with
  | zero =>
    intro s hs hf
    simp only [pluLoop]
    exact ⟨hs, fun q => by omega⟩
  | succ fuel ih =>
    intro s hs hf
    rw [pluLoop]
    by_cases hc : s.h < n ∧ s.k < n
    · rw [if_pos hc]
      by_cases hz : (pivotScan s.res n s.h s.k).2 = 0
      · simp only [hz, if_true]
        exact ih _ (hs.skipCol hc.2 (pivotScan_zero hz)) (by simp only; omega)
      · simp only [hz, if_false]
        obtain ⟨r, e1, e2, e3, e4⟩ := pivotScan_pivot hz
        rw [e1]
        simp only [Int.toNat_ofNat, ne_eq, Nat.cast_inj]
        by_cases hr : r = s.h
        · subst hr
          simp only [not_true_eq_false, if_false]
          exact ih _ (hs.elimStep hc.1 hc.2 e4 _ rfl) (by simp only; omega)
        · simp only [hr, not_false_eq_true, if_true]
          have hs1 := hs.swapRows hc.1 e2 e3
          have hp : ((swap n r s.h).matmul s.res).get s.h s.k ≠ 0 := by
            rw [(swap_matmul_spec e3 hc.1 hs.1.1).2, swapIdx_right]
            exact e4
          exact ih _ (hs1.elimStep hc.1 hc.2 hp _ rfl) (by simp only; omega)
    · rw [if_neg hc]
      exact ⟨hs, hc⟩

theorem toM_new (a b : Nat) : (new a b : Mat K).toM a b = 0 := by
  ext i j
  rw [toM_apply, get_new]
  rfl

/-- The loop `for (i = 0; i < n; i++) L[i][i] = 1`. -/
theorem setDiag_spec {L : Mat K} {n : Nat} (lw : L.WF n n) :
    (forLoop 0 n (fun i (L : Mat K) => L.set i i 1) L).WF n n ∧
    ∀ a b, (forLoop 0 n (fun i (L : Mat K) => L.set i i 1) L).get a b
      = if a = b ∧ a < n then 1 else L.get a b := by
  refine forLoop_inv 0 n (fun i (L : Mat K) => L.set i i 1) L
    (fun t X => X.WF n n ∧ ∀ a b, X.get a b = if a = b ∧ a < t then 1 else L.get a b)
    (Nat.zero_le _) ⟨lw, fun a b => by simp⟩ ?_
  intro i X _ hi ⟨xw, xg⟩
  refine ⟨xw.set _ _ _, fun a b => ?_⟩
  rw [get_set xw, xg]
  by_cases c : a = i ∧ b = i
  · obtain ⟨rfl, rfl⟩ := c
    simp [hi]
  · have c1 : ¬ (a = i ∧ b = i ∧ i < n ∧ i < n) := fun q => c ⟨q.1, q.2.1⟩
    have c2 : (a = b ∧ a < i + 1) ↔ (a = b ∧ a < i) := by
      constructor
      · rintro ⟨q1, q2⟩
        refine ⟨q1, ?_⟩
        rcases Nat.lt_or_ge a i with q | q
        · exact q
        · exact absurd ⟨by omega, by omega⟩ c
      · rintro ⟨q1, q2⟩
        exact ⟨q1, by omega⟩
    rw [if_neg c1]
    simp only [c2]

/-- Specification of `PLU` on a square grid. -/
theorem PLU_spec {A : Mat K} {n : Nat} (hA : A.WF n n) :
    ∃ P L U : Mat K, PLU A = [P, L, U] ∧ P.WF n n ∧ L.WF n n ∧ U.WF n n ∧
      P.toM n n * A.toM n n = L.toM n n * U.toM n n ∧
      (∀ i, i < n → L.get i i = 1) ∧ (∀ i j, i < j → L.get i j = 0) ∧
      (∀ i j, j < i → U.get i j = 0) ∧
      ∃ σ : Equiv.Perm (Fin n), ∀ i j : Fin n, P.get i j = if σ i = j then 1 else 0 := by
  have h0 : PLUInv (A.toM n n) ⟨A, new n n, eye n, 0, 0⟩ := by
    refine ⟨Ech_init hA, WF_new n n, (eye_spec n).1, ?_, fun a b _ => get_new _ _ _ _,
      fun a b _ => get_new _ _ _ _, 1, fun i j => ?_⟩
    · simp [toM_eye, toM_new]
    · simp only [(eye_spec n).2, Equiv.Perm.coe_one, id_eq, i.2, true_and]
      by_cases e : i = j
      · subst e; simp
      · have : ¬ (i : Nat) = (j : Nat) := fun q => e (Fin.ext q)
        simp [e, this]
  obtain ⟨⟨he, lw, pw, hm, hcol, hlow, hperm⟩, hstop⟩ :=
    pluLoop_spec (A.toM n n) n _ h0 (by simp)
  obtain ⟨dw, dg⟩ := setDiag_spec lw
  refine ⟨_, _, _, ?_, pw, dw, he.1, ?_, fun i hi => ?_, fun i j hij => ?_,
    he.upper hstop, hperm⟩
  · unfold PLU
    rw [hA.1, hA.2.1]
    simp only [ne_eq, not_true_eq_false, if_false, copy_eq hA]
  · rw [hm]
    have : (forLoop 0 n (fun i (L : Mat K) => L.set i i 1)
        (pluLoop n n n ⟨A, new n n, eye n, 0, 0⟩).L).toM n n
        = 1 + (pluLoop n n n ⟨A, new n n, eye n, 0, 0⟩).L.toM n n := by
      ext i j
      rw [toM_apply, dg, Matrix.add_apply, Matrix.one_apply, toM_apply]
      by_cases e : i = j
      · subst e
        simp [hlow i i (le_refl _)]
      · have : ¬ (i : Nat) = (j : Nat) := fun q => e (Fin.ext q)
        simp [e, this]
    rw [this, Matrix.add_mul, Matrix.one_mul]
  · rw [dg]
    simp [hi]
  · rw [dg]
    have : ¬ (i = j ∧ i < n) := by omega
    rw [if_neg this]
    exact hlow i j (by omega)

/-- On an invertible square grid `inverse` returns a two-sided inverse. -/
theorem inverse_matmul {A : Mat K} {n : Nat} (hA : A.WF n n) (hdet : (A.toM n n).det ≠ 0) :
    (inverse A).WF n n ∧ (inverse A).matmul A = eye n ∧ A.matmul (inverse A) = eye n := by
  obtain ⟨iw, hm⟩ := inverse_mul_toM hA hdet
  refine ⟨iw, ?_, ?_⟩
  · apply toM_inj (matmul_spec iw hA).1 (eye_spec n).1
    rw [toM_matmul iw hA, hm, toM_eye]
  · apply toM_inj (matmul_spec hA iw).1 (eye_spec n).1
    rw [toM_matmul hA iw, toM_eye]
    exact (Matrix.mul_eq_one_comm).mp hm

/-- When the elimination of `det` had to skip a column (the pivot column index ended
ahead of the pivot row index) the result is `0`. -/
theorem det_of_skip {A : Mat K} {n : Nat} (hA : A.WF n n)
    (hskip : (detLoop n n n ⟨A, 0, 0, 1⟩).h < (detLoop n n n ⟨A, 0, 0, 1⟩).k) :
    det A = 0 := by
  obtain ⟨he, hstop, hd⟩ := detLoop_spec (n := n) (A.toM n n).det n ⟨A, 0, 0, 1⟩
    (Ech_init hA) (by simp) (by simp)
  unfold det
  rw [hA.1, hA.2.1]
  simp only [ne_eq, not_true_eq_false, if_false, copy_eq hA]
  rw [prodLoop_eq]
  obtain ⟨w, e1, e2, e3, e4⟩ := he
  have hn : 0 < n := by omega
  have hz : (detLoop n n n ⟨A, 0, 0, 1⟩).res.get (n - 1) (n - 1) = 0 :=
    e3 _ _ (by omega) (by omega)
  have hprod := Finset.prod_eq_zero
    (f := fun i => (detLoop n n n ⟨A, 0, 0, 1⟩).res.get i i)
    (Finset.mem_range.mpr (by omega : n - 1 < n)) hz
  rw [hprod, mul_zero]

theorem det_matmul {A B : Mat K} {n : Nat} (hA : A.WF n n) (hB : B.WF n n) :
    det (A.matmul B) = det A * det B := by
  rw [det_eq (matmul_spec hA hB).1, det_eq hA, det_eq hB, toM_matmul hA hB, Matrix.det_mul]

theorem perm_transpose_mul {n : Nat} (P : Matrix (Fin n) (Fin n) K) (σ : Equiv.Perm (Fin n))
    (hσ : ∀ i j, P i j = if σ i = j then 1 else 0) : P.transpose * P = 1 := by
  ext i j
  simp only [Matrix.mul_apply, Matrix.transpose_apply, hσ, Matrix.one_apply]
  rw [Equiv.sum_comp σ (fun t => (if t = i then (1 : K) else 0) * (if t = j then 1 else 0))]
  simp only [ite_mul, one_mul, zero_mul, Finset.sum_ite_eq', Finset.mem_univ, if_true]

theorem perm_rows_cols {n : Nat} {P : Mat K} (σ : Equiv.Perm (Fin n))
    (hσ : ∀ i j : Fin n, P.get i j = if σ i = j then 1 else 0) :
    (∀ i j, i < n → j < n → P.get i j = 0 ∨ P.get i j = 1) ∧
    (∀ i, i < n → ∃! j, j < n ∧ P.get i j = 1) ∧
    (∀ j, j < n → ∃! i, i < n ∧ P.get i j = 1) := by
  have key : ∀ (i j : Nat) (hi : i < n) (hj : j < n),
      P.get i j = if σ ⟨i, hi⟩ = ⟨j, hj⟩ then 1 else 0 := fun i j hi hj => hσ ⟨i, hi⟩ ⟨j, hj⟩
  refine ⟨fun i j hi hj => ?_, fun i hi => ?_, fun j hj => ?_⟩
  · rw [key i j hi hj]
    by_cases c : σ ⟨i, hi⟩ = ⟨j, hj⟩
    · exact Or.inr (if_pos c)
    · exact Or.inl (if_neg c)
  · refine ⟨(σ ⟨i, hi⟩ : Fin n), ⟨(σ ⟨i, hi⟩).2, ?_⟩, ?_⟩
    · rw [key i _ hi (σ ⟨i, hi⟩).2, if_pos rfl]
    · rintro j ⟨hj, h1⟩
      rw [key i j hi hj] at h1
      by_cases c : σ ⟨i, hi⟩ = ⟨j, hj⟩
      · rw [c]
      · rw [if_neg c] at h1
        exact absurd h1 zero_ne_one
  · refine ⟨(σ.symm ⟨j, hj⟩ : Fin n), ⟨(σ.symm ⟨j, hj⟩).2, ?_⟩, ?_⟩
    · rw [key _ j (σ.symm ⟨j, hj⟩).2 hj, if_pos (by simp)]
    · rintro i ⟨hi, h1⟩
      rw [key i j hi hj] at h1
      by_cases c : σ ⟨i, hi⟩ = ⟨j, hj⟩
      · rw [← c]
        simp
      · rw [if_neg c] at h1
        exact absurd h1 zero_ne_one

/-! ## Vector helpers -/

/-- A double loop that fills every cell `(i, j)` with `i < n`, `j < m` of an `n × m`
grid with a value that does not depend on the cells already written. -/
theorem fill_spec {n m : Nat} {res0 : Mat K} (hw : res0.WF n m) (F : Nat → Nat → K) :
    (forLoop 0 n (fun i res =>
      forLoop 0 m (fun j res => res.set i j (F i j)) res) res0).WF n m ∧
    ∀ a b, (forLoop 0 n (fun i res =>
      forLoop 0 m (fun j res => res.set i j (F i j)) res) res0).get a b
      = if a < n ∧ b < m then F a b else 0 := by
  have key := forLoop_rows hw 0 n
    (fun i res => forLoop 0 m (fun j res => res.set i j (F i j)) res)
    (fun a b => if b < m then F a b else 0) (by
      intro i res _ hi rw _
      have r := forLoop_set_row rw i 0 m (fun _ j => F i j) (fun j => F i j)
        (fun _ _ _ _ _ _ => rfl)
      refine ⟨r.1, fun a b => ?_⟩
      rw [r.2]
      by_cases c : a = i
      · subst c
        by_cases hb : b < m
        · simp [hi, hb]
        · simp [hb, get_of_col_ge rw a (not_lt.mp hb)]
      · simp [c])
  refine ⟨key.1, fun a b => ?_⟩
  rw [key.2]
  by_cases ha : a < n
  · simp [ha]
  · simp [ha, get_of_row_ge hw b (not_lt.mp ha)]

theorem add_spec {A B : Mat K} {n m p q : Nat} (hA : A.WF n m) (hB : B.WF p q) :
    (A.add B).WF (min n p) (min m q) ∧
    ∀ a b, (A.add B).get a b
      = if a < min n p ∧ b < min m q then A.get a b + B.get a b else 0 := by
  unfold add
  rw [hA.1, hA.2.1, hB.1, hB.2.1]
  exact fill_spec (WF_new _ _) (fun a b => A.get a b + B.get a b)

theorem sub_spec {A B : Mat K} {n m p q : Nat} (hA : A.WF n m) (hB : B.WF p q) :
    (A.sub B).WF (min n p) (min m q) ∧
    ∀ a b, (A.sub B).get a b
      = if a < min n p ∧ b < min m q then A.get a b - B.get a b else 0 := by
  unfold sub
  rw [hA.1, hA.2.1, hB.1, hB.2.1]
  exact fill_spec (WF_new _ _) (fun a b => A.get a b - B.get a b)

theorem add_spec_same {A B : Mat K} {n m : Nat} (hA : A.WF n m) (hB : B.WF n m) :
    (A.add B).WF n m ∧ ∀ a b, (A.add B).get a b = A.get a b + B.get a b := by
  obtain ⟨w, g⟩ := add_spec hA hB
  rw [min_self, min_self] at w
  refine ⟨w, fun a b => ?_⟩
  rw [g, min_self, min_self]
  by_cases c : a < n ∧ b < m
  · rw [if_pos c]
  · rw [if_neg c]
    by_cases ha : a < n
    · have hb : m ≤ b := not_lt.mp (fun q => c ⟨ha, q⟩)
      rw [get_of_col_ge hA a hb, get_of_col_ge hB a hb, add_zero]
    · rw [get_of_row_ge hA b (not_lt.mp ha), get_of_row_ge hB b (not_lt.mp ha), add_zero]

theorem sub_spec_same {A B : Mat K} {n m : Nat} (hA : A.WF n m) (hB : B.WF n m) :
    (A.sub B).WF n m ∧ ∀ a b, (A.sub B).get a b = A.get a b - B.get a b := by
  obtain ⟨w, g⟩ := sub_spec hA hB
  rw [min_self, min_self] at w
  refine ⟨w, fun a b => ?_⟩
  rw [g, min_self, min_self]
  by_cases c : a < n ∧ b < m
  · rw [if_pos c]
  · rw [if_neg c]
    by_cases ha : a < n
    · have hb : m ≤ b := not_lt.mp (fun q => c ⟨ha, q⟩)
      rw [get_of_col_ge hA a hb, get_of_col_ge hB a hb, sub_zero]
    · rw [get_of_row_ge hA b (not_lt.mp ha), get_of_row_ge hB b (not_lt.mp ha), sub_zero]

theorem scale_spec {A : Mat K} {n m : Nat} (hA : A.WF n m) (c : K) :
    (A.scale c).WF n m ∧ ∀ a b, (A.scale c).get a b = A.get a b * c := by
  unfold scale
  rw [hA.1, hA.2.1, copy_eq hA]
  have key := forLoop_rows hA 0 n
    (fun i res => forLoop 0 m (fun j res => res.set i j (res.get i j * c)) res)
    (fun a b => A.get a b * c) (by
      intro i t _ hi tw tg
      have r := forLoop_set_row tw i 0 m (fun u j => u.get i j * c)
        (fun j => A.get i j * c) (by
          intro j u _ _ uw ug
          beta_reduce
          rw [ug i j (by omega), tg]
          simp)
      refine ⟨r.1, fun a b => ?_⟩
      rw [r.2]
      by_cases e : a = i
      · subst e
        by_cases hb : b < m
        · simp [hi, hb]
        · simp [hb, get_of_col_ge hA a (not_lt.mp hb), get_of_col_ge tw a (not_lt.mp hb)]
      · simp [e])
  refine ⟨key.1, fun a b => ?_⟩
  rw [key.2]
  by_cases ha : a < n
  · simp [ha]
  · simp [ha, get_of_row_ge hA b (not_lt.mp ha)]

theorem col_spec {A : Mat K} {n m : Nat} (hA : A.WF n m) (i : Nat) :
    (A.col i).WF n 1 ∧ ∀ a b, (A.col i).get a b = if b = 0 then A.get a i else 0 := by
  unfold col
  rw [hA.1]
  have key := forLoop_rows (WF_new n 1) 0 n (fun r (res : Mat K) => res.set r 0 (A.get r i))
    (fun a b => if b = 0 then A.get a i else 0) (by
      intro r res _ hr rw rg
      refine ⟨rw.set _ _ _, fun a b => ?_⟩
      rw [get_set rw]
      by_cases e : a = r
      · subst e
        by_cases hb : b = 0
        · subst hb; simp [hr]
        · simp [hb, get_of_col_ge rw a (by omega : 1 ≤ b)]
      · simp [e])
  refine ⟨key.1, fun a b => ?_⟩
  rw [key.2]
  by_cases ha : a < n
  · simp [ha]
  · simp [ha, get_new, get_of_row_ge hA i (not_lt.mp ha)]

theorem cdot_spec {u v : Mat K} {n : Nat} (hu : u.WF n 1) (hv : v.WF n 1) :
    u.cdot v = ∑ k in Finset.range n, u.get k 0 * v.get k 0 := by
  unfold cdot
  obtain ⟨tw, tg⟩ := transpose_spec hu
  rw [(matmul_spec tw hv).2]
  apply Finset.sum_congr rfl
  intro k _
  rw [tg]

theorem isZero_spec {A : Mat K} {n m : Nat} (hA : A.WF n m) :
    A.isZero = true ↔ ∀ a b, A.get a b = 0 := by
  unfold isZero
  simp only [List.all_eq_true, decide_eq_true_eq]
  constructor
  · intro h a b
    by_cases ha : a < n
    · by_cases hb : b < m
      · have h1 : a < A.mat.length := by rw [hA.2.2.1]; exact ha
        have hr : (A.mat.getD a []) ∈ A.mat := by
          rw [List.getD_eq_getElem _ _ h1]
          exact List.getElem_mem _
        have h2 : b < (A.mat.getD a []).length := by rw [hA.length_getD ha]; exact hb
        have := h _ hr ((A.mat.getD a []).getD b 0) (by
          rw [List.getD_eq_getElem _ _ h2]
          exact List.getElem_mem _)
        exact this
      · exact get_of_col_ge hA a (not_lt.mp hb)
    · exact get_of_row_ge hA b (not_lt.mp ha)
  · intro h r hr x hx
    obtain ⟨a, ha, e1⟩ := List.getElem_of_mem hr
    obtain ⟨b, hb, e2⟩ := List.getElem_of_mem hx
    have := h a b
    simp only [get] at this
    rw [List.getD_eq_getElem _ _ ha, e1, List.getD_eq_getElem _ _ hb, e2] at this
    exact this

theorem implant_spec {A other : Mat K} {n m p q : Nat} (hA : A.WF n m) (ho : other.WF p q)
    (s : Nat) :
    (A.implant other s).WF n m ∧
    ∀ a b, (A.implant other s).get a b
      = if a < min p n ∧ s ≤ b ∧ b < min (s + q) m then other.get a (b - s)
        else A.get a b := by
  unfold implant
  rw [hA.1, ho.1, ho.2.1]
  have key := forLoop_rows hA 0 (min p n)
    (fun i (X : Mat K) => forLoop s (min (s + q) X.m)
      (fun j (X : Mat K) => X.set i j (other.get i (j - s))) X)
    (fun a b => if s ≤ b ∧ b < min (s + q) m then other.get a (b - s) else A.get a b) (by
      intro i t _ hi tw tg
      beta_reduce
      rw [tw.2.1]
      have hin : i < n := lt_of_lt_of_le hi (min_le_right _ _)
      have r := forLoop_set_row tw i s (min (s + q) m) (fun _ j => other.get i (j - s))
        (fun j => other.get i (j - s)) (fun _ _ _ _ _ _ => rfl)
      refine ⟨r.1, fun a b => ?_⟩
      rw [r.2]
      by_cases e : a = i
      · subst e
        by_cases hb : s ≤ b ∧ b < min (s + q) m
        · have hbm : b < m := lt_of_lt_of_le hb.2 (min_le_right _ _)
          rw [if_pos ⟨rfl, hb.1, hb.2, hin, hbm⟩, if_pos rfl, if_pos hb]
        · have : ¬ (a = a ∧ s ≤ b ∧ b < min (s + q) m ∧ a < n ∧ b < m) :=
            fun z => hb ⟨z.2.1, z.2.2.1⟩
          rw [if_neg this, if_pos rfl, if_neg hb, tg]
          simp
      · have : ¬ (a = i ∧ s ≤ b ∧ b < min (s + q) m ∧ i < n ∧ b < m) := fun z => e z.1
        rw [if_neg this, if_neg e])
  refine ⟨key.1, fun a b => ?_⟩
  rw [key.2]
  by_cases ha : a < min p n
  · simp [ha]
  · simp [ha]

/-! ## Gram-Schmidt and QR -/

theorem colv_apply (M : Mat K) (n c : Nat) (r : Fin n) : colv M n c r = M.get r c := rfl

theorem cdot_eq_dotProduct {u v : Mat K} {n : Nat} (hu : u.WF n 1) (hv : v.WF n 1) :
    u.cdot v = Matrix.dotProduct (colv u n 0) (colv v n 0) := by
  rw [cdot_spec hu hv, Matrix.dotProduct, Finset.sum_range]
  rfl

theorem colv_col {M : Mat K} {n m : Nat} (hM : M.WF n m) (c : Nat) :
    colv (M.col c) n 0 = colv M n c := by
  funext r
  rw [colv_apply, (col_spec hM c).2, if_pos rfl, colv_apply]

theorem cdot_col {M N : Mat K} {n m p : Nat} (hM : M.WF n m) (hN : N.WF n p) (c d : Nat) :
    (M.col c).cdot (N.col d) = Matrix.dotProduct (colv M n c) (colv N n d) := by
  rw [cdot_eq_dotProduct (col_spec hM c).1 (col_spec hN d).1, colv_col hM, colv_col hN]

/-- The accumulated projection computed by the inner loop of `gramschmidt`. -/
theorem projSum_spec {A res : Mat K} {n : Nat} (hA : A.WF n n) (hres : res.WF n n)
    (i : Nat) :
    (forLoop 0 i (fun j (cp : Mat K) => cp.add ((A.col i).cproj (res.col j))) (new n 1)).WF n 1 ∧
    colv (forLoop 0 i (fun j (cp : Mat K) => cp.add ((A.col i).cproj (res.col j))) (new n 1)) n 0
      = ∑ j in Finset.range i,
          (Matrix.dotProduct (colv A n i) (colv res n j)
            / Matrix.dotProduct (colv res n j) (colv res n j)) • colv res n j := by
  refine forLoop_inv 0 i (fun j (cp : Mat K) => cp.add ((A.col i).cproj (res.col j))) (new n 1)
    (fun t cp => cp.WF n 1 ∧ colv cp n 0 = ∑ j in Finset.range t,
          (Matrix.dotProduct (colv A n i) (colv res n j)
            / Matrix.dotProduct (colv res n j) (colv res n j)) • colv res n j)
    (Nat.zero_le _) ⟨WF_new n 1, by
      funext r
      simp [colv_apply, get_new]⟩ ?_
  intro t cp _ _ ⟨cw, cg⟩
  have pw : ((A.col i).cproj (res.col t)).WF n 1 ∧ ∀ a b, ((A.col i).cproj (res.col t)).get a b
      = (res.col t).get a b * ((A.col i).cdot (res.col t) / (res.col t).crsq) := by
    unfold cproj
    exact scale_spec (col_spec hres t).1 _
  obtain ⟨aw, ag⟩ := add_spec_same cw pw.1
  refine ⟨aw, ?_⟩
  funext r
  rw [Finset.sum_range_succ, ← cg]
  simp only [colv_apply, Pi.add_apply, Pi.smul_apply, smul_eq_mul]
  rw [ag, pw.2, (col_spec hres t).2, if_pos rfl]
  unfold crsq
  rw [cdot_col hA hres, cdot_col hres hres]
  ring

/-- The residual computed by `gramschmidt` for column `i`. -/
theorem incoming_spec {A res : Mat K} {n : Nat} (hA : A.WF n n) (hres : res.WF n n)
    (i : Nat) :
    ((A.col i).sub (forLoop 0 i
      (fun j (cp : Mat K) => cp.add ((A.col i).cproj (res.col j))) (new n 1))).WF n 1 ∧
    colv ((A.col i).sub (forLoop 0 i
      (fun j (cp : Mat K) => cp.add ((A.col i).cproj (res.col j))) (new n 1))) n 0
      = colv A n i - ∑ j in Finset.range i,
          (Matrix.dotProduct (colv A n i) (colv res n j)
            / Matrix.dotProduct (colv res n j) (colv res n j)) • colv res n j := by
  obtain ⟨pw, pg⟩ := projSum_spec hA hres i
  obtain ⟨sw, sg⟩ := sub_spec_same (col_spec hA i).1 pw
  refine ⟨sw, ?_⟩
  rw [← pg]
  funext r
  simp only [colv_apply, Pi.sub_apply]
  rw [sg, (col_spec hA i).2, if_pos rfl]

theorem isZero_col {v : Mat K} {n : Nat} (hv : v.WF n 1) :
    v.isZero = true ↔ colv v n 0 = 0 := by
  rw [isZero_spec hv]
  constructor
  · intro h
    funext r
    exact h r 0
  · intro h a b
    by_cases hb : b = 0
    · subst hb
      by_cases ha : a < n
      · exact congrFun h ⟨a, ha⟩
      · exact get_of_row_ge hv 0 (not_lt.mp ha)
    · exact get_of_col_ge hv a (by omega)

theorem unit_spec {v : Mat K} {n : Nat} (hv : v.WF n 1) (sqrt : K → K) :
    (v.unit sqrt).WF n 1 ∧
    colv (v.unit sqrt) n 0
      = (1 / sqrt (Matrix.dotProduct (colv v n 0) (colv v n 0))) • colv v n 0 := by
  unfold unit cnorm crsq
  rw [copy_eq hv]
  obtain ⟨sw, sg⟩ := scale_spec hv (1 / sqrt (v.cdot v))
  refine ⟨sw, ?_⟩
  funext r
  simp only [colv_apply, Pi.smul_apply, smul_eq_mul]
  rw [sg, cdot_eq_dotProduct hv hv]
  ring

theorem colv_implant {res u : Mat K} {n : Nat} (hres : res.WF n n) (hu : u.WF n 1)
    {s : Nat} (hs : s < n) (c : Nat) :
    (res.implant u s).WF n n ∧
    colv (res.implant u s) n c = if c = s then colv u n 0 else colv res n c := by
  obtain ⟨w, g⟩ := implant_spec hres hu s
  refine ⟨w, ?_⟩
  funext r
  rw [colv_apply, g]
  by_cases e : c = s
  · subst e
    have : (r : Nat) < min n n ∧ c ≤ c ∧ c < min (c + 1) n :=
      ⟨by rw [min_self]; exact r.2, le_refl _, lt_min (by omega) hs⟩
    rw [if_pos this, if_pos rfl, Nat.sub_self, colv_apply]
  · have : ¬ ((r : Nat) < min n n ∧ s ≤ c ∧ c < min (s + 1) n) := by
      intro q
      have := lt_of_lt_of_le q.2.2 (min_le_left _ _)
      omega
    rw [if_neg this, if_neg e, colv_apply]

theorem sum_smul_dotProduct {n : Nat} (S : Finset Nat) (c : Nat → K) (q : Nat → Fin n → K)
    (w : Fin n → K) :
    Matrix.dotProduct (∑ j in S, c j • q j) w = ∑ j in S, c j * Matrix.dotProduct (q j) w := by
  simp only [Matrix.dotProduct, Finset.sum_apply, Pi.smul_apply, smul_eq_mul, Finset.sum_mul,
    Finset.mul_sum]
  rw [Finset.sum_comm]
  apply Finset.sum_congr rfl
  intro j _
  apply Finset.sum_congr rfl
  intro r _
  ring

/-- One step of Gram-Schmidt on vectors: the normalised residual is orthogonal to the
earlier orthonormal vectors, has unit length, and the processed vector is recovered
from its coefficients. -/
theorem gs_step_vec {n i : Nat} (a : Fin n → K) (q q' : Nat → Fin n → K) (inc : Fin n → K)
    (s : K)
    (horth : ∀ c d, c < i → d < i → Matrix.dotProduct (q c) (q d) = if c = d then 1 else 0)
    (hinc : inc = a - ∑ j in Finset.range i,
      (Matrix.dotProduct a (q j) / Matrix.dotProduct (q j) (q j)) • q j)
    (hs : s * s = Matrix.dotProduct inc inc) (hs0 : s ≠ 0)
    (hq' : ∀ c, q' c = if c = i then (1 / s) • inc else q c) :
    (∀ c d, c < i + 1 → d < i + 1 →
      Matrix.dotProduct (q' c) (q' d) = if c = d then 1 else 0) ∧
    a = ∑ t in Finset.range (i + 1), Matrix.dotProduct (q' t) a • q' t := by
  have hcoef : ∀ j, j < i → Matrix.dotProduct a (q j) / Matrix.dotProduct (q j) (q j)
      = Matrix.dotProduct a (q j) := fun j hj => by
    rw [horth j j hj hj, if_pos rfl, div_one]
  have hinc' : inc = a - ∑ j in Finset.range i, Matrix.dotProduct a (q j) • q j := by
    rw [hinc]
    congr 1
    apply Finset.sum_congr rfl
    intro j hj
    rw [hcoef j (Finset.mem_range.mp hj)]
  have hio : ∀ d, d < i → Matrix.dotProduct inc (q d) = 0 := by
    intro d hd
    rw [hinc', Matrix.sub_dotProduct, sum_smul_dotProduct]
    have : ∀ j ∈ Finset.range i, Matrix.dotProduct a (q j) * Matrix.dotProduct (q j) (q d)
        = if j = d then Matrix.dotProduct a (q d) else 0 := by
      intro j hj
      rw [horth j d (Finset.mem_range.mp hj) hd]
      by_cases e : j = d
      · subst e; simp
      · simp [e]
    rw [Finset.sum_congr rfl this, Finset.sum_ite_eq' (Finset.range i) d]
    simp [hd]
  have hold : ∀ c, c < i → q' c = q c := fun c hc => by
    rw [hq', if_neg (by omega)]
  have hnew : q' i = (1 / s) • inc := by rw [hq', if_pos rfl]
  have hii : Matrix.dotProduct ((1 / s) • inc) ((1 / s) • inc) = 1 := by
    rw [Matrix.smul_dotProduct, Matrix.dotProduct_smul, ← hs]
    simp only [smul_eq_mul]
    field_simp
  refine ⟨fun c d hc hd => ?_, ?_⟩
  · rcases Nat.lt_or_ge c i with c1 | c1
    · rcases Nat.lt_or_ge d i with d1 | d1
      · rw [hold c c1, hold d d1]
        exact horth c d c1 d1
      · have : d = i := by omega
        subst this
        rw [hold c c1, hnew, Matrix.dotProduct_smul, Matrix.dotProduct_comm, hio c c1]
        have : ¬ c = d := by omega
        simp [this]
    · have : c = i := by omega
      subst this
      rcases Nat.lt_or_ge d c with d1 | d1
      · rw [hold d d1, hnew, Matrix.smul_dotProduct, hio d d1]
        have : ¬ c = d := by omega
        simp [this]
      · have : d = c := by omega
        subst this
        rw [hnew, if_pos rfl]
        exact hii
  · rw [Finset.sum_range_succ, hnew]
    have h1 : ∑ t in Finset.range i, Matrix.dotProduct (q' t) a • q' t
        = ∑ j in Finset.range i, Matrix.dotProduct a (q j) • q j := by
      apply Finset.sum_congr rfl
      intro t ht
      rw [hold t (Finset.mem_range.mp ht), Matrix.dotProduct_comm]
    have h2 : Matrix.dotProduct inc a = s * s := by
      have : a = inc + ∑ j in Finset.range i, Matrix.dotProduct a (q j) • q j := by
        rw [hinc']; abel
      rw [hs]
      conv_lhs => rw [this]
      rw [Matrix.dotProduct_add, Matrix.dotProduct_comm inc (∑ j in Finset.range i, _),
        sum_smul_dotProduct]
      have : ∀ j ∈ Finset.range i,
          Matrix.dotProduct a (q j) * Matrix.dotProduct (q j) inc = 0 := by
        intro j hj
        rw [Matrix.dotProduct_comm (q j) inc, hio j (Finset.mem_range.mp hj), mul_zero]
      rw [Finset.sum_congr rfl this]
      simp
    rw [h1, Matrix.smul_dotProduct, h2]
    have h3 : ((1 / s) • (s * s)) • (1 / s) • inc = inc := by
      rw [smul_smul]
      have : (1 / s) • (s * s) * (1 / s) = 1 := by
        simp only [smul_eq_mul]
        field_simp
      rw [this, one_smul]
    rw [h3, hinc']
    abel

theorem dotProduct_self_pos {n : Nat} {v : Fin n → K} (hv : v ≠ 0) :
    0 < Matrix.dotProduct v v := by
  apply lt_of_le_of_ne
  · exact Finset.sum_nonneg (fun r _ => mul_self_nonneg (v r))
  · intro e
    exact hv (Matrix.dotProduct_self_eq_zero.mp e.symm)

theorem GSInv_init (A : Mat K) (n : Nat) : GSInv A n 0 (new n n, 0) :=
  ⟨rfl, WF_new n n, fun r c _ => get_new _ _ _ _, fun c d hc _ => by omega,
    fun c hc => by omega, fun c hc => by omega⟩

/-- One iteration of the loop of `gramschmidt`, given the residual `incoming`. -/
theorem gsStep_core (sqrt : K → K) (hsqrt : ∀ x, 0 < x → sqrt x * sqrt x = x)
    {A : Mat K} {n : Nat}
    (hLI : LinearIndependent K (fun t : Fin n => colv A n t)) {i : Nat} (hi : i < n)
    (st : Mat K × Nat) (hst : GSInv A n i st) (incoming : Mat K) (iw : incoming.WF n 1)
    (ig : colv incoming n 0 = colv A n i - ∑ j in Finset.range i,
      (Matrix.dotProduct (colv A n i) (colv st.1 n j)
        / Matrix.dotProduct (colv st.1 n j) (colv st.1 n j)) • colv st.1 n j) :
    GSInv A n (i + 1)
      (if incoming.isZero then (st.1, st.2)
       else (st.1.implant (incoming.unit sqrt) st.2, st.2 + 1)) := by
  obtain ⟨hidx, rw, hzero, horth, hdec, hspan⟩ := hst
  have hmono : Submodule.span K ((fun t : Fin n => colv A n t) '' {t | (t : Nat) < i})
      ≤ Submodule.span K ((fun t : Fin n => colv A n t) '' {t | (t : Nat) < i + 1}) :=
    Submodule.span_mono (Set.image_subset _ (fun t ht => Nat.lt_succ_of_lt ht))
  have hsum : (∑ j in Finset.range i,
      (Matrix.dotProduct (colv A n i) (colv st.1 n j)
        / Matrix.dotProduct (colv st.1 n j) (colv st.1 n j)) • colv st.1 n j)
      ∈ Submodule.span K ((fun t : Fin n => colv A n t) '' {t | (t : Nat) < i}) :=
    Submodule.sum_mem _ (fun j hj =>
      Submodule.smul_mem _ _ (hspan j (Finset.mem_range.mp hj)))
  have hne : colv incoming n 0 ≠ 0 := by
    intro e
    rw [ig, sub_eq_zero] at e
    have hmem : (fun t : Fin n => colv A n t) ⟨i, hi⟩
        ∈ Submodule.span K ((fun t : Fin n => colv A n t) '' {t | (t : Nat) < i}) := by
      show colv A n i ∈ _
      rw [e]
      exact hsum
    exact hLI.not_mem_span_image (s := {t : Fin n | (t : Nat) < i}) (x := ⟨i, hi⟩)
      (by simp) hmem
  have hz : ¬ (incoming.isZero = true) := fun q => hne ((isZero_col iw).mp q)
  rw [if_neg hz]
  obtain ⟨uw, ug⟩ := unit_spec iw sqrt
  have hpos := dotProduct_self_pos hne
  have hs := hsqrt _ hpos
  have hs0 : sqrt (Matrix.dotProduct (colv incoming n 0) (colv incoming n 0)) ≠ 0 := by
    intro e
    rw [e, mul_zero] at hs
    exact (ne_of_gt hpos) hs.symm
  rw [hidx]
  have hcol : ∀ c, colv (st.1.implant (incoming.unit sqrt) i) n c
      = if c = i then
          (1 / sqrt (Matrix.dotProduct (colv incoming n 0) (colv incoming n 0))) •
            colv incoming n 0
        else colv st.1 n c := by
    intro c
    rw [(colv_implant rw uw hi c).2, ug]
  have hw' := (colv_implant rw uw hi 0).1
  obtain ⟨o1, o2⟩ := gs_step_vec (colv A n i) (fun c => colv st.1 n c)
    (fun c => colv (st.1.implant (incoming.unit sqrt) i) n c) (colv incoming n 0)
    (sqrt (Matrix.dotProduct (colv incoming n 0) (colv incoming n 0))) horth ig hs hs0 hcol
  refine ⟨rfl, hw', fun r c hc => ?_, o1, fun c hc => ?_, fun c hc => ?_⟩
  · by_cases hr : r < n
    · have := congrFun (hcol c) ⟨r, hr⟩
      rw [if_neg (by omega), colv_apply, colv_apply] at this
      simp only at this ⊢
      rw [this]
      exact hzero r c (by omega)
    · exact get_of_row_ge hw' c (not_lt.mp hr)
  · rcases Nat.lt_or_ge c i with c1 | c1
    · have := hdec c c1
      simp only
      rw [this]
      apply Finset.sum_congr rfl
      intro t ht
      have : t < i := by have := Finset.mem_range.mp ht; omega
      rw [hcol t, if_neg (by omega), ← hdec c c1]
    · have : c = i := by omega
      subst this
      exact o2
  · simp only
    rw [hcol c]
    by_cases e : c = i
    · rw [if_pos e]
      apply Submodule.smul_mem
      rw [ig]
      apply Submodule.sub_mem
      · exact Submodule.subset_span ⟨⟨i, hi⟩, by simp, rfl⟩
      · exact hmono hsum
    · rw [if_neg e]
      exact hmono (hspan c (by omega))

/-- On a square input with linearly independent columns `gramschmidt` returns a grid
with orthonormal columns from which every input column is recovered. -/
theorem gramschmidt_spec (sqrt : K → K) (hsqrt : ∀ x, 0 < x → sqrt x * sqrt x = x)
    {A : Mat K} {n : Nat} (hA : A.WF n n)
    (hLI : LinearIndependent K (fun t : Fin n => colv A n t)) :
    GSInv A n n (A.gramschmidt sqrt, n) := by
  have key := forLoop_inv 0 n (fun i (s : Mat K × Nat) =>
      if ((A.col i).sub (forLoop 0 i
          (fun j (cp : Mat K) => cp.add ((A.col i).cproj (s.1.col j))) (new n 1))).isZero
       then (s.1, s.2)
       else (s.1.implant (((A.col i).sub (forLoop 0 i
          (fun j (cp : Mat K) => cp.add ((A.col i).cproj (s.1.col j))) (new n 1))).unit sqrt)
          s.2, s.2 + 1)) (new n n, 0) (fun t s => GSInv A n t s) (Nat.zero_le _)
      (GSInv_init A n) (fun i s _ hi hs => gsStep_core sqrt hsqrt hLI hi s hs _
        (incoming_spec hA hs.2.1 i).1 (incoming_spec hA hs.2.1 i).2)
  have e : A.gramschmidt sqrt = (forLoop 0 n (fun i (s : Mat K × Nat) =>
      if ((A.col i).sub (forLoop 0 i
          (fun j (cp : Mat K) => cp.add ((A.col i).cproj (s.1.col j))) (new n 1))).isZero
       then (s.1, s.2)
       else (s.1.implant (((A.col i).sub (forLoop 0 i
          (fun j (cp : Mat K) => cp.add ((A.col i).cproj (s.1.col j))) (new n 1))).unit sqrt)
          s.2, s.2 + 1)) (new n n, 0)).1 := by
    unfold gramschmidt
    rw [hA.1, hA.2.1]
  rw [e]
  obtain ⟨h1, h2, h3, h4, h5, h6⟩ := key
  exact ⟨rfl, h2, h3, h4, h5, h6⟩

/-- The loop of `QR` that fills `R`: `R[i][j] = dot(column i of q, column j of A)` for
`j ≥ i`, the entries left of the diagonal stay `0`. -/
theorem qrR_spec (q A : Mat K) (n : Nat) :
    (forLoop 0 n (fun i (r : Mat K) =>
      forLoop i n (fun j (r : Mat K) => r.set i j ((q.col i).cdot (A.col j))) r)
      (new n n)).WF n n ∧
    ∀ a b, (forLoop 0 n (fun i (r : Mat K) =>
      forLoop i n (fun j (r : Mat K) => r.set i j ((q.col i).cdot (A.col j))) r)
      (new n n)).get a b
      = if a < n ∧ a ≤ b ∧ b < n then (q.col a).cdot (A.col b) else 0 := by
  have key := forLoop_rows (WF_new n n) 0 n
    (fun i (r : Mat K) =>
      forLoop i n (fun j (r : Mat K) => r.set i j ((q.col i).cdot (A.col j))) r)
    (fun a b => if a ≤ b ∧ b < n then (q.col a).cdot (A.col b) else 0) (by
      intro i t _ hi tw tg
      have r := forLoop_set_row tw i i n (fun _ j => (q.col i).cdot (A.col j))
        (fun j => (q.col i).cdot (A.col j)) (fun _ _ _ _ _ _ => rfl)
      refine ⟨r.1, fun a b => ?_⟩
      rw [r.2]
      by_cases e : a = i
      · subst e
        by_cases hb : a ≤ b ∧ b < n
        · rw [if_pos ⟨rfl, hb.1, hb.2, hi, hb.2⟩, if_pos rfl]
          beta_reduce
          rw [if_pos hb]
        · have : ¬ (a = a ∧ a ≤ b ∧ b < n ∧ a < n ∧ b < n) := fun z => hb ⟨z.2.1, z.2.2.1⟩
          rw [if_neg this, if_pos rfl]
          beta_reduce
          rw [if_neg hb, tg]
          simp [get_new]
      · have : ¬ (a = i ∧ i ≤ b ∧ b < n ∧ i < n ∧ b < n) := fun z => e z.1
        rw [if_neg this, if_neg e])
  refine ⟨key.1, fun a b => ?_⟩
  rw [key.2]
  by_cases ha : a < n
  · simp [ha]
  · simp [ha, get_new]

/-- On a square input with linearly independent columns the factors returned by `QR`
multiply back to the input. -/
theorem QR_matmul (sqrt : K → K) (hsqrt : ∀ x, 0 < x → sqrt x * sqrt x = x)
    {A : Mat K} {n : Nat} (hA : A.WF n n)
    (hLI : LinearIndependent K (fun t : Fin n => colv A n t)) :
    (A.QR sqrt).1.WF n n ∧ (A.QR sqrt).2.WF n n ∧ (A.QR sqrt).1.matmul (A.QR sqrt).2 = A := by
  obtain ⟨-, qw, -, -, hdec, -⟩ := gramschmidt_spec sqrt hsqrt hA hLI
  simp only at qw hdec
  obtain ⟨rw, rg⟩ := qrR_spec (A.gramschmidt sqrt) A n
  have e : A.QR sqrt = (A.gramschmidt sqrt, forLoop 0 n (fun i (r : Mat K) =>
      forLoop i n (fun j (r : Mat K) =>
        r.set i j (((A.gramschmidt sqrt).col i).cdot (A.col j))) r) (new n n)) := by
    unfold QR
    rw [hA.1, hA.2.1]
    simp
  rw [e]
  refine ⟨qw, rw, ?_⟩
  apply ext_get (matmul_spec qw rw).1 hA
  intro a b ha hb
  rw [(matmul_spec qw rw).2]
  have h1 : ∀ k ∈ Finset.range n, (A.gramschmidt sqrt).get a k *
      (forLoop 0 n (fun i (r : Mat K) => forLoop i n (fun j (r : Mat K) =>
        r.set i j (((A.gramschmidt sqrt).col i).cdot (A.col j))) r) (new n n)).get k b
      = if k ∈ Finset.range (b + 1) then
          (Matrix.dotProduct (colv (A.gramschmidt sqrt) n k) (colv A n b) •
            colv (A.gramschmidt sqrt) n k) ⟨a, ha⟩
        else 0 := by
    intro k hk
    have hk' := Finset.mem_range.mp hk
    rw [rg]
    by_cases c : k ≤ b
    · rw [if_pos ⟨hk', c, hb⟩, if_pos (Finset.mem_range.mpr (by omega)), cdot_col qw hA]
      simp only [Pi.smul_apply, smul_eq_mul, colv_apply]
      ring
    · have c1 : ¬ (k < n ∧ k ≤ b ∧ b < n) := fun z => c z.2.1
      have c2 : ¬ k ∈ Finset.range (b + 1) := fun z => c (by
        have := Finset.mem_range.mp z; omega)
      rw [if_neg c1, if_neg c2, mul_zero]
  rw [Finset.sum_congr rfl h1, ← Finset.sum_filter]
  have h2 : Finset.filter (fun k => k ∈ Finset.range (b + 1)) (Finset.range n)
      = Finset.range (b + 1) := by
    ext k
    simp only [Finset.mem_filter, Finset.mem_range]
    omega
  rw [h2, ← Finset.sum_apply, ← hdec b hb, colv_apply]

end Mat

namespace Mat

theorem linearIndependent_colv_of_rank {K : Type} [LinearOrderedField K] {A : Mat K} {n : Nat}
    (hrank : (A.toM n n).rank = n) : LinearIndependent K (fun t : Fin n => colv A n t) := by
  have e : (fun t : Fin n => colv A n t) = (A.toM n n).transpose := by
    funext t r
    rfl
  rw [e, linearIndependent_iff_card_eq_finrank_span, Fintype.card_fin, Set.finrank,
    ← Matrix.rank_eq_finrank_span_cols, hrank]

theorem rank_of_det_ne_zero {K : Type} [LinearOrderedField K] {n : Nat}
    (M : Matrix (Fin n) (Fin n) K) (h : M.det ≠ 0) : M.rank = n := by
  rw [Matrix.rank_of_isUnit M ((Matrix.isUnit_iff_isUnit_det M).mpr (IsUnit.mk0 _ h)),
    Fintype.card_fin]

end Mat

namespace Mat

variable {K : Type} [LinearOrderedField K]

/-! ## The `while` loops stop within `m` iterations -/

theorem detLoop_of_stop (n m fuel : Nat) (s : DetState K) (h : ¬ (s.h < n ∧ s.k < m)) :
    detLoop n m fuel s = s := by
  cases fuel with
  | zero => rfl
  | succ f => rw [detLoop, if_neg h]

/-- Every iteration of the loop of `det` increments `k`: once `fuel` covers the columns
that are left the guard is false at exit, and more fuel does not change the result. -/
theorem detLoop_fuel (n m : Nat) :
    ∀ (fuel : Nat) (s : DetState K), m ≤ s.k + fuel →
      ¬ ((detLoop n m fuel s).h < n ∧ (detLoop n m fuel s).k < m) ∧
      ∀ extra, detLoop n m (fuel + extra) s = detLoop n m fuel s := by
  intro fuel
  induction fuel with
  | zero =>
    intro s hf
    have hstop : ¬ (s.h < n ∧ s.k < m) := fun q => by omega
    refine ⟨by simpa [detLoop] using hstop, fun extra => ?_⟩
    rw [detLoop_of_stop n m _ s hstop, detLoop_of_stop n m _ s hstop]
  | succ fuel ih =>
    intro s hf
    by_cases hc : s.h < n ∧ s.k < m
    · by_cases hz : (pivotScan s.res n s.h s.k).2 = 0
      · obtain ⟨i1, i2⟩ := ih { s with k := s.k + 1 } (by simp only; omega)
        refine ⟨?_, fun extra => ?_⟩
        · rw [detLoop, if_pos hc]
          simp only [hz, if_true]
          exact i1
        · have e : fuel + 1 + extra = (fuel + extra) + 1 := by omega
          rw [e, detLoop, detLoop, if_pos hc, if_pos hc]
          simp only [hz, if_true]
          exact i2 extra
      · by_cases hr : (pivotScan s.res n s.h s.k).1 ≠ (s.h : Int)
        · obtain ⟨i1, i2⟩ := ih
            { s with detscal := s.detscal * (-1),
                     res := elimBelow ((swap n (pivotScan s.res n s.h s.k).1.toNat s.h).matmul
                       s.res) n s.h s.k,
                     h := s.h + 1, k := s.k + 1 } (by simp only; omega)
          refine ⟨?_, fun extra => ?_⟩
          · rw [detLoop, if_pos hc]
            simp only [hz, if_false, if_pos hr]
            exact i1
          · have e : fuel + 1 + extra = (fuel + extra) + 1 := by omega
            rw [e, detLoop, detLoop, if_pos hc, if_pos hc]
            simp only [hz, if_false, if_pos hr]
            exact i2 extra
        · obtain ⟨i1, i2⟩ := ih
            { s with res := elimBelow s.res n s.h s.k, h := s.h + 1, k := s.k + 1 }
            (by simp only; omega)
          refine ⟨?_, fun extra => ?_⟩
          · rw [detLoop, if_pos hc]
            simp only [hz, if_false, if_neg hr]
            exact i1
          · have e : fuel + 1 + extra = (fuel + extra) + 1 := by omega
            rw [e, detLoop, detLoop, if_pos hc, if_pos hc]
            simp only [hz, if_false, if_neg hr]
            exact i2 extra
    · refine ⟨?_, fun extra => ?_⟩
      · rw [detLoop_of_stop n m _ s hc]
        exact hc
      · rw [detLoop_of_stop n m _ s hc, detLoop_of_stop n m _ s hc]


theorem invLoop_of_stop (n m fuel : Nat) (s : InvState K) (h : ¬ (s.h < n ∧ s.k < m)) :
    invLoop n m fuel s = s := by
  cases fuel with
  | zero => rfl
  | succ f => rw [invLoop, if_neg h]

/-- The loop of `inverse` ends with its guard false once `fuel` covers the columns
that are left. -/
theorem invLoop_stop (n m : Nat) :
    ∀ (fuel : Nat) (s : InvState K), m ≤ s.k + fuel →
      ¬ ((invLoop n m fuel s).h < n ∧ (invLoop n m fuel s).k < m) := by
  intro fuel
  induction fuel with
  | zero =>
    intro s hf
    simp only [invLoop]
    omega
  | succ fuel ih =>
    intro s hf
    rw [invLoop]
    by_cases hc : s.h < n ∧ s.k < m
    · rw [if_pos hc]
      by_cases hz : (pivotScan s.res n s.h s.k).2 = 0
      · simp only [hz, if_true]
        exact ih _ (by simp only; omega)
      · simp only [hz, if_false]
        exact ih _ (by simp only; omega)
    · rw [if_neg hc]
      exact hc

/-- More fuel does not change the result of the loop of `inverse`. -/
theorem invLoop_fuel (n m : Nat) :
    ∀ (fuel : Nat) (s : InvState K), m ≤ s.k + fuel →
      ∀ extra, invLoop n m (fuel + extra) s = invLoop n m fuel s := by
  intro fuel
  induction fuel with
  | zero =>
    intro s hf extra
    have hstop : ¬ (s.h < n ∧ s.k < m) := fun q => by omega
    rw [invLoop_of_stop n m _ s hstop, invLoop_of_stop n m _ s hstop]
  | succ fuel ih =>
    intro s hf extra
    have e : fuel + 1 + extra = (fuel + extra) + 1 := by omega
    rw [e, invLoop, invLoop]
    by_cases hc : s.h < n ∧ s.k < m
    · rw [if_pos hc, if_pos hc]
      by_cases hz : (pivotScan s.res n s.h s.k).2 = 0
      · simp only [hz, if_true]
        exact ih _ (by simp only; omega) extra
      · simp only [hz, if_false]
        exact ih _ (by simp only; omega) extra
    · rw [if_neg hc, if_neg hc]

theorem pluLoop_of_stop (n m fuel : Nat) (s : PLUState K) (h : ¬ (s.h < n ∧ s.k < m)) :
    pluLoop n m fuel s = s := by
  cases fuel with
  | zero => rfl
  | succ f => rw [pluLoop, if_neg h]

/-- The loop of `PLU` ends with its guard false once `fuel` covers the columns that
are left. -/
theorem pluLoop_stop (n m : Nat) :
    ∀ (fuel : Nat) (s : PLUState K), m ≤ s.k + fuel →
      ¬ ((pluLoop n m fuel s).h < n ∧ (pluLoop n m fuel s).k < m) := by
  intro fuel
  induction fuel with
  | zero =>
    intro s hf
    simp only [pluLoop]
    omega
  | succ fuel ih =>
    intro s hf
    rw [pluLoop]
    by_cases hc : s.h < n ∧ s.k < m
    · rw [if_pos hc]
      by_cases hz : (pivotScan s.res n s.h s.k).2 = 0
      · simp only [hz, if_true]
        exact ih _ (by simp only; omega)
      · simp only [hz, if_false]
        by_cases hr : (pivotScan s.res n s.h s.k).1 ≠ (s.h : Int)
        · simp only [if_pos hr]
          exact ih _ (by simp only; omega)
        · simp only [if_neg hr]
          exact ih _ (by simp only; omega)
    · rw [if_neg hc]
      exact hc

/-- More fuel does not change the result of the loop of `PLU`. -/
theorem pluLoop_fuel (n m : Nat) :
    ∀ (fuel : Nat) (s : PLUState K), m ≤ s.k + fuel →
      ∀ extra, pluLoop n m (fuel + extra) s = pluLoop n m fuel s := by
  intro fuel
  induction fuel with
  | zero =>
    intro s hf extra
    have hstop : ¬ (s.h < n ∧ s.k < m) := fun q => by omega
    rw [pluLoop_of_stop n m _ s hstop, pluLoop_of_stop n m _ s hstop]
  | succ fuel ih =>
    intro s hf extra
    have e : fuel + 1 + extra = (fuel + extra) + 1 := by omega
    rw [e, pluLoop, pluLoop]
    by_cases hc : s.h < n ∧ s.k < m
    · rw [if_pos hc, if_pos hc]
      by_cases hz : (pivotScan s.res n s.h s.k).2 = 0
      · simp only [hz, if_true]
        exact ih _ (by simp only; omega) extra
      · simp only [hz, if_false]
        by_cases hr : (pivotScan s.res n s.h s.k).1 ≠ (s.h : Int)
        · simp only [if_pos hr]
          exact ih _ (by simp only; omega) extra
        · simp only [if_neg hr]
          exact ih _ (by simp only; omega) extra
    · rw [if_neg hc, if_neg hc]

end Mat

namespace Mat

variable {K : Type}

/-! ## Checked accesses -/

theorem get?_eq_some [Zero K] {A : Mat K} {n m : Nat} (hA : A.WF n m) {i j : Nat} (hi : i < n)
    (hj : j < m) : A.get? i j = some (A.get i j) := by
  have h1 : i < A.mat.length := by rw [hA.2.2.1]; exact hi
  have h2 : j < (A.mat.getD i []).length := by rw [hA.length_getD hi]; exact hj
  unfold get? get
  rw [List.getD_eq_getElem _ _ h1] at h2 ⊢
  rw [List.get?_eq_getElem?, List.getElem?_eq_getElem h1]
  simp only [Option.some_bind]
  rw [List.get?_eq_getElem?, List.getElem?_eq_getElem h2, List.getD_eq_getElem _ _ h2]

theorem get?_eq_none {A : Mat K} {n m : Nat} (hA : A.WF n m) {i j : Nat}
    (h : n ≤ i ∨ m ≤ j) : A.get? i j = none := by
  unfold get?
  by_cases hi : i < n
  · have h1 : i < A.mat.length := by rw [hA.2.2.1]; exact hi
    have hj : m ≤ j := by omega
    have h2 := hA.length_getD hi
    rw [List.getD_eq_getElem _ _ h1] at h2
    rw [List.get?_eq_getElem?, List.getElem?_eq_getElem h1]
    simp only [Option.some_bind]
    rw [List.get?_eq_getElem?, List.getElem?_eq_none (by omega)]
  · have h1 : A.mat.length ≤ i := by rw [hA.2.2.1]; omega
    rw [List.get?_eq_getElem?, List.getElem?_eq_none h1]
    rfl

theorem set?_eq_some {A : Mat K} {n m : Nat} (hA : A.WF n m) {i j : Nat} (hi : i < n)
    (hj : j < m) (v : K) : A.set? i j v = some (A.set i j v) := by
  unfold set?
  have h1 : i < A.mat.length := by rw [hA.2.2.1]; exact hi
  have h2 : j < (A.mat.getD i []).length := by rw [hA.length_getD hi]; exact hj
  rw [if_pos ⟨h1, h2⟩]

theorem set?_eq_none {A : Mat K} {n m : Nat} (hA : A.WF n m) {i j : Nat}
    (h : n ≤ i ∨ m ≤ j) (v : K) : A.set? i j v = none := by
  unfold set?
  apply if_neg
  intro ⟨h1, h2⟩
  rw [hA.2.2.1] at h1
  rw [hA.length_getD h1] at h2
  omega

end Mat

namespace Mat

variable {K : Type} [LinearOrderedField K]

/-! ## Product, sum, transpose and dot product on arbitrary shapes -/

theorem NIL_WF : (NIL : Mat K).WF 0 0 := WF_new 0 0

theorem eq_NIL_of_WF {A : Mat K} (h : A.WF 0 0) : A = NIL :=
  ext_get h NIL_WF (fun i j hi _ => by omega)

theorem matmul_mismatch (A B : Mat K) (h : A.m ≠ B.n) : A.matmul B = NIL := by
  unfold matmul
  rw [if_pos h]

theorem transpose_transpose {A : Mat K} {n m : Nat} (hA : A.WF n m) :
    A.transpose.transpose = A := by
  obtain ⟨tw, tg⟩ := transpose_spec hA
  obtain ⟨ttw, ttg⟩ := transpose_spec tw
  apply ext_get_all ttw hA
  intro i j
  rw [ttg, tg]

/-- The dot product of two grids with `n` rows is the sum of the products of their
first columns. -/
theorem cdot_first_col {A B : Mat K} {n p q : Nat} (hA : A.WF n p) (hB : B.WF n q) :
    A.cdot B = ∑ k in Finset.range n, A.get k 0 * B.get k 0 := by
  unfold cdot
  obtain ⟨tw, tg⟩ := transpose_spec hA
  rw [(matmul_spec tw hB).2]
  apply Finset.sum_congr rfl
  intro k _
  rw [tg]

theorem cdotChecked_eq {A B : Mat K} {n p q : Nat} (hA : A.WF n p) (hB : B.WF n q)
    (hp : 1 ≤ p) (hq : 1 ≤ q) : A.cdotChecked B = some (A.cdot B) := by
  unfold cdotChecked cdot
  exact get?_eq_some (matmul_spec (transpose_spec hA).1 hB).1 hp hq

/-- On a square input with linearly independent columns the columns of `gramschmidt`
are orthonormal. -/
theorem gramschmidt_orthonormal (sqrt : K → K) (hsqrt : ∀ x, 0 < x → sqrt x * sqrt x = x)
    {A : Mat K} {n : Nat} (hA : A.WF n n)
    (hLI : LinearIndependent K (fun t : Fin n => colv A n t)) :
    (A.gramschmidt sqrt).WF n n ∧
    (∀ i j, i < n → j < n →
      ((A.gramschmidt sqrt).col i).cdot ((A.gramschmidt sqrt).col j) = if i = j then 1 else 0) ∧
    (A.gramschmidt sqrt).transpose.matmul (A.gramschmidt sqrt) = eye n := by
  obtain ⟨-, qw, -, horth, -, -⟩ := gramschmidt_spec sqrt hsqrt hA hLI
  simp only at qw horth
  have h1 : ∀ i j, i < n → j < n →
      ((A.gramschmidt sqrt).col i).cdot ((A.gramschmidt sqrt).col j) = if i = j then 1 else 0 :=
    fun i j hi hj => by rw [cdot_col qw qw]; exact horth i j hi hj
  refine ⟨qw, h1, ?_⟩
  obtain ⟨tw, tg⟩ := transpose_spec qw
  apply ext_get (matmul_spec tw qw).1 (eye_spec n).1
  intro i j hi hj
  rw [(matmul_spec tw qw).2, (eye_spec n).2]
  have := horth i j hi hj
  simp only [Matrix.dotProduct, colv_apply] at this
  rw [Finset.sum_range]
  simp only [tg, hi, true_and]
  exact this

end Mat

namespace Mat

variable {K : Type} [LinearOrderedField K]

/-! ## Echelon form (`ref`) -/

theorem IsLead.unique {R : Mat K} {i j j' : Nat} (h : IsLead R i j) (h' : IsLead R i j') :
    j = j' := by
  rcases Nat.lt_trichotomy j j' with q | q | q
  · exact absurd (h'.2 j q) h.1
  · exact q
  · exact absurd (h.2 j' q) h'.1

theorem IsLead.of_row_eq {R R' : Mat K} {i j : Nat} (h : IsLead R i j)
    (e : ∀ b, R'.get i b = R.get i b) : IsLead R' i j :=
  ⟨by rw [e]; exact h.1, fun t ht => by rw [e]; exact h.2 t ht⟩

theorem RefInv_init {A : Mat K} {n m : Nat} (hA : A.WF n m) : RefInv A n m 0 0 :=
  ⟨hA, Nat.zero_le _, Nat.zero_le _, fun a b _ hb => by omega, fun i hi => by omega,
    fun i j' hi => by omega⟩

theorem RefInv.nextCol {res : Mat K} {n m h k : Nat} (e : RefInv res n m h k) (hk : k < m)
    (hz : ∀ i, h ≤ i → i < n → res.get i k = 0) : RefInv res n m h (k + 1) := by
  obtain ⟨w, e1, e2, e3, e4, e5⟩ := e
  refine ⟨w, e1, by omega, fun a b ha hb => ?_, fun i hi => ?_, e5⟩
  · rcases Nat.lt_or_ge b k with q | q
    · exact e3 a b ha q
    · have : b = k := by omega
      subst this
      rcases Nat.lt_or_ge a n with r | r
      · exact hz a ha r
      · exact get_of_row_ge w b r
  · obtain ⟨j, hj, hl⟩ := e4 i hi
    exact ⟨j, by omega, hl⟩

theorem RefInv.exchange {res : Mat K} {n m h k r : Nat} (e : RefInv res n m h k) (hh : h < n)
    (h1 : h ≤ r) (h2 : r < n) : RefInv ((swap n r h).matmul res) n m h k := by
  obtain ⟨w, e1, e2, e3, e4, e5⟩ := e
  obtain ⟨sw, sg⟩ := swap_matmul_spec h2 hh w
  have hrow : ∀ a, a < h → ∀ b, ((swap n r h).matmul res).get a b = res.get a b := by
    intro a ha b
    rw [sg]
    have : swapIdx r h a = a := by
      unfold swapIdx
      have q1 : ¬ a = r := by omega
      have q2 : ¬ a = h := by omega
      simp [q1, q2]
    rw [this]
  have hback : ∀ a j, a < h → IsLead ((swap n r h).matmul res) a j → IsLead res a j :=
    fun a j ha hl => hl.of_row_eq (fun b => (hrow a ha b).symm)
  refine ⟨sw, e1, e2, fun a b ha hb => ?_, fun i hi => ?_, fun i j' hi hl => ?_⟩
  · rw [sg]
    apply e3 _ _ _ hb
    unfold swapIdx
    split_ifs <;> omega
  · obtain ⟨j, hj, hl⟩ := e4 i hi
    exact ⟨j, hj, hl.of_row_eq (hrow i hi)⟩
  · obtain ⟨j, hj, hl'⟩ := e5 i j' hi (hback _ _ (by omega) hl)
    exact ⟨j, hj, hl'.of_row_eq (hrow i (by omega))⟩

theorem RefInv.eliminate {res : Mat K} {n m h k : Nat} (e : RefInv res n m h k) (hh : h < n)
    (hk : k < m) (hp : res.get h k ≠ 0) :
    RefInv (elimBelow res n h k) n m (h + 1) (k + 1) := by
  obtain ⟨w, e1, e2, e3, e4, e5⟩ := e
  obtain ⟨bw, bg⟩ := elimBelow_spec w h k
  have hrow : ∀ a, a ≤ h → ∀ b, (elimBelow res n h k).get a b = res.get a b := by
    intro a ha b
    rw [bg]
    have : ¬ (h + 1 ≤ a ∧ a < n) := by omega
    rw [if_neg this]
  have hback : ∀ a j, a ≤ h → IsLead (elimBelow res n h k) a j → IsLead res a j :=
    fun a j ha hl => hl.of_row_eq (fun b => (hrow a ha b).symm)
  have hlead : IsLead res h k := ⟨hp, fun t ht => e3 h t (le_refl _) ht⟩
  refine ⟨bw, by omega, by omega, fun a b ha hb => ?_, fun i hi => ?_, fun i j' hi hl => ?_⟩
  · rw [bg]
    by_cases c : h + 1 ≤ a ∧ a < n
    · rw [if_pos c]
      by_cases d : b = k
      · rw [if_pos d]
      · have : ¬ (k + 1 ≤ b ∧ b < n ∧ b < m) := by omega
        rw [if_neg d, if_neg this]
        exact e3 a b (by omega) (by omega)
    · rw [if_neg c]
      exact get_of_row_ge w b (by omega)
  · rcases Nat.lt_or_ge i h with q | q
    · obtain ⟨j, hj, hl⟩ := e4 i q
      exact ⟨j, by omega, hl.of_row_eq (hrow i (by omega))⟩
    · have : i = h := by omega
      subst this
      exact ⟨k, by omega, hlead.of_row_eq (hrow i (le_refl _))⟩
  · rcases Nat.lt_or_ge (i + 1) h with q | q
    · obtain ⟨j, hj, hl'⟩ := e5 i j' q (hback _ _ (by omega) hl)
      exact ⟨j, hj, hl'.of_row_eq (hrow i (by omega))⟩
    · have hi1 : i + 1 = h := by omega
      have hl2 : IsLead res h j' := by
        have := hback (i + 1) j' (by omega) hl
        rw [hi1] at this
        exact this
      have : j' = k := hl2.unique hlead
      subst this
      obtain ⟨j, hj, hl'⟩ := e4 i (by omega)
      exact ⟨j, hj, hl'.of_row_eq (hrow i (by omega))⟩

/-- When the loop of `ref` has stopped the grid is in row echelon form. -/
theorem RefInv.echelon {res : Mat K} {n m h k : Nat} (e : RefInv res n m h k)
    (hstop : ¬ (h < n ∧ k < m)) : IsEchelon res n := by
  obtain ⟨w, e1, e2, e3, e4, e5⟩ := e
  have hzero : ∀ a, h ≤ a → h < n → ZeroRow res a := by
    intro a ha hn b
    rcases Nat.lt_or_ge b m with q | q
    · exact e3 a b ha (by omega)
    · exact get_of_col_ge w a q
  refine ⟨fun i i' hii hi' hz => ?_, fun i j' hi hl => ?_⟩
  · rcases Nat.lt_or_ge i h with q | q
    · obtain ⟨j, -, hl⟩ := e4 i q
      exact absurd (hz j) hl.1
    · exact hzero i' (by omega) (by omega)
  · rcases Nat.lt_or_ge (i + 1) h with q | q
    · exact e5 i j' q hl
    · exact absurd (hzero (i + 1) q (by omega) j') hl.1

/-- Invariant of the `while` loop of `ref`; with enough fuel the loop ends with its
guard false. -/
theorem refLoop_spec {n m : Nat} :
    ∀ (fuel : Nat) (s : RefState K), RefInv s.res n m s.h s.k → m ≤ s.k + fuel →
      RefInv (refLoop n m fuel s).res n m (refLoop n m fuel s).h (refLoop n m fuel s).k ∧
      ¬ ((refLoop n m fuel s).h < n ∧ (refLoop n m fuel s).k < m) := by
  intro fuel
  induction fuel with
  | zero =>
    intro s he hf
    simp only [refLoop]
    exact ⟨he, fun q => by omega⟩
  | succ fuel ih =>
    intro s he hf
    rw [refLoop]
    by_cases hc : s.h < n ∧ s.k < m
    · rw [if_pos hc]
      by_cases hz : (pivotScan s.res n s.h s.k).2 = 0
      · simp only [hz, if_true]
        exact ih _ (he.nextCol hc.2 (pivotScan_zero hz)) (by simp only; omega)
      · simp only [hz, if_false]
        obtain ⟨r, e1, e2, e3, e4⟩ := pivotScan_pivot hz
        rw [e1]
        simp only [Int.toNat_ofNat, ne_eq, Nat.cast_inj]
        by_cases hr : r = s.h
        · subst hr
          simp only [not_true_eq_false, if_false]
          exact ih _ (he.eliminate hc.1 hc.2 e4) (by simp only; omega)
        · simp only [hr, not_false_eq_true, if_true]
          have hs := he.exchange hc.1 e2 e3
          have hp : ((swap n r s.h).matmul s.res).get s.h s.k ≠ 0 := by
            rw [(swap_matmul_spec e3 hc.1 he.1).2, swapIdx_right]
            exact e4
          exact ih _ (hs.eliminate hc.1 hc.2 hp) (by simp only; omega)
    · rw [if_neg hc]
      exact ⟨he, hc⟩

/-- The routine `ref` keeps the shape of its input and returns a grid in row echelon
form. -/
theorem ref_echelon {A : Mat K} {n m : Nat} (hA : A.WF n m) :
    (ref A).WF n m ∧ IsEchelon (ref A) n := by
  unfold ref
  rw [hA.1, hA.2.1, copy_eq hA]
  obtain ⟨he, hstop⟩ := refLoop_spec (n := n) (m := m) m ⟨A, 0, 0⟩ (RefInv_init hA) (by simp)
  exact ⟨he.1, he.echelon hstop⟩

theorem refLoop_of_stop (n m fuel : Nat) (s : RefState K) (h : ¬ (s.h < n ∧ s.k < m)) :
    refLoop n m fuel s = s := by
  cases fuel with
  | zero => rfl
  | succ f => rw [refLoop, if_neg h]

/-- The loop of `ref` ends with its guard false once `fuel` covers the columns that
are left. -/
theorem refLoop_stop (n m : Nat) :
    ∀ (fuel : Nat) (s : RefState K), m ≤ s.k + fuel →
      ¬ ((refLoop n m fuel s).h < n ∧ (refLoop n m fuel s).k < m) := by
  intro fuel
  induction fuel with
  | zero =>
    intro s hf
    simp only [refLoop]
    omega
  | succ fuel ih =>
    intro s hf
    rw [refLoop]
    by_cases hc : s.h < n ∧ s.k < m
    · rw [if_pos hc]
      by_cases hz : (pivotScan s.res n s.h s.k).2 = 0
      · simp only [hz, if_true]
        exact ih _ (by simp only; omega)
      · simp only [hz, if_false]
        exact ih _ (by simp only; omega)
    · rw [if_neg hc]
      exact hc

/-- More fuel does not change the result of the loop of `ref`. -/
theorem refLoop_fuel (n m : Nat) :
    ∀ (fuel : Nat) (s : RefState K), m ≤ s.k + fuel →
      ∀ extra, refLoop n m (fuel + extra) s = refLoop n m fuel s := by
  intro fuel
  induction fuel with
  | zero =>
    intro s hf extra
    have hstop : ¬ (s.h < n ∧ s.k < m) := fun q => by omega
    rw [refLoop_of_stop n m _ s hstop, refLoop_of_stop n m _ s hstop]
  | succ fuel ih =>
    intro s hf extra
    have e : fuel + 1 + extra = (fuel + extra) + 1 := by omega
    rw [e, refLoop, refLoop]
    by_cases hc : s.h < n ∧ s.k < m
    · rw [if_pos hc, if_pos hc]
      by_cases hz : (pivotScan s.res n s.h s.k).2 = 0
      · simp only [hz, if_true]
        exact ih _ (by simp only; omega) extra
      · simp only [hz, if_false]
        exact ih _ (by simp only; omega) extra
    · rw [if_neg hc, if_neg hc]

end Mat

namespace Mat

variable {K : Type} [LinearOrderedField K]

/-- On a `2 × 3` grid whose pivot is the top-left entry, `ref` updates column `1` of
the second row but leaves column `2` as it was: the inner loop stops at `j < n = 2`. -/
theorem ref_two_by_three (a b c d e f : K) (ha : a ≠ 0) (hd : |d| ≤ |a|) :
    ref ⟨2, 3, [[a, b, c], [d, e, f]]⟩ = ⟨2, 3, [[a, b, c], [0, e - d / a * b, f]]⟩ := by
  have hw : (⟨2, 3, [[a, b, c], [d, e, f]]⟩ : Mat K).WF 2 3 := by simp [WF]
  have hpos : 0 < |a| := abs_pos.mpr ha
  have hnd : ¬ |a| < |d| := not_lt.mpr hd
  have hne : ¬ |a| = 0 := ne_of_gt hpos
  unfold ref
  rw [copy_eq hw]
  by_cases h1 : e - d / a * b = 0
  · by_cases h2 : f = 0
    · simp [refLoop, pivotScan, forLoop, loopFrom, elimBelow, get, Mat.set, hpos, hnd, hne,
        h1, h2]
    · simp [refLoop, pivotScan, forLoop, loopFrom, elimBelow, get, Mat.set, hpos, hnd, hne,
        h1, h2]
  · simp [refLoop, pivotScan, forLoop, loopFrom, elimBelow, get, Mat.set, hpos, hnd, hne, h1]

end Mat

namespace Mat

variable {K : Type} [LinearOrderedField K]

/-! ## Row and column removal -/

/-- A loop writing the cells `(0, c) .. (n - 1, c)` of one column with values that do
not depend on the cells already written. -/
theorem forLoop_set_col {n m : Nat} {res0 : Mat K} (hw : res0.WF n m) (c : Nat)
    (F : Nat → K) :
    (forLoop 0 n (fun j (res : Mat K) => res.set j c (F j)) res0).WF n m ∧
    ∀ a b, (forLoop 0 n (fun j (res : Mat K) => res.set j c (F j)) res0).get a b
      = if b = c ∧ a < n ∧ c < m then F a else res0.get a b := by
  have key := forLoop_rows hw 0 n (fun j (res : Mat K) => res.set j c (F j))
    (fun a b => if b = c ∧ c < m then F a else res0.get a b) (by
      intro i t _ hi tw tg
      refine ⟨tw.set _ _ _, fun a b => ?_⟩
      beta_reduce at tg ⊢
      rw [get_set tw]
      by_cases e : a = i
      · subst e
        by_cases d : b = c ∧ c < m
        · rw [if_pos ⟨rfl, d.1, hi, d.2⟩, if_pos rfl, if_pos d]
        · have : ¬ (a = a ∧ b = c ∧ a < n ∧ c < m) := fun q => d ⟨q.2.1, q.2.2.2⟩
          rw [if_neg this, if_pos rfl, if_neg d, tg]
          simp
      · have : ¬ (a = i ∧ b = c ∧ i < n ∧ c < m) := fun q => e q.1
        rw [if_neg this, if_neg e])
  refine ⟨key.1, fun a b => ?_⟩
  rw [key.2]
  by_cases ha : a < n
  · simp [ha]
  · have : ¬ (b = c ∧ a < n ∧ c < m) := fun q => ha q.2.1
    simp [ha, this]

/-- For an index inside the grid `remrow` keeps the other rows in their order. -/
theorem remrow_spec {A : Mat K} {n m : Nat} (hA : A.WF n m) {d : Nat} (hd : d < n) :
    (A.remrow (d : Int)).WF (n - 1) m ∧
    ∀ a b, (A.remrow (d : Int)).get a b = A.get (if a < d then a else a + 1) b := by
  unfold remrow
  rw [hA.1, hA.2.1]
  have hguard : ¬ ((d : Int) < 0 ∨ (d : Int) ≥ (n : Int)) := by omega
  rw [if_neg hguard]
  obtain ⟨h1, h2, h3⟩ := forLoop_inv 0 n (fun i (s : Mat K × Nat) =>
      if (i : Int) = (d : Int) then s
      else (forLoop 0 m (fun j res => res.set s.2 j (A.get i j)) s.1, s.2 + 1))
    (new (n - 1) m, 0)
    (fun i s => s.2 = (if i ≤ d then i else i - 1) ∧ s.1.WF (n - 1) m ∧
      ∀ a b, s.1.get a b = if a < s.2 then A.get (if a < d then a else a + 1) b else 0)
    (Nat.zero_le _) ⟨by simp, WF_new _ _, fun a b => by simp [get_new]⟩ (by
      intro i s _ hi ⟨s2, sw, sg⟩
      by_cases e : i = d
      · subst e
        simp only [if_true]
        refine ⟨?_, sw, sg⟩
        rw [s2]
        simp
      · have e' : ¬ (i : Int) = (d : Int) := fun q => e (by omega)
        simp only [if_neg e']
        have hrow : s.2 < n - 1 := by
          rw [s2]
          split_ifs <;> omega
        have r := forLoop_set_row sw s.2 0 m (fun _ j => A.get i j) (fun j => A.get i j)
          (fun _ _ _ _ _ _ => rfl)
        refine ⟨?_, r.1, fun a b => ?_⟩
        · rw [s2]
          split_ifs <;> omega
        · rw [r.2]
          have hidx : (if s.2 < d then s.2 else s.2 + 1) = i := by
            rw [s2]
            split_ifs <;> omega
          have hlt : s.2 < s.2 + 1 := Nat.lt_succ_self _
          by_cases c : a = s.2
          · subst c
            by_cases hb : b < m
            · rw [if_pos ⟨rfl, Nat.zero_le _, hb, hrow, hb⟩, if_pos hlt, hidx]
            · have : ¬ (s.2 = s.2 ∧ 0 ≤ b ∧ b < m ∧ s.2 < n - 1 ∧ b < m) := fun q => hb q.2.2.1
              rw [if_neg this, if_pos hlt, get_of_col_ge sw _ (not_lt.mp hb),
                get_of_col_ge hA _ (not_lt.mp hb)]
          · have : ¬ (a = s.2 ∧ 0 ≤ b ∧ b < m ∧ s.2 < n - 1 ∧ b < m) := fun q => c q.1
            rw [if_neg this, sg]
            by_cases c2 : a < s.2
            · have c3 : a < s.2 + 1 := Nat.lt_succ_of_lt c2
              rw [if_pos c2, if_pos c3]
            · have c3 : ¬ a < s.2 + 1 := fun q => c2 (lt_of_le_of_ne (Nat.lt_succ_iff.mp q) c)
              rw [if_neg c2, if_neg c3])
  refine ⟨h2, fun a b => ?_⟩
  rw [h3, h1]
  have : ¬ n ≤ d := by omega
  simp only [this, if_false]
  by_cases c : a < n - 1
  · rw [if_pos c]
  · rw [if_neg c]
    have : ¬ a < d := by omega
    rw [if_neg this, get_of_row_ge hA b (by omega)]

/-- For an index inside the grid `remcol` keeps the other columns in their order. -/
theorem remcol_spec {A : Mat K} {n m : Nat} (hA : A.WF n m) {d : Nat} (hd : d < m) :
    (A.remcol (d : Int)).WF n (m - 1) ∧
    ∀ a b, (A.remcol (d : Int)).get a b = A.get a (if b < d then b else b + 1) := by
  unfold remcol
  rw [hA.1, hA.2.1]
  have hguard : ¬ ((d : Int) < 0 ∨ (d : Int) ≥ (m : Int)) := by omega
  rw [if_neg hguard]
  obtain ⟨h1, h2, h3⟩ := forLoop_inv 0 m (fun i (s : Mat K × Nat) =>
      if (i : Int) = (d : Int) then s
      else (forLoop 0 n (fun j res => res.set j s.2 (A.get j i)) s.1, s.2 + 1))
    (new n (m - 1), 0)
    (fun i s => s.2 = (if i ≤ d then i else i - 1) ∧ s.1.WF n (m - 1) ∧
      ∀ a b, s.1.get a b = if b < s.2 then A.get a (if b < d then b else b + 1) else 0)
    (Nat.zero_le _) ⟨by simp, WF_new _ _, fun a b => by simp [get_new]⟩ (by
      intro i s _ hi ⟨s2, sw, sg⟩
      by_cases e : i = d
      · subst e
        simp only [if_true]
        refine ⟨?_, sw, sg⟩
        rw [s2]
        simp
      · have e' : ¬ (i : Int) = (d : Int) := fun q => e (by omega)
        simp only [if_neg e']
        have hcol : s.2 < m - 1 := by
          rw [s2]
          split_ifs <;> omega
        have r := forLoop_set_col sw s.2 (fun j => A.get j i)
        refine ⟨?_, r.1, fun a b => ?_⟩
        · rw [s2]
          split_ifs <;> omega
        · rw [r.2]
          have hidx : (if s.2 < d then s.2 else s.2 + 1) = i := by
            rw [s2]
            split_ifs <;> omega
          have hlt : s.2 < s.2 + 1 := Nat.lt_succ_self _
          by_cases c : b = s.2
          · subst c
            by_cases ha : a < n
            · rw [if_pos ⟨rfl, ha, hcol⟩, if_pos hlt, hidx]
            · have : ¬ (s.2 = s.2 ∧ a < n ∧ s.2 < m - 1) := fun q => ha q.2.1
              rw [if_neg this, if_pos hlt, get_of_row_ge sw _ (not_lt.mp ha),
                get_of_row_ge hA _ (not_lt.mp ha)]
          · have : ¬ (b = s.2 ∧ a < n ∧ s.2 < m - 1) := fun q => c q.1
            rw [if_neg this, sg]
            by_cases c2 : b < s.2
            · have c3 : b < s.2 + 1 := Nat.lt_succ_of_lt c2
              rw [if_pos c2, if_pos c3]
            · have c3 : ¬ b < s.2 + 1 := fun q => c2 (lt_of_le_of_ne (Nat.lt_succ_iff.mp q) c)
              rw [if_neg c2, if_neg c3])
  refine ⟨h2, fun a b => ?_⟩
  rw [h3, h1]
  have : ¬ m ≤ d := by omega
  simp only [this, if_false]
  by_cases c : b < m - 1
  · rw [if_pos c]
  · rw [if_neg c]
    have : ¬ b < d := by omega
    rw [if_neg this, get_of_col_ge hA a (by omega)]

theorem remrow_out_of_range (A : Mat K) (d : Int) (h : d < 0 ∨ d ≥ (A.n : Int)) :
    A.remrow d = NIL := by
  unfold remrow
  rw [if_pos h]

theorem remcol_out_of_range (A : Mat K) (d : Int) (h : d < 0 ∨ d ≥ (A.m : Int)) :
    A.remcol d = NIL := by
  unfold remcol
  rw [if_pos h]

theorem WF_eq_NIL_iff {A : Mat K} {n m : Nat} (hA : A.WF n m) :
    A = NIL ↔ n = 0 ∧ m = 0 := by
  constructor
  · intro e
    have h1 : A.n = 0 := by rw [e]; rfl
    have h2 : A.m = 0 := by rw [e]; rfl
    exact ⟨hA.1.symm.trans h1, hA.2.1.symm.trans h2⟩
  · rintro ⟨rfl, rfl⟩
    exact eq_NIL_of_WF hA

end Mat

/-- Two loops, one on `Option σ` and one on `σ`, that agree step by step as long as an
invariant holds: the checked loop succeeds with the result of the unchecked one. -/
theorem forLoop_option {σ : Type} (lo hi : Nat) (f : Nat → σ → σ)
    (g : Nat → Option σ → Option σ) (P : Nat → σ → Prop) (s : σ) (h0 : P lo s)
    (hstep : ∀ i t, lo ≤ i → i < hi → P i t → g i (some t) = some (f i t) ∧ P (i + 1) (f i t)) :
    forLoop lo hi g (some s) = some (forLoop lo hi f s) ∧
    (lo ≤ hi → P hi (forLoop lo hi f s)) := by
  by_cases hle : lo ≤ hi
  · have key := forLoop_inv lo hi g (some s)
      (fun t x => x = some (forLoop lo t f s) ∧ P t (forLoop lo t f s)) hle
      ⟨by rw [forLoop_of_le f s (le_refl _)], by rw [forLoop_of_le f s (le_refl _)]; exact h0⟩
      (by
        intro i x h1 h2 ⟨hx, hp⟩
        subst hx
        rw [forLoop_succ f s h1]
        exact hstep i _ h1 h2 hp)
    exact ⟨key.1, fun _ => key.2⟩
  · rw [forLoop_of_le g _ (by omega), forLoop_of_le f _ (by omega)]
    exact ⟨rfl, fun q => absurd q hle⟩

namespace Mat

variable {K : Type} [LinearOrderedField K]

/-! ## `emplace` and `implant` -/

theorem emplace_spec {A other : Mat K} {n m p q : Nat} (hA : A.WF n m) (ho : other.WF p q)
    (sr sc : Nat) :
    (A.emplace other sr sc).WF n m ∧
    ∀ a b, (A.emplace other sr sc).get a b
      = if sr ≤ a ∧ a < min (sr + p) n ∧ sc ≤ b ∧ b < min (sc + q) m
        then other.get (a - sr) (b - sc) else A.get a b := by
  unfold emplace
  rw [hA.1, ho.1, ho.2.1]
  have key := forLoop_rows hA sr (min (sr + p) n)
    (fun i (X : Mat K) => forLoop sc (min (sc + q) X.m)
      (fun j (X : Mat K) => X.set i j (other.get (i - sr) (j - sc))) X)
    (fun a b => if sc ≤ b ∧ b < min (sc + q) m then other.get (a - sr) (b - sc)
      else A.get a b) (by
      intro i t _ hi tw tg
      beta_reduce at tg ⊢
      rw [tw.2.1]
      have hin : i < n := lt_of_lt_of_le hi (min_le_right _ _)
      have r := forLoop_set_row tw i sc (min (sc + q) m)
        (fun _ j => other.get (i - sr) (j - sc))
        (fun j => other.get (i - sr) (j - sc)) (fun _ _ _ _ _ _ => rfl)
      refine ⟨r.1, fun a b => ?_⟩
      rw [r.2]
      by_cases e : a = i
      · subst e
        by_cases hb : sc ≤ b ∧ b < min (sc + q) m
        · have hbm : b < m := lt_of_lt_of_le hb.2 (min_le_right _ _)
          rw [if_pos ⟨rfl, hb.1, hb.2, hin, hbm⟩, if_pos rfl, if_pos hb]
        · have : ¬ (a = a ∧ sc ≤ b ∧ b < min (sc + q) m ∧ a < n ∧ b < m) :=
            fun z => hb ⟨z.2.1, z.2.2.1⟩
          rw [if_neg this, if_pos rfl, if_neg hb, tg]
          simp
      · have : ¬ (a = i ∧ sc ≤ b ∧ b < min (sc + q) m ∧ i < n ∧ b < m) := fun z => e z.1
        rw [if_neg this, if_neg e])
  refine ⟨key.1, fun a b => ?_⟩
  rw [key.2]
  by_cases ha : sr ≤ a ∧ a < min (sr + p) n
  · by_cases hb : sc ≤ b ∧ b < min (sc + q) m
    · rw [if_pos ha, if_pos ⟨ha.1, ha.2, hb.1, hb.2⟩]
      beta_reduce
      rw [if_pos hb]
    · have : ¬ (sr ≤ a ∧ a < min (sr + p) n ∧ sc ≤ b ∧ b < min (sc + q) m) :=
        fun z => hb ⟨z.2.2.1, z.2.2.2⟩
      rw [if_pos ha, if_neg this]
      beta_reduce
      rw [if_neg hb]
  · have : ¬ (sr ≤ a ∧ a < min (sr + p) n ∧ sc ≤ b ∧ b < min (sc + q) m) :=
      fun z => ha ⟨z.1, z.2.1⟩
    rw [if_neg ha, if_neg this]

theorem implant_eq_emplace (A other : Mat K) (s : Nat) :
    A.implant other s = A.emplace other 0 s := by
  unfold implant emplace
  simp only [Nat.zero_add, Nat.sub_zero]

/-- Every access of `emplace` is inside the grids of its operands. -/
theorem emplaceChecked_eq {A other : Mat K} {n m p q : Nat} (hA : A.WF n m)
    (ho : other.WF p q) (sr sc : Nat) :
    A.emplaceChecked other sr sc = some (A.emplace other sr sc) := by
  unfold emplaceChecked emplace
  rw [hA.1, ho.1, ho.2.1]
  refine (forLoop_option sr (min (sr + p) n)
    (fun i (X : Mat K) => forLoop sc (min (sc + q) X.m)
      (fun j (X : Mat K) => X.set i j (other.get (i - sr) (j - sc))) X)
    _ (fun _ X => X.WF n m) A hA ?_).1
  intro i t h1 h2 tw
  have hin : i < n := lt_of_lt_of_le h2 (min_le_right _ _)
  have hip : i - sr < p := by
    have := lt_of_lt_of_le h2 (min_le_left _ _)
    omega
  simp only [Option.some_bind]
  rw [tw.2.1]
  have inner := forLoop_option sc (min (sc + q) m)
    (fun j (X : Mat K) => X.set i j (other.get (i - sr) (j - sc)))
    (fun j (st : Option (Mat K)) =>
        st.bind fun A => (other.get? (i - sr) (j - sc)).bind fun v => A.set? i j v)
    (fun _ X => X.WF n m) t tw (by
      intro j u j1 j2 uw
      have hjm : j < m := lt_of_lt_of_le j2 (min_le_right _ _)
      have hjq : j - sc < q := by
        have := lt_of_lt_of_le j2 (min_le_left _ _)
        omega
      simp only [Option.some_bind]
      rw [get?_eq_some ho hip hjq]
      simp only [Option.some_bind]
      exact ⟨set?_eq_some uw hin hjm _, uw.set _ _ _⟩)
  refine ⟨inner.1, ?_⟩
  exact forLoop_inv0 _ t (fun X => X.WF n m) tw (fun j u _ _ uw => uw.set _ _ _)

/-- Every access of `implant` is inside the grids of its operands. -/
theorem implantChecked_eq {A other : Mat K} {n m p q : Nat} (hA : A.WF n m)
    (ho : other.WF p q) (s : Nat) :
    A.implantChecked other s = some (A.implant other s) := by
  have e : A.implantChecked other s = A.emplaceChecked other 0 s := by
    unfold implantChecked emplaceChecked
    simp only [Nat.zero_add, Nat.sub_zero]
  rw [e, emplaceChecked_eq hA ho, implant_eq_emplace]

end Mat


namespace Mat

variable {K : Type} [LinearOrderedField K]

/-! ## Divisions of `gramschmidt` -/

/-- On an input with linearly independent columns the residual of column `i` is not
zero and neither is its norm. -/
theorem gs_residual_ne (sqrt : K → K) (hsqrt : ∀ x, 0 < x → sqrt x * sqrt x = x)
    {A : Mat K} {n : Nat}
    (hLI : LinearIndependent K (fun t : Fin n => colv A n t)) {i : Nat} (hi : i < n)
    (st : Mat K × Nat) (hst : GSInv A n i st) (incoming : Mat K) (iw : incoming.WF n 1)
    (ig : colv incoming n 0 = colv A n i - ∑ j in Finset.range i,
      (Matrix.dotProduct (colv A n i) (colv st.1 n j)
        / Matrix.dotProduct (colv st.1 n j) (colv st.1 n j)) • colv st.1 n j) :
    ¬ (incoming.isZero = true) ∧ incoming.cnorm sqrt ≠ 0 := by
  obtain ⟨hidx, rw, hzero, horth, hdec, hspan⟩ := hst
  have hsum : (∑ j in Finset.range i,
      (Matrix.dotProduct (colv A n i) (colv st.1 n j)
        / Matrix.dotProduct (colv st.1 n j) (colv st.1 n j)) • colv st.1 n j)
      ∈ Submodule.span K ((fun t : Fin n => colv A n t) '' {t | (t : Nat) < i}) :=
    Submodule.sum_mem _ (fun j hj =>
      Submodule.smul_mem _ _ (hspan j (Finset.mem_range.mp hj)))
  have hne : colv incoming n 0 ≠ 0 := by
    intro e
    rw [ig, sub_eq_zero] at e
    have hmem : (fun t : Fin n => colv A n t) ⟨i, hi⟩
        ∈ Submodule.span K ((fun t : Fin n => colv A n t) '' {t | (t : Nat) < i}) := by
      show colv A n i ∈ _
      rw [e]
      exact hsum
    exact hLI.not_mem_span_image (s := {t : Fin n | (t : Nat) < i}) (x := ⟨i, hi⟩)
      (by simp) hmem
  refine ⟨fun q => hne ((isZero_col iw).mp q), ?_⟩
  have hpos := dotProduct_self_pos hne
  have hs := hsqrt _ hpos
  unfold cnorm crsq
  rw [cdot_eq_dotProduct iw iw]
  intro e
  rw [e, mul_zero] at hs
  exact (ne_of_gt hpos) hs.symm

/-- On a square input with linearly independent columns no division of `gramschmidt`
has a zero divisor: the checked routine returns the result of `gramschmidt`. -/
theorem gramschmidtChecked_eq (sqrt : K → K) (hsqrt : ∀ x, 0 < x → sqrt x * sqrt x = x)
    {A : Mat K} {n : Nat} (hA : A.WF n n)
    (hLI : LinearIndependent K (fun t : Fin n => colv A n t)) :
    A.gramschmidtChecked sqrt = some (A.gramschmidt sqrt) := by
  unfold gramschmidtChecked gramschmidt
  rw [hA.1, hA.2.1]
  have key := (forLoop_option 0 n
    (fun i (s : Mat K × Nat) =>
      if ((A.col i).sub (forLoop 0 i
          (fun j (cp : Mat K) => cp.add ((A.col i).cproj (s.1.col j))) (new n 1))).isZero
       then (s.1, s.2)
       else (s.1.implant (((A.col i).sub (forLoop 0 i
          (fun j (cp : Mat K) => cp.add ((A.col i).cproj (s.1.col j))) (new n 1))).unit sqrt)
          s.2, s.2 + 1))
    (fun i (st : Option (Mat K × Nat)) =>
      st.bind fun s =>
        (forLoop 0 i
          (fun j (cp : Option (Mat K)) =>
            cp.bind fun crazyprojection =>
              ((A.col i).cprojChecked (s.1.col j)).map fun p => crazyprojection.add p)
          (some (new n 1))).bind fun crazyprojection =>
          if ((A.col i).sub crazyprojection).isZero then some (s.1, s.2)
          else (((A.col i).sub crazyprojection).unitChecked sqrt).map
            fun u => (s.1.implant u s.2, s.2 + 1))
    (fun t s => GSInv A n t s) (new n n, 0) (GSInv_init A n) (by
      intro i st _ hi hst
      have hinner := (forLoop_option 0 i
        (fun j (cp : Mat K) => cp.add ((A.col i).cproj (st.1.col j)))
        (fun j (cp : Option (Mat K)) =>
            cp.bind fun crazyprojection =>
              ((A.col i).cprojChecked (st.1.col j)).map fun p => crazyprojection.add p)
        (fun t _ => t ≤ i) (new n 1) (Nat.zero_le _) (by
          intro j cp _ hj _
          have hden : (st.1.col j).crsq ≠ 0 := by
            unfold crsq
            rw [cdot_col hst.2.1 hst.2.1, hst.2.2.2.1 j j hj hj, if_pos rfl]
            exact one_ne_zero
          simp only [Option.some_bind]
          unfold cprojChecked
          rw [if_neg hden]
          exact ⟨rfl, hj⟩)).1
      obtain ⟨iw, ig⟩ := incoming_spec hA hst.2.1 i
      obtain ⟨hz, hn⟩ := gs_residual_ne sqrt hsqrt hLI hi st hst _ iw ig
      refine ⟨?_, gsStep_core sqrt hsqrt hLI hi st hst _ iw ig⟩
      simp only [Option.some_bind]
      rw [hinner]
      simp only [Option.some_bind]
      rw [if_neg hz, if_neg hz]
      unfold unitChecked
      rw [if_neg hn]
      rfl)).1
  rw [key]
  rfl

/-- On the rank-deficient grid `exampleDep` (zero first column) the second iteration of
`gramschmidt` projects onto the still empty output column `0` and divides by its
squared norm `0`. -/
theorem gramschmidtChecked_exampleDep (sqrt : ℚ → ℚ) :
    exampleDep.gramschmidtChecked sqrt = none := by
  with_unfolding_all rfl

end Mat

namespace Mat

variable {K : Type} [LinearOrderedField K]

/-- On every square grid with at least two columns whose first column is zero,
`gramschmidt` divides by zero: column `0` is skipped, and the iteration for column `1`
projects onto the still empty output column `0`, whose squared norm is `0`. -/
theorem gramschmidtChecked_zero_first_col (sqrt : K → K) {A : Mat K} {n : Nat}
    (hA : A.WF n n) (hn : 2 ≤ n) (h0 : ∀ r, A.get r 0 = 0) :
    A.gramschmidtChecked sqrt = none := by
  unfold gramschmidtChecked
  rw [hA.1, hA.2.1]
  have hzero : ((A.col 0).sub (new n 1)).isZero = true := by
    rw [isZero_spec (sub_spec_same (col_spec hA 0).1 (WF_new n 1)).1]
    intro a b
    rw [(sub_spec_same (col_spec hA 0).1 (WF_new n 1)).2, (col_spec hA 0).2, get_new, h0]
    simp
  have hden : ((new n n : Mat K).col 0).crsq = 0 := by
    unfold crsq
    rw [cdot_spec (col_spec (WF_new n n) 0).1 (col_spec (WF_new n n) 0).1]
    apply Finset.sum_eq_zero
    intro k _
    rw [(col_spec (WF_new n n) 0).2, if_pos rfl, get_new, zero_mul]
  have key := forLoop_inv 0 n
    (fun i (st : Option (Mat K × Nat)) =>
      st.bind fun s =>
        (forLoop 0 i
          (fun j (cp : Option (Mat K)) =>
            cp.bind fun crazyprojection =>
              ((A.col i).cprojChecked (s.1.col j)).map fun p => crazyprojection.add p)
          (some (new n 1))).bind fun crazyprojection =>
          if ((A.col i).sub crazyprojection).isZero then some (s.1, s.2)
          else (((A.col i).sub crazyprojection).unitChecked sqrt).map
            fun u => (s.1.implant u s.2, s.2 + 1))
    (some (new n n, 0))
    (fun t x => (t ≤ 1 → x = some (new n n, 0)) ∧ (2 ≤ t → x = none))
    (Nat.zero_le _) ⟨fun _ => rfl, fun h => by omega⟩ (by
      intro i x _ _ ⟨x1, x2⟩
      refine ⟨fun hi => ?_, fun hi => ?_⟩
      · have hi0 : i = 0 := by omega
        subst hi0
        rw [x1 (by omega)]
        simp only [Option.some_bind]
        rw [forLoop_of_le _ _ (le_refl _)]
        simp only [Option.some_bind]
        rw [if_pos hzero]
      · rcases Nat.lt_or_ge i 2 with q | q
        · have hi1 : i = 1 := by omega
          subst hi1
          rw [x1 (le_refl _)]
          simp only [Option.some_bind]
          have : forLoop 0 1
              (fun j (cp : Option (Mat K)) =>
                cp.bind fun crazyprojection =>
                  ((A.col 1).cprojChecked ((new n n : Mat K).col j)).map
                    fun p => crazyprojection.add p)
              (some (new n 1)) = none := by
            rw [forLoop_succ _ _ (Nat.zero_le _), forLoop_of_le _ _ (le_refl _)]
            simp only [Option.some_bind]
            unfold cprojChecked
            rw [if_pos hden]
            rfl
          rw [this]
          rfl
        · rw [x2 q]
          rfl)
  rw [key.2 hn]
  rfl

end Mat

namespace Mat

variable {K : Type} [LinearOrderedField K]

/-! ## Shapes on which `cdot` reads outside the product -/

/-- The read of `[0][0]` in `cdot` is out of range unless the row counts agree and both
operands have a column. -/
theorem cdotChecked_eq_none {A B : Mat K} {n p r q : Nat} (hA : A.WF n p) (hB : B.WF r q)
    (h : ¬ (n = r ∧ 1 ≤ p ∧ 1 ≤ q)) : A.cdotChecked B = none := by
  unfold cdotChecked
  by_cases e : n = r
  · subst e
    apply get?_eq_none (matmul_spec (transpose_spec hA).1 hB).1
    by_cases hp : 1 ≤ p
    · exact Or.inr (by omega)
    · exact Or.inl (by omega)
  · rw [matmul_mismatch _ _ (by rw [(transpose_spec hA).1.2.1, hB.1]; exact e)]
    exact get?_eq_none NIL_WF (Or.inl (le_refl 0))

/-! ## Norm and unit vector -/

theorem cnorm_eq (sqrt : K → K) {v : Mat K} {n : Nat} (hv : v.WF n 1) :
    v.cnorm sqrt = sqrt (∑ k in Finset.range n, v.get k 0 * v.get k 0) := by
  unfold cnorm crsq
  rw [cdot_spec hv hv]

theorem unit_eq_scale (sqrt : K → K) {v : Mat K} {n m : Nat} (hv : v.WF n m) :
    v.unit sqrt = v.scale (1 / v.cnorm sqrt) := by
  unfold unit
  rw [copy_eq hv]

theorem sum_sq_pos {v : Mat K} {n : Nat} (hne : ∃ k, k < n ∧ v.get k 0 ≠ 0) :
    0 < ∑ k in Finset.range n, v.get k 0 * v.get k 0 := by
  obtain ⟨j, hj, hz⟩ := hne
  have h1 : v.get j 0 * v.get j 0 ≤ ∑ k in Finset.range n, v.get k 0 * v.get k 0 :=
    Finset.single_le_sum (f := fun k => v.get k 0 * v.get k 0)
      (fun k _ => mul_self_nonneg _) (Finset.mem_range.mpr hj)
  exact lt_of_lt_of_le (mul_self_pos.mpr hz) h1

/-- The unit vector of a non-zero column has norm `1`, for any square root that is
exact on positive numbers and maps `1` to `1`. -/
theorem cnorm_unit (sqrt : K → K) (hsqrt : ∀ x, 0 < x → sqrt x * sqrt x = x)
    (hone : sqrt 1 = 1) {v : Mat K} {n : Nat} (hv : v.WF n 1)
    (hne : ∃ k, k < n ∧ v.get k 0 ≠ 0) :
    v.cnorm sqrt ≠ 0 ∧ (v.unit sqrt).cnorm sqrt = 1 := by
  have hpos := sum_sq_pos hne
  have hs := hsqrt _ hpos
  have hn0 : v.cnorm sqrt ≠ 0 := by
    rw [cnorm_eq sqrt hv]
    intro e
    rw [e, mul_zero] at hs
    exact absurd hs (ne_of_lt hpos)
  refine ⟨hn0, ?_⟩
  rw [unit_eq_scale sqrt hv, cnorm_eq sqrt (scale_spec hv _).1]
  have e : ∑ k in Finset.range n,
      (v.scale (1 / v.cnorm sqrt)).get k 0 * (v.scale (1 / v.cnorm sqrt)).get k 0
      = (∑ k in Finset.range n, v.get k 0 * v.get k 0)
        * ((1 / v.cnorm sqrt) * (1 / v.cnorm sqrt)) := by
    rw [Finset.sum_mul]
    apply Finset.sum_congr rfl
    intro k _
    rw [(scale_spec hv _).2]
    ring
  rw [e]
  have e2 : (∑ k in Finset.range n, v.get k 0 * v.get k 0)
      * ((1 / v.cnorm sqrt) * (1 / v.cnorm sqrt)) = 1 := by
    have e3 : v.cnorm sqrt * v.cnorm sqrt = ∑ k in Finset.range n, v.get k 0 * v.get k 0 := by
      rw [cnorm_eq sqrt hv]
      exact hs
    rw [← e3]
    field_simp
  rw [e2, hone]

/-! ## Elementary row matrices -/

theorem staticAdd_spec {n r1 r2 : Nat} (h1 : r1 < n) (h2 : r2 < n) (v : Int) :
    (Static.add n r1 r2 v : Mat K).WF n n ∧
    ∀ a b, (Static.add n r1 r2 v : Mat K).get a b
      = if a = r2 ∧ b = r1 then (v : K) else if a < n ∧ a = b then 1 else 0 := by
  unfold Static.add
  refine ⟨(eye_spec n).1.set _ _ _, fun a b => ?_⟩
  rw [get_set (eye_spec n).1, (eye_spec n).2]
  by_cases c : a = r2 ∧ b = r1
  · rw [if_pos ⟨c.1, c.2, h2, h1⟩, if_pos c]
  · rw [if_neg (fun d => c ⟨d.1, d.2.1⟩), if_neg c]

/-- Left multiplication by `add(n, r1, r2, v)`: rows other than `r2` are unchanged; row `r2`
becomes `row r2 + v * row r1` when `r1 ≠ r2`, and `v * row r2` when `r1 = r2`. -/
theorem staticAdd_matmul {n m r1 r2 : Nat} (h1 : r1 < n) (h2 : r2 < n) (v : Int)
    {A : Mat K} (hA : A.WF n m) :
    ((Static.add n r1 r2 v).matmul A).WF n m ∧
    ∀ a b, a < n → ((Static.add n r1 r2 v).matmul A).get a b
      = if a = r2 then
          (if r1 = r2 then (v : K) * A.get r1 b else A.get r2 b + (v : K) * A.get r1 b)
        else A.get a b := by
  have hE := staticAdd_spec (K := K) h1 h2 v
  refine ⟨(matmul_spec hE.1 hA).1, fun a b ha => ?_⟩
  rw [(matmul_spec hE.1 hA).2]
  simp only [hE.2]
  by_cases c : a = r2
  · subst c
    rw [if_pos rfl]
    by_cases d : r1 = a
    · subst d
      rw [if_pos rfl]
      rw [Finset.sum_eq_single r1]
      · rw [if_pos ⟨rfl, rfl⟩]
      · intro k _ hk
        rw [if_neg (fun e => hk e.2), if_neg (fun e => hk e.2.symm), zero_mul]
      · intro hk
        exact absurd (Finset.mem_range.mpr h1) hk
    · rw [if_neg d]
      have hsplit : ∀ k, (if a = a ∧ k = r1 then (v : K) else if a < n ∧ a = k then 1 else 0)
          * A.get k b
          = (if k = a then A.get a b else 0) + (if k = r1 then (v : K) * A.get r1 b else 0) := by
        intro k
        by_cases e1 : k = r1
        · subst e1
          rw [if_pos ⟨rfl, rfl⟩, if_neg d, if_pos rfl, zero_add]
        · rw [if_neg (fun e => e1 e.2), if_neg e1, add_zero]
          by_cases e2 : k = a
          · subst e2
            rw [if_pos ⟨ha, rfl⟩, if_pos rfl, one_mul]
          · rw [if_neg (fun e => e2 e.2.symm), if_neg e2, zero_mul]
      rw [Finset.sum_congr rfl (fun k _ => hsplit k)]
      rw [Finset.sum_add_distrib, Finset.sum_ite_eq', Finset.sum_ite_eq',
        if_pos (Finset.mem_range.mpr h2), if_pos (Finset.mem_range.mpr h1)]
  · rw [if_neg c]
    rw [Finset.sum_eq_single a]
    · rw [if_neg (fun e => c e.1), if_pos ⟨ha, rfl⟩, one_mul]
    · intro k _ hk
      rw [if_neg (fun e => c e.1), if_neg (fun e => hk e.2.symm), zero_mul]
    · intro hk
      exact absurd (Finset.mem_range.mpr ha) hk

/-! ## The null matrix as an operand -/

theorem NIL_matmul {X : Mat K} {n m : Nat} (hX : X.WF n m) :
    (n ≠ 0 → (NIL : Mat K).matmul X = NIL) ∧ (n = 0 → (NIL : Mat K).matmul X = new 0 m) := by
  constructor
  · intro h
    apply matmul_mismatch
    rw [hX.1]
    exact fun e => h e.symm
  · intro h
    subst h
    apply ext_get (matmul_spec NIL_WF hX).1 (WF_new 0 m)
    intro i j hi _
    omega

theorem matmul_NIL {X : Mat K} {n m : Nat} (hX : X.WF n m) :
    (m ≠ 0 → X.matmul (NIL : Mat K) = NIL) ∧ (m = 0 → X.matmul (NIL : Mat K) = new n 0) := by
  constructor
  · intro h
    apply matmul_mismatch
    rw [hX.2.1]
    exact h
  · intro h
    subst h
    apply ext_get (matmul_spec hX NIL_WF).1 (WF_new n 0)
    intro i j _ hj
    omega

theorem new_eq_NIL_iff (a b : Nat) : (new a b : Mat K) = NIL ↔ a = 0 ∧ b = 0 :=
  WF_eq_NIL_iff (WF_new a b)

theorem NIL_add (X : Mat K) : (NIL : Mat K).add X = NIL := by
  unfold add
  simp [NIL, new, forLoop, loopFrom]

theorem add_NIL (X : Mat K) : X.add (NIL : Mat K) = NIL := by
  unfold add
  simp [NIL, new, forLoop, loopFrom]

theorem NIL_sub (X : Mat K) : (NIL : Mat K).sub X = NIL := by
  unfold sub
  simp [NIL, new, forLoop, loopFrom]

theorem sub_NIL (X : Mat K) : X.sub (NIL : Mat K) = NIL := by
  unfold sub
  simp [NIL, new, forLoop, loopFrom]

end Mat

namespace Mat

variable {K : Type} [LinearOrderedField K]

/-! ## Method `row` -/

/-- The grid built by `row(i)` has `n` columns, of which the first `min m n` hold row `i`. -/
theorem row_spec {A : Mat K} {n m : Nat} (hA : A.WF n m) (i : Nat) :
    (A.row i).WF 1 n ∧
    ∀ a b, (A.row i).get a b = if a = 0 ∧ b < m ∧ b < n then A.get i b else 0 := by
  unfold row
  rw [hA.1, hA.2.1]
  have key := forLoop_set_row (WF_new 1 n) 0 0 m (fun (_ : Mat K) j => A.get i j)
    (fun j => A.get i j) (fun _ _ _ _ _ _ => rfl)
  refine ⟨key.1, fun a b => ?_⟩
  rw [key.2, get_new]
  by_cases c : a = 0 ∧ b < m ∧ b < n
  · rw [if_pos ⟨c.1, Nat.zero_le _, c.2.1, Nat.zero_lt_one, c.2.2⟩, if_pos c]
  · rw [if_neg (fun d => c ⟨d.1, d.2.2.1, d.2.2.2.2⟩), if_neg c]

/-- When the grid has at most as many columns as rows, every access of `row(i)` is in
range. -/
theorem rowChecked_eq {A : Mat K} {n m : Nat} (hA : A.WF n m) (hmn : m ≤ n) {i : Nat}
    (hi : i < n) : A.rowChecked i = some (A.row i) := by
  unfold rowChecked row
  rw [hA.1, hA.2.1]
  exact (forLoop_option 0 m (fun r (res : Mat K) => res.set 0 r (A.get i r))
    (fun r (st : Option (Mat K)) =>
      st.bind fun res => (A.get? i r).bind fun v => res.set? 0 r v)
    (fun _ res => res.WF 1 n) (new 1 n) (WF_new 1 n) (by
      intro r t _ hr tw
      refine ⟨?_, tw.set _ _ _⟩
      simp only [Option.some_bind]
      rw [get?_eq_some hA hi hr]
      simp only [Option.some_bind]
      exact set?_eq_some tw Nat.zero_lt_one (lt_of_lt_of_le hr hmn) _)).1

/-- When the grid has more columns than rows, `row(i)` writes outside its result: the
result has `n` cells and the loop writes cell `n`. -/
theorem rowChecked_eq_none {A : Mat K} {n m : Nat} (hA : A.WF n m) (hnm : n < m) {i : Nat}
    (hi : i < n) : A.rowChecked i = none := by
  unfold rowChecked
  rw [hA.1, hA.2.1]
  have key := forLoop_inv 0 m
    (fun r (st : Option (Mat K)) =>
      st.bind fun res => (A.get? i r).bind fun v => res.set? 0 r v)
    (some (new 1 n))
    (fun t x => (t ≤ n → ∃ res : Mat K, x = some res ∧ res.WF 1 n) ∧ (n < t → x = none))
    (Nat.zero_le _) ⟨fun _ => ⟨_, rfl, WF_new 1 n⟩, fun h => by omega⟩ (by
      intro r x _ hr ⟨x1, x2⟩
      refine ⟨fun hle => ?_, fun hlt => ?_⟩
      · obtain ⟨res, e, rw⟩ := x1 (by omega)
        refine ⟨res.set 0 r (A.get i r), ?_, rw.set _ _ _⟩
        rw [e]
        simp only [Option.some_bind]
        rw [get?_eq_some hA hi hr]
        simp only [Option.some_bind]
        exact set?_eq_some rw Nat.zero_lt_one (by omega) _
      · rcases Nat.lt_or_ge n r with q | q
        · rw [x2 q]
          rfl
        · have e0 : r = n := by omega
          subst e0
          obtain ⟨res, e, rw⟩ := x1 (le_refl _)
          rw [e]
          simp only [Option.some_bind]
          rw [get?_eq_some hA hi hr]
          simp only [Option.some_bind]
          exact set?_eq_none rw (Or.inr (le_refl _)) _)
  exact key.2 hnm

/-! ## Pivot selection -/

/-- When column `k` has a non-zero entry at or below row `h`, the scan selects the first
row, from `h` downwards, whose entry has the greatest absolute value. -/
theorem pivotScan_first_max {res : Mat K} {n h k : Nat}
    (hex : ∃ i, h ≤ i ∧ i < n ∧ res.get i k ≠ 0) :
    (pivotScan res n h k).2 ≠ 0 ∧
    ∃ r : Nat, (pivotScan res n h k).1 = (r : Int) ∧ h ≤ r ∧ r < n ∧
      (pivotScan res n h k).2 = |res.get r k| ∧
      (∀ i, h ≤ i → i < n → |res.get i k| ≤ |res.get r k|) ∧
      (∀ i, h ≤ i → i < r → |res.get i k| < |res.get r k|) := by
  obtain ⟨hmax, hsel⟩ := pivotScan_spec res n h k
  obtain ⟨i0, h1, h2, h3⟩ := hex
  have hpos : 0 < (pivotScan res n h k).2 :=
    lt_of_lt_of_le (abs_pos.mpr h3) (hmax i0 h1 h2)
  refine ⟨ne_of_gt hpos, ?_⟩
  rcases hsel with hz | ⟨r, e, r1, r2, r3, r4⟩
  · exact absurd hz (ne_of_gt hpos)
  · refine ⟨r, e, r1, r2, r3.symm, fun i a b => ?_, fun i a b => ?_⟩
    · rw [r3]
      exact hmax i a b
    · rw [r3]
      exact r4 i a b

/-- When the entry at row `h` is non-zero and of greatest absolute value in its column
from row `h` downwards, the scan selects row `h` itself. -/
theorem pivotScan_head {res : Mat K} {n h k : Nat} (hh : h < n) (hne : res.get h k ≠ 0)
    (hmax : ∀ i, h ≤ i → i < n → |res.get i k| ≤ |res.get h k|) :
    (pivotScan res n h k).2 ≠ 0 ∧ (pivotScan res n h k).1 = (h : Int) := by
  have hex : ∃ i, h ≤ i ∧ i < n ∧ res.get i k ≠ 0 := ⟨h, le_refl _, hh, hne⟩
  obtain ⟨hz, r, e, r1, r2, r3, _, r5⟩ := pivotScan_first_max hex
  refine ⟨hz, ?_⟩
  rcases Nat.lt_or_ge h r with q | q
  · exact absurd (r5 h (le_refl _) q) (not_lt.mpr (hmax r r1 r2))
  · have : r = h := by omega
    rw [e, this]

/-- One iteration of the loop of `PLU` at such a position leaves `P` as it is. -/
theorem pluLoop_head {n h k : Nat} {res L P : Mat K} (hh : h < n) (hk : k < n)
    (hne : res.get h k ≠ 0)
    (hmax : ∀ i, h ≤ i → i < n → |res.get i k| ≤ |res.get h k|) :
    (pluLoop n n 1 ⟨res, L, P, h, k⟩).P = P := by
  obtain ⟨hz, e⟩ := pivotScan_head hh hne hmax
  simp only [pluLoop, hh, hk, and_self, if_true, hz, if_false, e, ne_eq, not_true_eq_false]

/-- One iteration of the loop of `ref` at such a position only eliminates below the
pivot. -/
theorem refLoop_head {n h k : Nat} {res : Mat K} (hh : h < n) (hk : k < n)
    (hne : res.get h k ≠ 0)
    (hmax : ∀ i, h ≤ i → i < n → |res.get i k| ≤ |res.get h k|) :
    (refLoop n n 1 ⟨res, h, k⟩).res = elimBelow res n h k := by
  obtain ⟨hz, e⟩ := pivotScan_head hh hne hmax
  simp only [refLoop, hh, hk, and_self, if_true, hz, if_false, e, ne_eq, not_true_eq_false]

end Mat

namespace Mat

variable {K : Type}

theorem WF.self {A : Mat K} {n m : Nat} (h : A.WF n m) : A.WF A.n A.m := by
  rw [h.1, h.2.1]
  exact h

end Mat

namespace Mat

variable {K : Type} [LinearOrderedField K]

/-! ## Projection onto a direction -/

theorem crsq_ne_zero {B : Mat K} {n : Nat} (hB : B.WF n 1)
    (hne : ∃ k, k < n ∧ B.get k 0 ≠ 0) : B.crsq ≠ 0 := by
  unfold crsq
  rw [cdot_spec hB hB]
  exact ne_of_gt (sum_sq_pos hne)

/-- The residual of the projection onto a non-zero direction is orthogonal to it. -/
theorem cproj_residual {A B : Mat K} {n : Nat} (hA : A.WF n 1) (hB : B.WF n 1)
    (hne : ∃ k, k < n ∧ B.get k 0 ≠ 0) :
    (A.cproj B).WF n 1 ∧ (A.sub (A.cproj B)).cdot B = 0 := by
  have hc := crsq_ne_zero hB hne
  have pw : (A.cproj B).WF n 1 := (scale_spec hB _).1
  refine ⟨pw, ?_⟩
  rw [cdot_spec (sub_spec_same hA pw).1 hB]
  have e : ∀ k, (A.sub (A.cproj B)).get k 0 * B.get k 0
      = A.get k 0 * B.get k 0 - (A.cdot B / B.crsq) * (B.get k 0 * B.get k 0) := by
    intro k
    rw [(sub_spec_same hA pw).2]
    unfold cproj
    rw [(scale_spec hB _).2]
    ring
  rw [Finset.sum_congr rfl (fun k _ => e k), Finset.sum_sub_distrib, ← Finset.mul_sum,
    ← cdot_spec hA hB, ← cdot_spec hB hB]
  have : B.cdot B = B.crsq := rfl
  rw [this, div_mul_cancel₀ _ hc, sub_self]

/-! ## The factor `R` of `QR` -/

theorem QR_spec (sqrt : K → K) {A : Mat K} {n : Nat} (hA : A.WF n n) :
    (A.QR sqrt).1 = A.gramschmidt sqrt ∧ (A.QR sqrt).2.WF n n ∧
    ∀ a b, (A.QR sqrt).2.get a b
      = if a < n ∧ a ≤ b ∧ b < n then ((A.gramschmidt sqrt).col a).cdot (A.col b) else 0 := by
  unfold QR
  rw [hA.1, hA.2.1, if_neg (fun h => h rfl)]
  exact ⟨rfl, (qrR_spec (A.gramschmidt sqrt) A n).1, (qrR_spec (A.gramschmidt sqrt) A n).2⟩

/-! ## Well-formedness of the results -/

theorem unit_WF (sqrt : K → K) {A : Mat K} {n m : Nat} (hA : A.WF n m) :
    (A.unit sqrt).WF n m := by
  rw [unit_eq_scale sqrt hA]
  exact (scale_spec hA _).1

/-- The result of `gramschmidt` has the shape of its input, whatever the rank. -/
theorem gramschmidt_WF (sqrt : K → K) {A : Mat K} {n m : Nat} (hA : A.WF n m) :
    (A.gramschmidt sqrt).WF n m := by
  unfold gramschmidt
  rw [hA.1, hA.2.1]
  refine forLoop_inv0 _ _ (fun (s : Mat K × Nat) => s.1.WF n m) (WF_new n m) ?_
  intro i s _ _ sw
  have cw : ∀ j, ((A.col i).cproj (s.1.col j)).WF n 1 :=
    fun j => (scale_spec (col_spec sw j).1 _).1
  have pw : (forLoop 0 i
      (fun j (crazyprojection : Mat K) =>
        crazyprojection.add ((A.col i).cproj (s.1.col j))) (new n 1)).WF n 1 :=
    forLoop_inv0 _ _ (fun (t : Mat K) => t.WF n 1) (WF_new n 1)
      (fun j t _ _ tw => (add_spec_same tw (cw j)).1)
  have iw := (sub_spec_same (col_spec hA i).1 pw).1
  dsimp only
  split_ifs
  · exact sw
  · exact (implant_spec sw (unit_WF sqrt iw) s.2).1

theorem QR_WF (sqrt : K → K) {A : Mat K} {n m : Nat} (hA : A.WF n m) :
    (A.QR sqrt).1.WF (A.QR sqrt).1.n (A.QR sqrt).1.m ∧
    (A.QR sqrt).2.WF (A.QR sqrt).2.n (A.QR sqrt).2.m := by
  by_cases e : n = m
  · subst e
    have h := QR_spec sqrt hA
    rw [h.1]
    exact ⟨(gramschmidt_WF sqrt hA).self, h.2.1.self⟩
  · unfold QR
    rw [hA.1, hA.2.1, if_pos e]
    exact ⟨NIL_WF.self, NIL_WF.self⟩

theorem inverse_WF {A : Mat K} {n m : Nat} (hA : A.WF n m) :
    A.inverse.WF A.inverse.n A.inverse.m := by
  by_cases e : n = m
  · subst e
    by_cases hdet : (A.toM n n).det = 0
    · rw [inverse_singular hA hdet]
      exact NIL_WF.self
    · exact (inverse_matmul hA hdet).1.self
  · unfold inverse
    rw [hA.1, hA.2.1, if_pos e]
    exact NIL_WF.self

theorem PLU_WF {A : Mat K} {n m : Nat} (hA : A.WF n m) :
    ∀ X ∈ A.PLU, X.WF X.n X.m := by
  by_cases e : n = m
  · subst e
    obtain ⟨P, L, U, h, pw, lw, uw, _⟩ := PLU_spec hA
    rw [h]
    intro X hX
    simp only [List.mem_cons, List.mem_singleton, List.not_mem_nil, or_false] at hX
    rcases hX with rfl | rfl | rfl
    · exact pw.self
    · exact lw.self
    · exact uw.self
  · unfold PLU
    rw [hA.1, hA.2.1, if_pos e]
    intro X hX
    simp only [List.mem_cons, List.mem_singleton, List.not_mem_nil, or_false, or_self] at hX
    rw [hX]
    exact NIL_WF.self

theorem remrow_WF {A : Mat K} {n m : Nat} (hA : A.WF n m) (d : Int) :
    (A.remrow d).WF (A.remrow d).n (A.remrow d).m := by
  by_cases h : d < 0 ∨ d ≥ (n : Int)
  · rw [remrow_out_of_range A d (by rw [hA.1]; exact h)]
    exact NIL_WF.self
  · obtain ⟨t, rfl⟩ := Int.eq_ofNat_of_zero_le (by omega : 0 ≤ d)
    exact (remrow_spec hA (by omega : t < n)).1.self

theorem remcol_WF {A : Mat K} {n m : Nat} (hA : A.WF n m) (d : Int) :
    (A.remcol d).WF (A.remcol d).n (A.remcol d).m := by
  by_cases h : d < 0 ∨ d ≥ (m : Int)
  · rw [remcol_out_of_range A d (by rw [hA.2.1]; exact h)]
    exact NIL_WF.self
  · obtain ⟨t, rfl⟩ := Int.eq_ofNat_of_zero_le (by omega : 0 ≤ d)
    exact (remcol_spec hA (by omega : t < m)).1.self

theorem matmul_WF {A B : Mat K} {n m p q : Nat} (hA : A.WF n m) (hB : B.WF p q) :
    (A.matmul B).WF (A.matmul B).n (A.matmul B).m := by
  by_cases e : m = p
  · subst e
    exact (matmul_spec hA hB).1.self
  · rw [matmul_mismatch A B (by rw [hA.2.1, hB.1]; exact e)]
    exact NIL_WF.self

/-! ## Progress of the elimination loops -/

/-- One iteration of the loop of `ref` advances `k` by one and `h` by at most one. -/
theorem refLoop_progress (n m : Nat) (s : RefState K) (hc : s.h < n ∧ s.k < m) :
    (refLoop n m 1 s).k = s.k + 1 ∧ s.h ≤ (refLoop n m 1 s).h ∧
    (refLoop n m 1 s).h ≤ s.h + 1 := by
  simp only [refLoop, hc, and_self, if_true]
  split_ifs <;> simp

theorem detLoop_progress (n m : Nat) (s : DetState K) (hc : s.h < n ∧ s.k < m) :
    (detLoop n m 1 s).k = s.k + 1 ∧ s.h ≤ (detLoop n m 1 s).h ∧
    (detLoop n m 1 s).h ≤ s.h + 1 := by
  simp only [detLoop, hc, and_self, if_true]
  split_ifs <;> simp

theorem invLoop_progress (n m : Nat) (s : InvState K) (hc : s.h < n ∧ s.k < m) :
    (invLoop n m 1 s).k = s.k + 1 ∧ s.h ≤ (invLoop n m 1 s).h ∧
    (invLoop n m 1 s).h ≤ s.h + 1 := by
  simp only [invLoop, hc, and_self, if_true]
  split_ifs <;> simp

theorem pluLoop_progress (n m : Nat) (s : PLUState K) (hc : s.h < n ∧ s.k < m) :
    (pluLoop n m 1 s).k = s.k + 1 ∧ s.h ≤ (pluLoop n m 1 s).h ∧
    (pluLoop n m 1 s).h ≤ s.h + 1 := by
  simp only [pluLoop, hc, and_self, if_true]
  split_ifs <;> simp

/-- Running `a + b` iterations is running `a` iterations and then `b` more. -/
theorem refLoop_add (n m : Nat) :
    ∀ (a b : Nat) (s : RefState K),
      refLoop n m (a + b) s = refLoop n m b (refLoop n m a s) := by
  intro a
  induction a with
  | zero =>
    intro b s
    rw [Nat.zero_add]
    rfl
  | succ a ih =>
    intro b s
    rw [Nat.add_right_comm]
    by_cases hc : s.h < n ∧ s.k < m
    · simp only [refLoop, hc, and_self, if_true]
      split_ifs <;> exact ih _ _
    · rw [refLoop_of_stop n m _ s hc, refLoop_of_stop n m _ s hc, refLoop_of_stop n m _ s hc]

end Mat

namespace Mat

variable {K : Type} [LinearOrderedField K]

/-! ## `PLU` and `ref` run the same elimination -/

/-- The initial state of the loop of `PLU` satisfies its invariant. -/
theorem PLUInv_init {A : Mat K} {n : Nat} (hA : A.WF n n) :
    PLUInv (A.toM n n) ⟨A, new n n, eye n, 0, 0⟩ := by
  refine ⟨Ech_init hA, WF_new n n, (eye_spec n).1, ?_, fun a b _ => get_new _ _ _ _,
    fun a b _ => get_new _ _ _ _, 1, fun i j => ?_⟩
  · simp [toM_eye, toM_new]
  · simp only [(eye_spec n).2, Equiv.Perm.coe_one, id_eq, i.2, true_and]
    by_cases e : i = j
    · subst e; simp
    · have : ¬ (i : Nat) = (j : Nat) := fun q => e (Fin.ext q)
      simp [e, this]

/-- The grid carried by the loop of `PLU` is the grid carried by the loop of `ref`. -/
theorem pluLoop_res {n : Nat} (M : Matrix (Fin n) (Fin n) K) :
    ∀ (fuel : Nat) (s : PLUState K), PLUInv M s →
      (pluLoop n n fuel s).res = (refLoop n n fuel ⟨s.res, s.h, s.k⟩).res := by
  intro fuel
  induction fuel with
  | zero =>
    intro s _
    rfl
  | succ fuel ih =>
    intro s hs
    rw [pluLoop, refLoop]
    by_cases hc : s.h < n ∧ s.k < n
    · rw [if_pos hc, if_pos hc]
      by_cases hz : (pivotScan s.res n s.h s.k).2 = 0
      · simp only [hz, if_true]
        exact ih _ (hs.skipCol hc.2 (pivotScan_zero hz))
      · simp only [hz, if_false]
        obtain ⟨r, e1, e2, e3, e4⟩ := pivotScan_pivot hz
        rw [e1]
        simp only [Int.toNat_ofNat, ne_eq, Nat.cast_inj]
        by_cases hr : r = s.h
        · subst hr
          simp only [not_true_eq_false, if_false]
          rw [ih _ (hs.elimStep hc.1 hc.2 e4 _ rfl)]
          simp only
          rw [(pluElim_spec hs.1.1 hs.2.1 s.h s.k hc.1 _ rfl).1]
        · simp only [hr, not_false_eq_true, if_true]
          have hs1 := hs.swapRows hc.1 e2 e3
          have hp : ((swap n r s.h).matmul s.res).get s.h s.k ≠ 0 := by
            rw [(swap_matmul_spec e3 hc.1 hs.1.1).2, swapIdx_right]
            exact e4
          rw [ih _ (hs1.elimStep hc.1 hc.2 hp _ rfl)]
          simp only
          rw [(pluElim_spec hs1.1.1 hs1.2.1 s.h s.k hc.1 _ rfl).1]
    · rw [if_neg hc, if_neg hc]

/-! ## Multipliers stored in `L` -/

theorem elimCoef_abs_le_one {res : Mat K} {n h k : Nat}
    (hmax : ∀ i, h ≤ i → i < n → |res.get i k| ≤ |res.get h k|) (a : Nat) :
    |elimCoef res n h k a| ≤ 1 := by
  unfold elimCoef
  split_ifs with c
  · rw [abs_div]
    exact div_le_one_of_le₀ (hmax a (by omega) c.2) (abs_nonneg _)
  · rw [abs_zero]
    exact zero_le_one

/-- Every entry of the `L` carried by the loop of `PLU` has absolute value at most `1`. -/
theorem pluLoop_L_bound {n : Nat} (M : Matrix (Fin n) (Fin n) K) :
    ∀ (fuel : Nat) (s : PLUState K), PLUInv M s → (∀ a b, |s.L.get a b| ≤ 1) →
      ∀ a b, |(pluLoop n n fuel s).L.get a b| ≤ 1 := by
  intro fuel
  induction fuel with
  | zero =>
    intro s _ hb
    exact hb
  | succ fuel ih =>
    intro s hs hb
    rw [pluLoop]
    by_cases hc : s.h < n ∧ s.k < n
    · rw [if_pos hc]
      by_cases hz : (pivotScan s.res n s.h s.k).2 = 0
      · simp only [hz, if_true]
        exact ih _ (hs.skipCol hc.2 (pivotScan_zero hz)) hb
      · simp only [hz, if_false]
        obtain ⟨r0, _, q2, q3, q4⟩ := pivotScan_pivot hz
        have hex : ∃ i, s.h ≤ i ∧ i < n ∧ s.res.get i s.k ≠ 0 := ⟨r0, q2, q3, q4⟩
        obtain ⟨_, r, e1, e2, e3, e5, hmax, _⟩ := pivotScan_first_max hex
        have e4 : s.res.get r s.k ≠ 0 := by
          intro q
          rw [e5, q, abs_zero] at hz
          exact hz rfl
        rw [e1]
        simp only [Int.toNat_ofNat, ne_eq, Nat.cast_inj]
        by_cases hr : r = s.h
        · subst hr
          simp only [not_true_eq_false, if_false]
          apply ih _ (hs.elimStep hc.1 hc.2 e4 _ rfl)
          intro a b
          simp only
          rw [(pluElim_spec hs.1.1 hs.2.1 s.h s.k hc.1 _ rfl).2.2]
          split_ifs
          · exact elimCoef_abs_le_one hmax a
          · exact hb a b
        · simp only [hr, not_false_eq_true, if_true]
          have hs1 := hs.swapRows hc.1 e2 e3
          have hg := (swap_matmul_spec e3 hc.1 hs.1.1).2
          have hp : ((swap n r s.h).matmul s.res).get s.h s.k ≠ 0 := by
            rw [hg, swapIdx_right]
            exact e4
          apply ih _ (hs1.elimStep hc.1 hc.2 hp _ rfl)
          intro a b
          simp only
          rw [(pluElim_spec hs1.1.1 hs1.2.1 s.h s.k hc.1 _ rfl).2.2]
          split_ifs with c
          · apply elimCoef_abs_le_one
            intro i i1 i2
            rw [hg, hg, swapIdx_right]
            apply hmax
            · unfold swapIdx
              split_ifs <;> omega
            · exact swapIdx_lt e3 hc.1 i2
          · rw [(swap_matmul_spec e3 hc.1 hs.2.1).2]
            exact hb _ _
    · rw [if_neg hc]
      exact hb

/-- Every entry of the factor `L` of `PLU` has absolute value at most `1`. -/
theorem PLU_L_bound {A : Mat K} {n : Nat} (hA : A.WF n n) :
    ∃ P L U : Mat K, PLU A = [P, L, U] ∧ L.WF n n ∧ ∀ a b, |L.get a b| ≤ 1 := by
  have h0 := PLUInv_init hA
  have hb := pluLoop_L_bound (A.toM n n) n _ h0 (fun a b => by
    show |(new n n : Mat K).get a b| ≤ 1
    rw [get_new, abs_zero]
    exact zero_le_one)
  obtain ⟨⟨_, lw, _⟩, _⟩ := pluLoop_spec (A.toM n n) n _ h0 (by simp)
  obtain ⟨dw, dg⟩ := setDiag_spec lw
  refine ⟨(pluLoop n n n ⟨A, new n n, eye n, 0, 0⟩).P, _,
    (pluLoop n n n ⟨A, new n n, eye n, 0, 0⟩).res, ?_, dw, fun a b => ?_⟩
  · unfold PLU
    rw [hA.1, hA.2.1]
    simp only [ne_eq, not_true_eq_false, if_false, copy_eq hA]
  · rw [dg]
    split_ifs
    · rw [abs_one]
    · exact hb a b

/-- The factor `U` of `PLU` is the result of `ref`. -/
theorem PLU_U_eq_ref {A : Mat K} {n : Nat} (hA : A.WF n n) :
    ∃ P L : Mat K, PLU A = [P, L, ref A] := by
  have h0 := PLUInv_init hA
  have hr := pluLoop_res (A.toM n n) n _ h0
  refine ⟨(pluLoop n n n ⟨A, new n n, eye n, 0, 0⟩).P,
    forLoop 0 n (fun i (L : Mat K) => L.set i i 1) (pluLoop n n n ⟨A, new n n, eye n, 0, 0⟩).L,
    ?_⟩
  unfold PLU ref
  rw [hA.1, hA.2.1]
  simp only [ne_eq, not_true_eq_false, if_false, copy_eq hA]
  rw [hr]

/-! ## `ref` on a grid in echelon form -/

theorem elimBelow_id {res : Mat K} {n m : Nat} (hw : res.WF n m) (h k : Nat)
    (hz : ∀ a, h + 1 ≤ a → a < n → res.get a k = 0) : elimBelow res n h k = res := by
  apply ext_get_all (elimBelow_spec hw h k).1 hw
  intro a b
  rw [(elimBelow_spec hw h k).2]
  split_ifs with c1 c2 c3
  · rw [c2, hz a c1.1 c1.2]
  · rw [hz a c1.1 c1.2, zero_div, zero_mul, sub_zero]
  · rfl
  · rfl

/-- On a grid in echelon form the loop of `ref` changes nothing: no row is exchanged
and every multiplier is `0`. -/
theorem refLoop_echelon {n m : Nat} {R : Mat K} (hw : R.WF n m) (he : IsEchelon R n) :
    ∀ (fuel h k : Nat), (∀ a b, h ≤ a → b < k → R.get a b = 0) →
      (refLoop n m fuel ⟨R, h, k⟩).res = R := by
  intro fuel
  induction fuel with
  | zero =>
    intro h k _
    rfl
  | succ fuel ih =>
    intro h k hinv
    rw [refLoop]
    by_cases hc : h < n ∧ k < m
    · simp only [hc, and_self, if_true]
      have hbelow : ∀ a, h + 1 ≤ a → a < n → R.get a k = 0 := by
        intro a a1 a2
        by_contra q
        obtain ⟨t, rfl⟩ : ∃ t, a = t + 1 := ⟨a - 1, by omega⟩
        obtain ⟨j, j1, j2⟩ := he.2 t k a2 ⟨q, fun u hu => hinv _ u (by omega) hu⟩
        exact j2.1 (hinv t j (by omega) j1)
      by_cases hz : (pivotScan R n h k).2 = 0
      · simp only [hz, if_true]
        apply ih
        intro a b a1 b1
        rcases Nat.lt_or_ge b k with q | q
        · exact hinv a b a1 q
        · have : b = k := by omega
          subst this
          rcases Nat.lt_or_ge a n with q2 | q2
          · exact pivotScan_zero hz a a1 q2
          · exact get_of_row_ge hw _ q2
      · simp only [hz, if_false]
        obtain ⟨r, e1, e2, e3, e4⟩ := pivotScan_pivot hz
        have hr : r = h := by
          rcases Nat.lt_or_ge h r with q | q
          · exact absurd (hbelow r q e3) e4
          · omega
        subst hr
        rw [e1]
        simp only [ne_eq, not_true_eq_false, if_false]
        rw [elimBelow_id hw r k hbelow]
        apply ih
        intro a b a1 b1
        rcases Nat.lt_or_ge b k with q | q
        · exact hinv a b (by omega) q
        · have : b = k := by omega
          subst this
          rcases Nat.lt_or_ge a n with q2 | q2
          · exact hbelow a a1 q2
          · exact get_of_row_ge hw _ q2
    · rw [if_neg hc]

/-- The routine `ref` leaves a grid in echelon form as it is. -/
theorem ref_of_echelon {R : Mat K} {n m : Nat} (hw : R.WF n m) (he : IsEchelon R n) :
    ref R = R := by
  unfold ref
  rw [hw.1, hw.2.1, copy_eq hw]
  exact refLoop_echelon hw he m 0 0 (fun a b _ hb => by omega)

end Mat

namespace Mat

variable {K : Type} [LinearOrderedField K]

/-! ## Divisions of the elimination routines -/

theorem div?_eq_some (a : K) {b : K} (hb : b ≠ 0) : div? a b = some (a / b) := by
  unfold div?
  rw [if_neg hb]

/-- With a non-zero pivot, no division of the row-elimination loop has a zero divisor:
the loop leaves the pivot row as it is. -/
theorem elimBelowChecked_eq {res : Mat K} {n m : Nat} (hw : res.WF n m) {h k : Nat}
    (hp : res.get h k ≠ 0) :
    elimBelowChecked res n h k = some (elimBelow res n h k) := by
  unfold elimBelowChecked elimBelow
  exact (forLoop_option (h + 1) n _ _
    (fun _ (t : Mat K) => t.WF n m ∧ t.get h k = res.get h k) res ⟨hw, rfl⟩ (by
      intro i t hi1 hi2 ⟨tw, tg⟩
      have hne : t.get h k ≠ 0 := by rw [tg]; exact hp
      have hs := elimRow_spec tw i h k (t.get i k / t.get h k) hi2 (by omega)
      refine ⟨?_, hs.1, ?_⟩
      · simp only [Option.some_bind]
        rw [div?_eq_some _ hne]
        rfl
      · dsimp only
        rw [hs.2, if_neg (by omega)]
        exact tg)).1

/-- The row loop of `inverse` with a non-zero pivot divides by non-zero numbers only. -/
theorem invElimChecked_eq {res inv : Mat K} {n : Nat} (hw : res.WF n n) (iw : inv.WF n n)
    {h k : Nat} (hp : res.get h k ≠ 0) :
    forLoop (h + 1) n (fun i (st : Option (Mat K × Mat K)) =>
      st.bind fun p =>
        (div? (p.1.get i k) (p.1.get h k)).map fun val =>
          (forLoop (k + 1) n (fun j res => res.set i j (res.get i j - val * res.get h j))
              (p.1.set i k 0),
            forLoop 0 n (fun j inv => inv.set i j (inv.get i j - val * inv.get h j)) p.2))
      (some (res, inv))
    = some (forLoop (h + 1) n (fun i (p : Mat K × Mat K) =>
      (forLoop (k + 1) n (fun j res => res.set i j
          (res.get i j - p.1.get i k / p.1.get h k * res.get h j)) (p.1.set i k 0),
       forLoop 0 n (fun j inv => inv.set i j
          (inv.get i j - p.1.get i k / p.1.get h k * inv.get h j)) p.2)) (res, inv)) :=
  (forLoop_option (h + 1) n _ _
    (fun _ (t : Mat K × Mat K) => t.1.WF n n ∧ t.2.WF n n ∧ t.1.get h k = res.get h k)
    (res, inv) ⟨hw, iw, rfl⟩ (by
      intro i t hi1 hi2 ⟨tw, tiw, tg⟩
      have hne : t.1.get h k ≠ 0 := by rw [tg]; exact hp
      have hs := elimRow_spec tw i h k (t.1.get i k / t.1.get h k) hi2 (by omega)
      have hr := rowSub_spec tiw i h (t.1.get i k / t.1.get h k) hi2 (by omega)
      refine ⟨?_, hs.1, hr.1, ?_⟩
      · simp only [Option.some_bind]
        rw [div?_eq_some _ hne]
        rfl
      · simp only
        rw [hs.2, if_neg (by omega)]
        exact tg)).1

/-- The row loop of `PLU` with a non-zero pivot divides by non-zero numbers only. -/
theorem pluElimChecked_eq {res L : Mat K} {n : Nat} (hw : res.WF n n)
    {h k : Nat} (hp : res.get h k ≠ 0) :
    forLoop (h + 1) n (fun i (st : Option (Mat K × Mat K)) =>
      st.bind fun p =>
        (div? (p.1.get i k) (p.1.get h k)).map fun val =>
          (forLoop (k + 1) n (fun j res => res.set i j (res.get i j - val * res.get h j))
              (p.1.set i k 0),
            p.2.set i h val))
      (some (res, L))
    = some (forLoop (h + 1) n (fun i (p : Mat K × Mat K) =>
      (forLoop (k + 1) n (fun j res => res.set i j
          (res.get i j - p.1.get i k / p.1.get h k * res.get h j)) (p.1.set i k 0),
       p.2.set i h (p.1.get i k / p.1.get h k))) (res, L)) :=
  (forLoop_option (h + 1) n _ _
    (fun _ (t : Mat K × Mat K) => t.1.WF n n ∧ t.1.get h k = res.get h k)
    (res, L) ⟨hw, rfl⟩ (by
      intro i t hi1 hi2 ⟨tw, tg⟩
      have hne : t.1.get h k ≠ 0 := by rw [tg]; exact hp
      have hs := elimRow_spec tw i h k (t.1.get i k / t.1.get h k) hi2 (by omega)
      refine ⟨?_, hs.1, ?_⟩
      · simp only [Option.some_bind]
        rw [div?_eq_some _ hne]
        rfl
      · simp only
        rw [hs.2, if_neg (by omega)]
        exact tg)).1

/-- Every division of the loop of `ref` has a non-zero divisor. -/
theorem refLoopChecked_eq {n m : Nat} :
    ∀ (fuel : Nat) (s : RefState K), RefInv s.res n m s.h s.k →
      refLoopChecked n m fuel s = some (refLoop n m fuel s) := by
  intro fuel
  induction fuel with
  | zero =>
    intro s _
    rfl
  | succ fuel ih =>
    intro s he
    rw [refLoopChecked, refLoop]
    by_cases hc : s.h < n ∧ s.k < m
    · rw [if_pos hc, if_pos hc]
      by_cases hz : (pivotScan s.res n s.h s.k).2 = 0
      · simp only [hz, if_true]
        exact ih _ (he.nextCol hc.2 (pivotScan_zero hz))
      · simp only [hz, if_false]
        obtain ⟨r, e1, e2, e3, e4⟩ := pivotScan_pivot hz
        rw [e1]
        simp only [Int.toNat_ofNat, ne_eq, Nat.cast_inj]
        by_cases hr : r = s.h
        · subst hr
          simp only [not_true_eq_false, if_false]
          rw [elimBelowChecked_eq he.1 e4]
          simp only [Option.some_bind]
          exact ih _ (he.eliminate hc.1 hc.2 e4)
        · simp only [hr, not_false_eq_true, if_true]
          have hs := he.exchange hc.1 e2 e3
          have hp : ((swap n r s.h).matmul s.res).get s.h s.k ≠ 0 := by
            rw [(swap_matmul_spec e3 hc.1 he.1).2, swapIdx_right]
            exact e4
          rw [elimBelowChecked_eq hs.1 hp]
          simp only [Option.some_bind]
          exact ih _ (hs.eliminate hc.1 hc.2 hp)
    · rw [if_neg hc, if_neg hc]

/-- Every division of the loop of `det` has a non-zero divisor. -/
theorem detLoopChecked_eq {n : Nat} :
    ∀ (fuel : Nat) (s : DetState K), Ech s.res n s.h s.k →
      detLoopChecked n n fuel s = some (detLoop n n fuel s) := by
  intro fuel
  induction fuel with
  | zero =>
    intro s _
    rfl
  | succ fuel ih =>
    intro s he
    rw [detLoopChecked, detLoop]
    by_cases hc : s.h < n ∧ s.k < n
    · rw [if_pos hc, if_pos hc]
      by_cases hz : (pivotScan s.res n s.h s.k).2 = 0
      · simp only [hz, if_true]
        exact ih _ (he.skip hc.2 (pivotScan_zero hz))
      · simp only [hz, if_false]
        obtain ⟨r, e1, e2, e3, e4⟩ := pivotScan_pivot hz
        rw [e1]
        simp only [Int.toNat_ofNat, ne_eq, Nat.cast_inj]
        by_cases hr : r = s.h
        · subst hr
          simp only [not_true_eq_false, if_false]
          rw [elimBelowChecked_eq he.1 e4]
          simp only [Option.some_bind]
          exact ih _ (he.elim hc.2 e4)
        · simp only [hr, not_false_eq_true, if_true]
          have hs := he.swap hc.1 e2 e3
          have hp : ((swap n r s.h).matmul s.res).get s.h s.k ≠ 0 := by
            rw [(swap_matmul_spec e3 hc.1 he.1).2, swapIdx_right]
            exact e4
          rw [elimBelowChecked_eq hs.1 hp]
          simp only [Option.some_bind]
          exact ih _ (hs.elim hc.2 hp)
    · rw [if_neg hc, if_neg hc]

/-- Every division of the forward loop of `inverse` has a non-zero divisor. -/
theorem invLoopChecked_eq {n : Nat} :
    ∀ (fuel : Nat) (s : InvState K), Ech s.res n s.h s.k → s.inv.WF n n →
      invLoopChecked n n fuel s = some (invLoop n n fuel s) := by
  intro fuel
  induction fuel with
  | zero =>
    intro s _ _
    rfl
  | succ fuel ih =>
    intro s he iw
    rw [invLoopChecked, invLoop]
    by_cases hc : s.h < n ∧ s.k < n
    · rw [if_pos hc, if_pos hc]
      by_cases hz : (pivotScan s.res n s.h s.k).2 = 0
      · simp only [hz, if_true]
        exact ih _ (he.skip hc.2 (pivotScan_zero hz)) iw
      · simp only [hz, if_false]
        obtain ⟨r, e1, e2, e3, e4⟩ := pivotScan_pivot hz
        rw [e1]
        simp only [Int.toNat_ofNat]
        have hs := he.swap hc.1 e2 e3
        obtain ⟨sw, _⟩ := swap_matmul_spec e3 hc.1 iw
        have hp : ((swap n r s.h).matmul s.res).get s.h s.k ≠ 0 := by
          rw [(swap_matmul_spec e3 hc.1 he.1).2, swapIdx_right]
          exact e4
        obtain ⟨k1, k2, _⟩ := invElim_spec hs.1 sw s.h s.k _ rfl
        rw [invElimChecked_eq hs.1 sw hp]
        simp only [Option.some_bind]
        apply ih
        · simp only
          rw [k1]
          exact hs.elim hc.2 hp
        · exact k2
    · rw [if_neg hc, if_neg hc]

/-- Every division of the loop of `PLU` has a non-zero divisor. -/
theorem pluLoopChecked_eq {n : Nat} (M : Matrix (Fin n) (Fin n) K) :
    ∀ (fuel : Nat) (s : PLUState K), PLUInv M s →
      pluLoopChecked n n fuel s = some (pluLoop n n fuel s) := by
  intro fuel
  induction fuel with
  | zero =>
    intro s _
    rfl
  | succ fuel ih =>
    intro s hs
    rw [pluLoopChecked, pluLoop]
    by_cases hc : s.h < n ∧ s.k < n
    · rw [if_pos hc, if_pos hc]
      by_cases hz : (pivotScan s.res n s.h s.k).2 = 0
      · simp only [hz, if_true]
        exact ih _ (hs.skipCol hc.2 (pivotScan_zero hz))
      · simp only [hz, if_false]
        obtain ⟨r, e1, e2, e3, e4⟩ := pivotScan_pivot hz
        rw [e1]
        simp only [Int.toNat_ofNat, ne_eq, Nat.cast_inj]
        by_cases hr : r = s.h
        · subst hr
          simp only [not_true_eq_false, if_false]
          rw [pluElimChecked_eq hs.1.1 e4]
          simp only [Option.some_bind]
          exact ih _ (hs.elimStep hc.1 hc.2 e4 _ rfl)
        · simp only [hr, not_false_eq_true, if_true]
          have hs1 := hs.swapRows hc.1 e2 e3
          have hp : ((swap n r s.h).matmul s.res).get s.h s.k ≠ 0 := by
            rw [(swap_matmul_spec e3 hc.1 hs.1.1).2, swapIdx_right]
            exact e4
          rw [pluElimChecked_eq hs1.1.1 hp]
          simp only [Option.some_bind]
          exact ih _ (hs1.elimStep hc.1 hc.2 hp _ rfl)
    · rw [if_neg hc, if_neg hc]

end Mat

namespace Mat

variable {K : Type} [LinearOrderedField K]

/-- The backward pass of `inverse` divides by diagonal entries only, and these keep
their non-zero values throughout the pass. -/
theorem backPassChecked_eq {n : Nat} (M : Matrix (Fin n) (Fin n) K) (d : Nat → K)
    (hd : ∀ a, a < n → d a ≠ 0) (p0 : Mat K × Mat K) (h0 : BackInv M d 1 p0) :
    forLoop 1 n (fun h (st : Option (Mat K × Mat K)) =>
      forLoop 0 h (fun i (st : Option (Mat K × Mat K)) =>
        st.bind fun p =>
          if p.1.get i h = 0 then some (p.1, p.2)
          else
            (div? (p.1.get i h) (p.1.get h h)).map fun val =>
              forLoop 0 n (fun j (q : Mat K × Mat K) =>
                (q.1.set i j (q.1.get i j - val * q.1.get h j),
                 q.2.set i j (q.2.get i j - val * q.2.get h j))) (p.1, p.2)) st) (some p0)
    = some (forLoop 1 n (fun h (p : Mat K × Mat K) =>
      forLoop 0 h (fun i (p : Mat K × Mat K) =>
        if p.1.get i h = 0 then (p.1, p.2)
        else forLoop 0 n (fun j (q : Mat K × Mat K) =>
          (q.1.set i j (q.1.get i j - p.1.get i h / p.1.get h h * q.1.get h j),
           q.2.set i j (q.2.get i j - p.1.get i h / p.1.get h h * q.2.get h j)))
          (p.1, p.2)) p) p0) :=
  (forLoop_option 1 n _ _ (fun t (q : Mat K × Mat K) => BackInv M d t q) p0 h0 (by
    intro h q h1 h2 hb
    have inner := forLoop_option 0 h
      (fun i (p : Mat K × Mat K) =>
        if p.1.get i h = 0 then (p.1, p.2)
        else forLoop 0 n (fun j (q : Mat K × Mat K) =>
          (q.1.set i j (q.1.get i j - p.1.get i h / p.1.get h h * q.1.get h j),
           q.2.set i j (q.2.get i j - p.1.get i h / p.1.get h h * q.2.get h j)))
          (p.1, p.2))
      (fun i (st : Option (Mat K × Mat K)) =>
        st.bind fun p =>
          if p.1.get i h = 0 then some (p.1, p.2)
          else
            (div? (p.1.get i h) (p.1.get h h)).map fun val =>
              forLoop 0 n (fun j (q : Mat K × Mat K) =>
                (q.1.set i j (q.1.get i j - val * q.1.get h j),
                 q.2.set i j (q.2.get i j - val * q.2.get h j))) (p.1, p.2))
      (fun u (r : Mat K × Mat K) => BackInv M d h r ∧ ∀ a, a < u → r.1.get a h = 0) q
      ⟨hb, fun a ha => by omega⟩ (by
        intro i r _ hi ⟨rb, rz⟩
        refine ⟨?_, backStep_spec M d hi h2 (hd h h2) r rb rz _ rfl⟩
        have hne : r.1.get h h ≠ 0 := by
          rw [rb.2.2.2.2.1 h]
          exact hd h h2
        simp only [Option.some_bind]
        split_ifs
        · rfl
        · rw [div?_eq_some _ hne]
          rfl)
    refine ⟨inner.1, ?_⟩
    obtain ⟨⟨w1, w2, hm, hu, hdiag, hcl⟩, hz⟩ := inner.2 (Nat.zero_le _)
    refine ⟨w1, w2, hm, hu, hdiag, fun a b hab hbt => ?_⟩
    rcases Nat.lt_or_ge b h with c | c
    · exact hcl a b hab c
    · have : b = h := by omega
      subst this
      exact hz a hab)).1

/-- The final scaling of `inverse` divides by non-zero numbers when the diagonal of the
reduced grid has no zero. -/
theorem scaleRowsChecked_eq (inv res : Mat K) {n : Nat}
    (hd : ∀ a, a < n → res.get a a ≠ 0) :
    forLoop 0 n (fun i (st : Option (Mat K)) =>
      forLoop 0 n (fun j (st : Option (Mat K)) =>
        st.bind fun inv =>
          (div? (inv.get i j) (res.get i i)).map fun q => inv.set i j q) st) (some inv)
    = some (forLoop 0 n (fun i inv =>
      forLoop 0 n (fun j inv => inv.set i j (inv.get i j / res.get i i)) inv) inv) :=
  (forLoop_option 0 n _ _ (fun _ (_ : Mat K) => True) inv trivial (by
    intro i t _ hi _
    refine ⟨?_, trivial⟩
    exact (forLoop_option 0 n
      (fun j (inv : Mat K) => inv.set i j (inv.get i j / res.get i i))
      (fun j (st : Option (Mat K)) =>
        st.bind fun inv =>
          (div? (inv.get i j) (res.get i i)).map fun q => inv.set i j q)
      (fun _ (_ : Mat K) => True) t trivial (by
        intro j u _ _ _
        refine ⟨?_, trivial⟩
        simp only [Option.some_bind]
        rw [div?_eq_some _ (hd i hi)]
        rfl)).1)).1

/-- No division of `ref` has a zero divisor. -/
theorem refChecked_eq {A : Mat K} {n m : Nat} (hA : A.WF n m) :
    A.refChecked = some A.ref := by
  unfold refChecked ref
  rw [hA.1, hA.2.1, copy_eq hA, refLoopChecked_eq m _ (RefInv_init hA)]
  rfl

/-- No division of `det` has a zero divisor. -/
theorem detChecked_eq {A : Mat K} {n m : Nat} (hA : A.WF n m) :
    A.detChecked = some A.det := by
  unfold detChecked det
  rw [hA.1, hA.2.1]
  by_cases e : n = m
  · subst e
    rw [if_neg (fun h => h rfl), if_neg (fun h => h rfl), copy_eq hA,
      detLoopChecked_eq n _ (Ech_init hA)]
    rfl
  · rw [if_pos e, if_pos e]

/-- No division of `PLU` has a zero divisor. -/
theorem PLUChecked_eq {A : Mat K} {n m : Nat} (hA : A.WF n m) :
    A.PLUChecked = some A.PLU := by
  unfold PLUChecked PLU
  rw [hA.1, hA.2.1]
  by_cases e : n = m
  · subst e
    rw [if_neg (fun h => h rfl), if_neg (fun h => h rfl), copy_eq hA,
      pluLoopChecked_eq (A.toM n n) n _ (PLUInv_init hA)]
    rfl
  · rw [if_pos e, if_pos e]

/-- No division of `inverse` has a zero divisor: neither in the forward elimination,
nor, once the check of the diagonal has passed, in the backward pass and in the final
scaling. -/
theorem inverseChecked_eq {A : Mat K} {n m : Nat} (hA : A.WF n m) :
    A.inverseChecked = some A.inverse := by
  by_cases e : n = m
  · subst e
    obtain ⟨rw1, iw, hm, _, hu, _⟩ := invForward_spec hA
    unfold inverseChecked inverse
    rw [hA.1, hA.2.1]
    rw [if_neg (fun h => h rfl), if_neg (fun h => h rfl), copy_eq hA,
      invLoopChecked_eq n _ (Ech_init hA) (eye_spec n).1]
    simp only [Option.some_bind]
    by_cases hflag : forLoop 0 n (fun i (ret : Bool) =>
        ret || decide ((invLoop n n n ⟨A, eye n, 0, 0⟩).res.get i i = 0)) false = true
    · rw [if_pos hflag, if_pos hflag]
    · rw [if_neg hflag, if_neg hflag]
      have hdiag : ∀ a, a < n → (invLoop n n n ⟨A, eye n, 0, 0⟩).res.get a a ≠ 0 := by
        intro a ha q
        apply hflag
        rw [anyLoop_eq]
        exact ⟨a, ha, decide_eq_true q⟩
      have hb : BackInv (A.toM n n) (fun a => (invLoop n n n ⟨A, eye n, 0, 0⟩).res.get a a) 1
          ((invLoop n n n ⟨A, eye n, 0, 0⟩).res, (invLoop n n n ⟨A, eye n, 0, 0⟩).inv) :=
        ⟨rw1, iw, hm, hu, fun a => rfl, fun a b h1 h2 => by omega⟩
      have hback := backPassChecked_eq (A.toM n n)
        (fun a => (invLoop n n n ⟨A, eye n, 0, 0⟩).res.get a a) hdiag _ hb
      obtain ⟨_, _, _, hg⟩ := backPass_spec (A.toM n n)
        (fun a => (invLoop n n n ⟨A, eye n, 0, 0⟩).res.get a a) hdiag _ hb _ rfl
      have hd2 : ∀ a, a < n → (forLoop 1 n (fun h (p : Mat K × Mat K) =>
          forLoop 0 h (fun i (p : Mat K × Mat K) =>
            if p.1.get i h = 0 then (p.1, p.2)
            else forLoop 0 n (fun j (q : Mat K × Mat K) =>
              (q.1.set i j (q.1.get i j - p.1.get i h / p.1.get h h * q.1.get h j),
               q.2.set i j (q.2.get i j - p.1.get i h / p.1.get h h * q.2.get h j)))
              (p.1, p.2)) p)
          ((invLoop n n n ⟨A, eye n, 0, 0⟩).res,
            (invLoop n n n ⟨A, eye n, 0, 0⟩).inv)).1.get a a ≠ 0 := by
        intro a ha
        rw [hg a a ha ha, if_pos rfl]
        exact hdiag a ha
      have hscale := scaleRowsChecked_eq (forLoop 1 n (fun h (p : Mat K × Mat K) =>
          forLoop 0 h (fun i (p : Mat K × Mat K) =>
            if p.1.get i h = 0 then (p.1, p.2)
            else forLoop 0 n (fun j (q : Mat K × Mat K) =>
              (q.1.set i j (q.1.get i j - p.1.get i h / p.1.get h h * q.1.get h j),
               q.2.set i j (q.2.get i j - p.1.get i h / p.1.get h h * q.2.get h j)))
              (p.1, p.2)) p)
          ((invLoop n n n ⟨A, eye n, 0, 0⟩).res,
            (invLoop n n n ⟨A, eye n, 0, 0⟩).inv)).2 _ hd2
      exact (congrArg (fun o : Option (Mat K × Mat K) => o.bind fun p =>
        forLoop 0 n (fun i (st : Option (Mat K)) =>
          forLoop 0 n (fun j (st : Option (Mat K)) =>
            st.bind fun inv =>
              (div? (inv.get i j) (p.1.get i i)).map fun q => inv.set i j q) st) (some p.2))
        hback).trans hscale
  · unfold inverseChecked inverse
    rw [hA.1, hA.2.1, if_pos e, if_pos e]

end Mat

namespace Mat

variable {K : Type} [LinearOrderedField K]

/-! ## Accesses of `ref` -/

/-- The pivot scan reads inside the grid. -/
theorem pivotScanGuarded_eq {res : Mat K} {n m : Nat} (hw : res.WF n m) (h : Nat) {k : Nat}
    (hk : k < m) : pivotScanGuarded res n h k = some (pivotScan res n h k) := by
  unfold pivotScanGuarded pivotScan
  exact (forLoop_option h n _ _ (fun _ (_ : Int × K) => True) (-1, 0) trivial (by
    intro i t _ hi _
    refine ⟨?_, trivial⟩
    simp only [Option.some_bind]
    rw [get?_eq_some hw hi hk]
    rfl)).1

/-- On a grid with at most as many rows as columns the row-elimination loop reads and
writes inside the grid. -/
theorem elimBelowGuarded_eq {res : Mat K} {n m : Nat} (hw : res.WF n m) (hnm : n ≤ m)
    {h k : Nat} (hh : h < n) (hk : k < m) :
    elimBelowGuarded res n h k = some (elimBelow res n h k) := by
  unfold elimBelowGuarded elimBelow
  exact (forLoop_option (h + 1) n _ _ (fun _ (t : Mat K) => t.WF n m) res hw (by
    intro i t _ hi tw
    have inner := forLoop_option (k + 1) n
      (fun j (r : Mat K) => r.set i j (r.get i j - t.get i k / t.get h k * r.get h j))
      (fun j (st : Option (Mat K)) =>
        st.bind fun r =>
          (r.get? i j).bind fun x =>
            (r.get? h j).bind fun y => r.set? i j (x - t.get i k / t.get h k * y))
      (fun _ (r : Mat K) => r.WF n m) (t.set i k 0) (tw.set _ _ _) (by
        intro j r _ hj rw
        have hjm : j < m := lt_of_lt_of_le hj hnm
        refine ⟨?_, rw.set _ _ _⟩
        simp only [Option.some_bind]
        rw [get?_eq_some rw hi hjm]
        simp only [Option.some_bind]
        rw [get?_eq_some rw hh hjm]
        simp only [Option.some_bind]
        exact set?_eq_some rw hi hjm _)
    refine ⟨?_, forLoop_inv0 _ _ (fun (r : Mat K) => r.WF n m) (tw.set _ _ _)
      (fun j r _ _ rw => rw.set _ _ _)⟩
    simp only [Option.some_bind]
    rw [get?_eq_some tw hi hk]
    simp only [Option.some_bind]
    rw [get?_eq_some tw hh hk]
    simp only [Option.some_bind]
    rw [set?_eq_some tw hi hk]
    simp only [Option.some_bind]
    exact inner.1)).1

/-- On a grid with more rows than columns the row-elimination loop leaves the rows: in
the first row below the pivot the update reaches column `m`. -/
theorem elimBelowGuarded_eq_none {res : Mat K} {n m : Nat} (hw : res.WF n m) (hmn : m < n)
    {h k : Nat} (hh : h + 1 < n) (hk : k < m) :
    elimBelowGuarded res n h k = none := by
  unfold elimBelowGuarded
  have first : ∀ (val : K) (r0 : Mat K), r0.WF n m →
      forLoop (k + 1) n (fun j (st : Option (Mat K)) =>
        st.bind fun r =>
          (r.get? (h + 1) j).bind fun x =>
            (r.get? h j).bind fun y => r.set? (h + 1) j (x - val * y)) (some r0) = none := by
    intro val r0 r0w
    have key := forLoop_inv (k + 1) n
      (fun j (st : Option (Mat K)) =>
        st.bind fun r =>
          (r.get? (h + 1) j).bind fun x =>
            (r.get? h j).bind fun y => r.set? (h + 1) j (x - val * y)) (some r0)
      (fun t x => (t ≤ m → ∃ r : Mat K, x = some r ∧ r.WF n m) ∧ (m < t → x = none))
      (by omega) ⟨fun _ => ⟨r0, rfl, r0w⟩, fun c => by omega⟩ (by
        intro j x _ hj ⟨x1, x2⟩
        refine ⟨fun c => ?_, fun c => ?_⟩
        · obtain ⟨r, e, rw⟩ := x1 (by omega)
          have hjm : j < m := by omega
          refine ⟨_, ?_, rw.set (h + 1) j (r.get (h + 1) j - val * r.get h j)⟩
          rw [e]
          simp only [Option.some_bind]
          rw [get?_eq_some rw hh hjm]
          simp only [Option.some_bind]
          rw [get?_eq_some rw (by omega : h < n) hjm]
          simp only [Option.some_bind]
          exact set?_eq_some rw hh hjm _
        · rcases Nat.lt_or_ge m j with q | q
          · rw [x2 q]
            rfl
          · have e0 : j = m := by omega
            subst e0
            obtain ⟨r, e, rw⟩ := x1 (le_refl _)
            rw [e]
            simp only [Option.some_bind]
            rw [get?_eq_none rw (Or.inr (le_refl _))]
            rfl)
    exact key.2 hmn
  have key := forLoop_inv (h + 1) n
    (fun i (st : Option (Mat K)) =>
      st.bind fun res =>
        (res.get? i k).bind fun a =>
          (res.get? h k).bind fun b =>
            (res.set? i k 0).bind fun res =>
              forLoop (k + 1) n (fun j (st : Option (Mat K)) =>
                st.bind fun res =>
                  (res.get? i j).bind fun x =>
                    (res.get? h j).bind fun y => res.set? i j (x - a / b * y)) (some res))
    (some res)
    (fun t x => (t = h + 1 → x = some res) ∧ (h + 2 ≤ t → x = none))
    (by omega) ⟨fun _ => rfl, fun c => by omega⟩ (by
      intro i x hi1 _ ⟨x1, x2⟩
      refine ⟨fun c => by omega, fun _ => ?_⟩
      rcases Nat.lt_or_ge (h + 1) i with q | q
      · rw [x2 q]
        rfl
      · have e0 : i = h + 1 := by omega
        subst e0
        rw [x1 rfl]
        simp only [Option.some_bind]
        rw [get?_eq_some hw hh hk]
        simp only [Option.some_bind]
        rw [get?_eq_some hw (by omega : h < n) hk]
        simp only [Option.some_bind]
        rw [set?_eq_some hw hh hk]
        simp only [Option.some_bind]
        exact first _ _ (hw.set _ _ _))
  exact key.2 hh

/-- On a grid with at most as many rows as columns every access of the loop of `ref` is
in range. -/
theorem refLoopGuarded_eq {n m : Nat} (hnm : n ≤ m) :
    ∀ (fuel : Nat) (s : RefState K), RefInv s.res n m s.h s.k →
      refLoopGuarded n m fuel s = some (refLoop n m fuel s) := by
  intro fuel
  induction fuel with
  | zero =>
    intro s _
    rfl
  | succ fuel ih =>
    intro s he
    rw [refLoopGuarded, refLoop]
    by_cases hc : s.h < n ∧ s.k < m
    · rw [if_pos hc, if_pos hc, pivotScanGuarded_eq he.1 s.h hc.2]
      simp only [Option.some_bind]
      by_cases hz : (pivotScan s.res n s.h s.k).2 = 0
      · simp only [hz, if_true]
        exact ih _ (he.nextCol hc.2 (pivotScan_zero hz))
      · simp only [hz, if_false]
        obtain ⟨r, e1, e2, e3, e4⟩ := pivotScan_pivot hz
        rw [e1]
        simp only [Int.toNat_ofNat, ne_eq, Nat.cast_inj]
        by_cases hr : r = s.h
        · subst hr
          simp only [not_true_eq_false, if_false]
          rw [elimBelowGuarded_eq he.1 hnm hc.1 hc.2]
          simp only [Option.some_bind]
          exact ih _ (he.eliminate hc.1 hc.2 e4)
        · simp only [hr, not_false_eq_true, if_true]
          have hs := he.exchange hc.1 e2 e3
          have hp : ((swap n r s.h).matmul s.res).get s.h s.k ≠ 0 := by
            rw [(swap_matmul_spec e3 hc.1 he.1).2, swapIdx_right]
            exact e4
          rw [elimBelowGuarded_eq hs.1 hnm hc.1 hc.2]
          simp only [Option.some_bind]
          exact ih _ (hs.eliminate hc.1 hc.2 hp)
    · rw [if_neg hc, if_neg hc]

/-- On a grid with at most as many rows as columns every access of `ref` is in range. -/
theorem refGuarded_eq {A : Mat K} {n m : Nat} (hA : A.WF n m) (hnm : n ≤ m) :
    A.refGuarded = some A.ref := by
  unfold refGuarded ref
  rw [hA.1, hA.2.1, copy_eq hA, refLoopGuarded_eq hnm m _ (RefInv_init hA)]
  rfl

/-- On a grid with more rows than columns whose first column is not zero, `ref` reads
and writes outside the rows in its first elimination step. -/
theorem refGuarded_eq_none {A : Mat K} {n m : Nat} (hA : A.WF n m) (hmn : m < n)
    (hm : 0 < m) (hex : ∃ i, i < n ∧ A.get i 0 ≠ 0) : A.refGuarded = none := by
  unfold refGuarded
  rw [hA.1, hA.2.1, copy_eq hA]
  obtain ⟨t, rfl⟩ : ∃ t, m = t + 1 := ⟨m - 1, by omega⟩
  rw [refLoopGuarded]
  have hc : (0 : Nat) < n ∧ (0 : Nat) < t + 1 := ⟨by omega, hm⟩
  simp only [hc, and_self, if_true]
  rw [pivotScanGuarded_eq hA 0 hm]
  simp only [Option.some_bind]
  obtain ⟨i0, i1, i2⟩ := hex
  obtain ⟨hz, r, e1, _, e3, _⟩ := pivotScan_first_max (h := 0) ⟨i0, Nat.zero_le _, i1, i2⟩
  simp only [hz, if_false]
  rw [e1]
  simp only [Int.toNat_ofNat, ne_eq, Nat.cast_inj]
  by_cases hr : r = 0
  · subst hr
    simp only [CharP.cast_eq_zero, not_true_eq_false, if_false]
    rw [elimBelowGuarded_eq_none hA hmn (by omega) hm]
    rfl
  · simp only [hr, not_false_eq_true, if_true]
    rw [elimBelowGuarded_eq_none (swap_matmul_spec e3 (by omega) hA).1 hmn (by omega) hm]
    rfl

end Mat
/-! ## Verified claims: inverse, PLU, determinant, QR -/

/-- C1: for every square `n × n` matrix `A` with non-zero determinant, `inverse(A)` is an
`n × n` matrix with `inverse(A) * A = eye(n)` and `A * inverse(A) = eye(n)` in exact
arithmetic; and `inverse([[2,1],[1,1]]) = [[1,-1],[-1,2]]`. -/
theorem inverse_two_sided :
    (∀ (K : Type) [LinearOrderedField K] (n : Nat) (A : Mat K), A.WF n n →
      (A.toM n n).det ≠ 0 →
      A.inverse.WF n n ∧ A.inverse.matmul A = Mat.eye n ∧ A.matmul A.inverse = Mat.eye n) ∧
    exampleA.inverse = ⟨2, 2, [[1, -1], [-1, 2]]⟩ :=
  ⟨fun _ _ _ _ hA hdet => Mat.inverse_matmul hA hdet, by with_unfolding_all decide⟩

theorem inverse_two_sided_witness :
    exampleA.WF 2 2 ∧ (exampleA.toM 2 2).det ≠ 0 ∧
    exampleA.inverse.WF 2 2 ∧ exampleA.inverse.matmul exampleA = Mat.eye 2 ∧
    exampleA.matmul exampleA.inverse = Mat.eye 2 :=
  have hdet : (exampleA.toM 2 2).det ≠ 0 := by
    rw [← Mat.det_eq (by decide)]
    with_unfolding_all decide
  ⟨by decide, hdet, inverse_two_sided.1 ℚ 2 exampleA (by decide) hdet⟩

/-- C2: for every square matrix `A`, with `[P, L, U] = PLU(A)`, `P * A = L * U` in exact
arithmetic; rank-deficient inputs, on which the pivot column runs ahead of the pivot
row, are included. -/
theorem PLU_factorization {K : Type} [LinearOrderedField K] (n : Nat) (A : Mat K)
    (hA : A.WF n n) :
    ∃ P L U : Mat K, A.PLU = [P, L, U] ∧ P.matmul A = L.matmul U := by
  obtain ⟨P, L, U, e, pw, lw, uw, hm, -⟩ := Mat.PLU_spec hA
  refine ⟨P, L, U, e, ?_⟩
  apply Mat.toM_inj (Mat.matmul_spec pw hA).1 (Mat.matmul_spec lw uw).1
  rw [Mat.toM_matmul pw hA, Mat.toM_matmul lw uw, hm]

theorem PLU_factorization_witness :
    exampleSkip.WF 3 3 ∧
    ∃ P L U : Mat ℚ, exampleSkip.PLU = [P, L, U] ∧ P.matmul exampleSkip = L.matmul U :=
  ⟨by decide, PLU_factorization 3 exampleSkip (by decide)⟩

/-- C3: for every square `n × n` matrix `A`, `det(A)` is the determinant of `A` (Leibniz
formula, `Matrix.det`) in exact arithmetic, it is `0` whenever the elimination had to
skip a column, and `det([[2,1],[1,1]]) = 1`, `det([[0,1],[1,0]]) = -1`. -/
theorem det_is_determinant :
    (∀ (K : Type) [LinearOrderedField K] (n : Nat) (A : Mat K), A.WF n n →
      A.det = (A.toM n n).det ∧
      ((Mat.detLoop n n n ⟨A, 0, 0, 1⟩).h < (Mat.detLoop n n n ⟨A, 0, 0, 1⟩).k →
        A.det = 0)) ∧
    exampleA.det = 1 ∧ exampleSwap.det = -1 :=
  ⟨fun _ _ _ _ hA => ⟨Mat.det_eq hA, Mat.det_of_skip hA⟩,
    by with_unfolding_all decide, by with_unfolding_all decide⟩

theorem det_is_determinant_witness :
    exampleSkip.WF 3 3 ∧ exampleSkip.det = (exampleSkip.toM 3 3).det ∧
    ((Mat.detLoop 3 3 3 ⟨exampleSkip, 0, 0, 1⟩).h < (Mat.detLoop 3 3 3 ⟨exampleSkip, 0, 0, 1⟩).k →
      exampleSkip.det = 0) :=
  ⟨by decide, det_is_determinant.1 ℚ 3 exampleSkip (by decide)⟩

/-- C4: for every square full-rank matrix `A`, with `(Q, R) = QR(A)`, `Q * R = A` in exact
real arithmetic (`sqrt` is the real square root). -/
theorem QR_reconstructs (n : Nat) (A : Mat ℝ) (hA : A.WF n n)
    (hfull : (A.toM n n).rank = n) :
    (A.QR Real.sqrt).1.matmul (A.QR Real.sqrt).2 = A :=
  (Mat.QR_matmul Real.sqrt (fun _ hx => Real.mul_self_sqrt (le_of_lt hx)) hA
    (Mat.linearIndependent_colv_of_rank hfull)).2.2

theorem QR_reconstructs_witness :
    exampleRealId.WF 2 2 ∧ (exampleRealId.toM 2 2).rank = 2 ∧
    (exampleRealId.QR Real.sqrt).1.matmul (exampleRealId.QR Real.sqrt).2 = exampleRealId :=
  have hrank : (exampleRealId.toM 2 2).rank = 2 := by
    apply Mat.rank_of_det_ne_zero
    rw [Matrix.det_fin_two]
    simp [Mat.toM_apply, Mat.get, exampleRealId]
  ⟨by decide, hrank, QR_reconstructs 2 exampleRealId (by decide) hrank⟩

/-- C5 (counterexample): the third row of `[[1,2,3],[4,5,6],[5,7,9]]` is the sum of the
first two and its determinant is `0`, yet in `double` the forward elimination of
`inverse` ends with the pivot `5 / 2 ^ 52` (about `1.1e-15`) on the diagonal, the test
`res.mat[i][i] == 0` does not fire, and `inverse` returns a `3 × 3` grid instead of the
null matrix. -/
theorem inverse_double_keeps_singular :
    exampleSumRows.WF 3 3 ∧
    (∀ j, exampleSumRows.get 2 j = exampleSumRows.get 0 j + exampleSumRows.get 1 j) ∧
    (exampleSumRows.toM 3 3).det = 0 ∧ exampleSumRows.inverse = Mat.NIL ∧
    (Mat.invLoopDouble 3 3 3 ⟨exampleSumRows.copy, Mat.eye 3, 0, 0⟩).map (fun s => s.res)
      = some ⟨3, 3, [[5, 7, 9],
          [0, -675539944105575 / 1125899906842624, -1351079888211149 / 1125899906842624],
          [0, 0, 5 / 4503599627370496]]⟩ ∧
    exampleSumRows.inverseDouble
      = some ⟨3, 3,
          [[7205759403792781 / 8, 7205759403792791 / 8, -1801439850948197 / 2],
           [-7205759403792789 / 4, -7205759403792787 / 4, 7205759403792787 / 4],
           [3602879701896397 / 4, 3602879701896393 / 4, -7205759403792787 / 8]]⟩ ∧
    exampleSumRows.inverseDouble ≠ some Mat.NIL := by
  refine ⟨by decide, ?_, ?_, by with_unfolding_all decide, by decide!, by decide!,
    by decide!⟩
  · intro j
    rcases j with _ | _ | _ | j <;> simp [exampleSumRows, Mat.get] <;> norm_num
  · rw [← Mat.det_eq (by decide)]
    with_unfolding_all decide

/-- C5 (amended): in exact arithmetic, for every square matrix `A` whose determinant is
zero, `inverse(A)` is the null `0 × 0` matrix; in particular, in exact arithmetic, for
every `3 × 3` matrix whose third row is the sum of its first two rows. -/
theorem inverse_singular_null :
    (∀ (K : Type) [LinearOrderedField K] (n : Nat) (A : Mat K), A.WF n n →
      (A.toM n n).det = 0 → A.inverse = Mat.NIL) ∧
    (∀ (K : Type) [LinearOrderedField K] (a b c d e f : K),
      Mat.inverse ⟨3, 3, [[a, b, c], [d, e, f], [a + d, b + e, c + f]]⟩ = Mat.NIL) := by
  refine ⟨fun _ _ _ _ hA hdet => Mat.inverse_singular hA hdet, fun K _ a b c d e f => ?_⟩
  have hw : (⟨3, 3, [[a, b, c], [d, e, f], [a + d, b + e, c + f]]⟩ : Mat K).WF 3 3 := by
    simp [Mat.WF]
  apply Mat.inverse_singular hw
  rw [Matrix.det_fin_three]
  simp only [Mat.toM_apply, Mat.get]
  simp
  ring

theorem inverse_singular_null_witness :
    exampleSkip.WF 3 3 ∧ (exampleSkip.toM 3 3).det = 0 ∧ exampleSkip.inverse = Mat.NIL :=
  have hdet : (exampleSkip.toM 3 3).det = 0 := by
    rw [← Mat.det_eq (by decide)]
    with_unfolding_all decide
  ⟨by decide, hdet, inverse_singular_null.1 ℚ 3 exampleSkip (by decide) hdet⟩

/-- C6: for every `n × m` matrix with `n ≠ m`, `det` returns `0`, `inverse` returns the null
`0 × 0` matrix, `PLU` returns three null matrices and `QR` returns a pair of null
matrices. -/
theorem nonsquare_sentinels {K : Type} [LinearOrderedField K] (sqrt : K → K) (A : Mat K)
    (h : A.n ≠ A.m) :
    A.det = 0 ∧ A.inverse = Mat.NIL ∧ A.PLU = [Mat.NIL, Mat.NIL, Mat.NIL] ∧
    A.QR sqrt = (Mat.NIL, Mat.NIL) := by
  refine ⟨?_, ?_, ?_, ?_⟩
  · unfold Mat.det; rw [if_pos h]
  · unfold Mat.inverse; rw [if_pos h]
  · unfold Mat.PLU; rw [if_pos h]
  · unfold Mat.QR; rw [if_pos h]

theorem nonsquare_sentinels_witness :
    exampleWide.n ≠ exampleWide.m ∧ exampleWide.det = 0 ∧ exampleWide.inverse = Mat.NIL ∧
    exampleWide.PLU = [Mat.NIL, Mat.NIL, Mat.NIL] ∧
    exampleWide.QR (fun x => x) = (Mat.NIL, Mat.NIL) :=
  ⟨by decide, nonsquare_sentinels (fun x => x) exampleWide (by decide)⟩

/-- C7: for square matrices `A`, `B` of the same size, `det(A * B) = det(A) * det(B)` in exact
arithmetic. -/
theorem det_multiplicative {K : Type} [LinearOrderedField K] (n : Nat) (A B : Mat K)
    (hA : A.WF n n) (hB : B.WF n n) : (A.matmul B).det = A.det * B.det :=
  Mat.det_matmul hA hB

theorem det_multiplicative_witness :
    exampleA.WF 2 2 ∧ exampleSwap.WF 2 2 ∧
    (exampleA.matmul exampleSwap).det = exampleA.det * exampleSwap.det :=
  ⟨by decide, by decide, det_multiplicative 2 exampleA exampleSwap (by decide) (by decide)⟩

/-- C8: for every square `n × n` matrix `A`, the `L` returned by `PLU(A)` is unit lower
triangular (`L[i][i] = 1`, `L[i][j] = 0` for `j > i`) and the `U` returned is upper
triangular (`U[i][j] = 0` for `j < i`). -/
theorem PLU_triangular {K : Type} [LinearOrderedField K] (n : Nat) (A : Mat K)
    (hA : A.WF n n) :
    ∃ P L U : Mat K, A.PLU = [P, L, U] ∧ L.WF n n ∧ U.WF n n ∧
      (∀ i, i < n → L.get i i = 1) ∧ (∀ i j, i < n → j < n → i < j → L.get i j = 0) ∧
      (∀ i j, i < n → j < n → j < i → U.get i j = 0) := by
  obtain ⟨P, L, U, e, -, lw, uw, -, h1, h2, h3, -⟩ := Mat.PLU_spec hA
  exact ⟨P, L, U, e, lw, uw, h1, fun i j _ _ hij => h2 i j hij, fun i j _ _ hij => h3 i j hij⟩

theorem PLU_triangular_witness :
    exampleSkip.WF 3 3 ∧
    ∃ P L U : Mat ℚ, exampleSkip.PLU = [P, L, U] ∧ L.WF 3 3 ∧ U.WF 3 3 ∧
      (∀ i, i < 3 → L.get i i = 1) ∧ (∀ i j, i < 3 → j < 3 → i < j → L.get i j = 0) ∧
      (∀ i j, i < 3 → j < 3 → j < i → U.get i j = 0) :=
  ⟨by decide, PLU_triangular 3 exampleSkip (by decide)⟩

/-- C9: for every square `n × n` matrix `A`, the `P` returned by `PLU(A)` is a permutation
matrix: every entry is `0` or `1` and every row and every column contains exactly
one `1`. -/
theorem PLU_permutation {K : Type} [LinearOrderedField K] (n : Nat) (A : Mat K)
    (hA : A.WF n n) :
    ∃ P L U : Mat K, A.PLU = [P, L, U] ∧ P.WF n n ∧
      (∀ i j, i < n → j < n → P.get i j = 0 ∨ P.get i j = 1) ∧
      (∀ i, i < n → ∃! j, j < n ∧ P.get i j = 1) ∧
      (∀ j, j < n → ∃! i, i < n ∧ P.get i j = 1) := by
  obtain ⟨P, L, U, e, pw, -, -, -, -, -, -, σ, hσ⟩ := Mat.PLU_spec hA
  exact ⟨P, L, U, e, pw, Mat.perm_rows_cols σ hσ⟩

theorem PLU_permutation_witness :
    exampleSkip.WF 3 3 ∧
    ∃ P L U : Mat ℚ, exampleSkip.PLU = [P, L, U] ∧ P.WF 3 3 ∧
      (∀ i j, i < 3 → j < 3 → P.get i j = 0 ∨ P.get i j = 1) ∧
      (∀ i, i < 3 → ∃! j, j < 3 ∧ P.get i j = 1) ∧
      (∀ j, j < 3 → ∃! i, i < 3 ∧ P.get i j = 1) :=
  ⟨by decide, PLU_permutation 3 exampleSkip (by decide)⟩

/-- C10: for every square matrix `A`, with `[P, L, U] = PLU(A)`, the original matrix is
recovered as `A = (transpose(P) * L) * U` in exact arithmetic. -/
theorem PLU_recover {K : Type} [LinearOrderedField K] (n : Nat) (A : Mat K)
    (hA : A.WF n n) :
    ∃ P L U : Mat K, A.PLU = [P, L, U] ∧ A = (P.transpose.matmul L).matmul U := by
  obtain ⟨P, L, U, e, pw, lw, uw, hm, -, -, -, σ, hσ⟩ := Mat.PLU_spec hA
  refine ⟨P, L, U, e, ?_⟩
  have tw := (Mat.transpose_spec pw).1
  have tlw := (Mat.matmul_spec tw lw).1
  apply Mat.toM_inj hA (Mat.matmul_spec tlw uw).1
  rw [Mat.toM_matmul tlw uw, Mat.toM_matmul tw lw, Mat.toM_transpose pw, Matrix.mul_assoc,
    ← hm, ← Matrix.mul_assoc, Mat.perm_transpose_mul (P.toM n n) σ (fun i j => hσ i j),
    Matrix.one_mul]

theorem PLU_recover_witness :
    exampleSkip.WF 3 3 ∧
    ∃ P L U : Mat ℚ, exampleSkip.PLU = [P, L, U] ∧
      exampleSkip = (P.transpose.matmul L).matmul U :=
  ⟨by decide, PLU_recover 3 exampleSkip (by decide)⟩

/-! ## Verified claims: Gram-Schmidt, echelon form, editors -/

/-- C11: for every square full-rank matrix `A`, the columns of `Q = gramschmidt(A)` are
pairwise orthonormal: the dot product of columns `i` and `j` of `Q` is `1` when `i = j`
and `0` when `i ≠ j`, and `transpose(Q) * Q = eye(n)`, in exact real arithmetic (`sqrt`
is the real square root); no division by zero happens on the way. -/
theorem gramschmidt_columns_orthonormal (n : Nat) (A : Mat ℝ) (hA : A.WF n n)
    (hfull : (A.toM n n).rank = n) :
    (A.gramschmidt Real.sqrt).WF n n ∧
    (∀ i j, i < n → j < n →
      ((A.gramschmidt Real.sqrt).col i).cdot ((A.gramschmidt Real.sqrt).col j)
        = if i = j then 1 else 0) ∧
    (A.gramschmidt Real.sqrt).transpose.matmul (A.gramschmidt Real.sqrt) = Mat.eye n ∧
    A.gramschmidtChecked Real.sqrt = some (A.gramschmidt Real.sqrt) :=
  have hsqrt : ∀ x : ℝ, 0 < x → Real.sqrt x * Real.sqrt x = x :=
    fun _ hx => Real.mul_self_sqrt (le_of_lt hx)
  have hLI := Mat.linearIndependent_colv_of_rank hfull
  have h := Mat.gramschmidt_orthonormal Real.sqrt hsqrt hA hLI
  ⟨h.1, h.2.1, h.2.2, Mat.gramschmidtChecked_eq Real.sqrt hsqrt hA hLI⟩

theorem gramschmidt_columns_orthonormal_witness :
    exampleRealId.WF 2 2 ∧ (exampleRealId.toM 2 2).rank = 2 ∧
    (exampleRealId.gramschmidt Real.sqrt).WF 2 2 ∧
    (∀ i j, i < 2 → j < 2 →
      ((exampleRealId.gramschmidt Real.sqrt).col i).cdot
        ((exampleRealId.gramschmidt Real.sqrt).col j) = if i = j then 1 else 0) ∧
    (exampleRealId.gramschmidt Real.sqrt).transpose.matmul
      (exampleRealId.gramschmidt Real.sqrt) = Mat.eye 2 ∧
    exampleRealId.gramschmidtChecked Real.sqrt
      = some (exampleRealId.gramschmidt Real.sqrt) :=
  have hrank : (exampleRealId.toM 2 2).rank = 2 := by
    apply Mat.rank_of_det_ne_zero
    rw [Matrix.det_fin_two]
    simp [Mat.toM_apply, Mat.get, exampleRealId]
  ⟨by decide, hrank, gramschmidt_columns_orthonormal 2 exampleRealId (by decide) hrank⟩

/-- C12 (the code at a failing input): on the rank-one grid `[[0,1],[0,0]]`, whose
determinant is `0`, `gramschmidt` divides by zero whatever `sqrt` is: column `0` is
skipped, and the iteration for column `1` projects onto output column `0`, which is
still empty. The same happens on every square grid with at least two columns whose
first column is zero. -/
theorem gramschmidt_skip_divides_by_zero :
    exampleDep.WF 2 2 ∧ (exampleDep.toM 2 2).det = 0 ∧
    (∀ sqrt : ℚ → ℚ, exampleDep.gramschmidtChecked sqrt = none) ∧
    (∀ (K : Type) [LinearOrderedField K] (sqrt : K → K) (n : Nat) (A : Mat K),
      A.WF n n → 2 ≤ n → (∀ r, A.get r 0 = 0) → A.gramschmidtChecked sqrt = none) := by
  refine ⟨by decide, ?_, Mat.gramschmidtChecked_exampleDep,
    fun _ _ sqrt _ _ hA hn h0 => Mat.gramschmidtChecked_zero_first_col sqrt hA hn h0⟩
  rw [← Mat.det_eq (by decide)]
  with_unfolding_all decide

theorem gramschmidt_skip_divides_by_zero_witness :
    exampleDep.WF 2 2 ∧ 2 ≤ 2 ∧ (∀ r, exampleDep.get r 0 = 0) ∧
    exampleDep.gramschmidtChecked id = none :=
  have h0 : ∀ r, exampleDep.get r 0 = 0 := by
    intro r
    rcases r with _ | _ | r <;> simp [exampleDep, Mat.get]
  ⟨by decide, le_refl 2, h0,
    gramschmidt_skip_divides_by_zero.2.2.2 ℚ id 2 exampleDep (by decide) (le_refl 2) h0⟩

/-- C13 (the code at a failing input): for every `2 × 3` matrix `[[a,b,c],[d,e,f]]` with
`a ≠ 0` and `|a| ≥ |d|`, `ref` returns `[[a,b,c],[0, e-(d/a)b, f]]`: the elimination
step updates the columns `k+1 .. n-1` only, so the last entry keeps the value `f`
instead of `f-(d/a)c`; on `[[1,2,3],[1,1,1]]` it returns `[[1,2,3],[0,-1,1]]`, not
`[[1,2,3],[0,-1,-2]]`. -/
theorem ref_update_stops_at_row_count :
    (∀ (K : Type) [LinearOrderedField K] (a b c d e f : K), a ≠ 0 → |d| ≤ |a| →
      Mat.ref ⟨2, 3, [[a, b, c], [d, e, f]]⟩
        = ⟨2, 3, [[a, b, c], [0, e - d / a * b, f]]⟩) ∧
    exampleRef.ref = ⟨2, 3, [[1, 2, 3], [0, -1, 1]]⟩ ∧
    exampleRef.ref ≠ ⟨2, 3, [[1, 2, 3], [0, -1, -2]]⟩ :=
  ⟨fun _ _ a b c d e f ha hd => Mat.ref_two_by_three a b c d e f ha hd,
    by with_unfolding_all decide, by with_unfolding_all decide⟩

theorem ref_update_stops_at_row_count_witness :
    (1 : ℚ) ≠ 0 ∧ |(1 : ℚ)| ≤ |(1 : ℚ)| ∧
    Mat.ref (⟨2, 3, [[1, 2, 3], [1, 1, 1]]⟩ : Mat ℚ)
      = ⟨2, 3, [[1, 2, 3], [0, 1 - 1 / 1 * 2, 1]]⟩ :=
  ⟨one_ne_zero, le_refl _,
    ref_update_stops_at_row_count.1 ℚ 1 2 3 1 1 1 one_ne_zero (le_refl _)⟩

/-- C14: for every `n × m` matrix `A` with `n ≤ m`, `ref(A)` has the shape of `A` and is
in row echelon form: all-zero rows come after all non-zero rows, and the leading
non-zero entry of each non-zero row is strictly to the right of the leading entry of
the row above; and `ref([[0,1],[1,0]]) = [[1,0],[0,1]]`. -/
theorem ref_row_echelon :
    (∀ (K : Type) [LinearOrderedField K] (n m : Nat) (A : Mat K), A.WF n m → n ≤ m →
      A.ref.WF n m ∧ Mat.IsEchelon A.ref n) ∧
    exampleSwap.ref = ⟨2, 2, [[1, 0], [0, 1]]⟩ :=
  ⟨fun _ _ _ _ _ hA _ => Mat.ref_echelon hA, by with_unfolding_all decide⟩

theorem ref_row_echelon_witness :
    exampleRef.WF 2 3 ∧ 2 ≤ 3 ∧ exampleRef.ref.WF 2 3 ∧ Mat.IsEchelon exampleRef.ref 2 :=
  ⟨by decide, by decide, ref_row_echelon.1 ℚ 2 3 exampleRef (by decide) (by decide)⟩

/-- C15: for every pair of matrices `A` (`n × m`) and `B` (`p × q`), `matmul(A, B)` is the
null `0 × 0` matrix when `m ≠ p`, and otherwise the `n × q` matrix whose entry `[i][j]`
is the sum over `k < m` of `A[i][k] * B[k][j]`. -/
theorem matmul_null_or_product {K : Type} [LinearOrderedField K] (n m p q : Nat)
    (A B : Mat K) (hA : A.WF n m) (hB : B.WF p q) :
    (m ≠ p → A.matmul B = Mat.NIL) ∧
    (m = p → (A.matmul B).WF n q ∧
      ∀ i j, i < n → j < q →
        (A.matmul B).get i j = ∑ k in Finset.range m, A.get i k * B.get k j) := by
  refine ⟨fun h => Mat.matmul_mismatch A B (by rw [hA.2.1, hB.1]; exact h), fun h => ?_⟩
  subst h
  exact ⟨(Mat.matmul_spec hA hB).1, fun i j _ _ => (Mat.matmul_spec hA hB).2 i j⟩

theorem matmul_null_or_product_witness :
    exampleRef.WF 2 3 ∧ exampleA.WF 2 2 ∧
    (3 ≠ 2 → exampleRef.matmul exampleA = Mat.NIL) ∧
    (3 = 2 → (exampleRef.matmul exampleA).WF 2 2 ∧
      ∀ i j, i < 2 → j < 2 →
        (exampleRef.matmul exampleA).get i j
          = ∑ k in Finset.range 3, exampleRef.get i k * exampleA.get k j) :=
  ⟨by decide, by decide,
    matmul_null_or_product 2 3 2 2 exampleRef exampleA (by decide) (by decide)⟩

/-- C16: for every pair of matrices `A` (`n × m`) and `B` (`p × q`) of any shapes,
`add(A, B)` and `sub(A, B)` are matrices of shape `min(n,p) × min(m,q)` whose entry
`[i][j]` is `A[i][j] + B[i][j]`, respectively `A[i][j] - B[i][j]`; every cell they read
lies inside both operands, so they do not fail on mismatched shapes. -/
theorem add_sub_overlap {K : Type} [LinearOrderedField K] (n m p q : Nat) (A B : Mat K)
    (hA : A.WF n m) (hB : B.WF p q) :
    (A.add B).WF (min n p) (min m q) ∧ (A.sub B).WF (min n p) (min m q) ∧
    ∀ i j, i < min n p → j < min m q →
      (A.add B).get i j = A.get i j + B.get i j ∧
      (A.sub B).get i j = A.get i j - B.get i j ∧
      A.get? i j = some (A.get i j) ∧ B.get? i j = some (B.get i j) := by
  refine ⟨(Mat.add_spec hA hB).1, (Mat.sub_spec hA hB).1, fun i j hi hj => ?_⟩
  refine ⟨?_, ?_, Mat.get?_eq_some hA (lt_of_lt_of_le hi (min_le_left _ _))
      (lt_of_lt_of_le hj (min_le_left _ _)),
    Mat.get?_eq_some hB (lt_of_lt_of_le hi (min_le_right _ _))
      (lt_of_lt_of_le hj (min_le_right _ _))⟩
  · rw [(Mat.add_spec hA hB).2, if_pos ⟨hi, hj⟩]
  · rw [(Mat.sub_spec hA hB).2, if_pos ⟨hi, hj⟩]

theorem add_sub_overlap_witness :
    exampleRef.WF 2 3 ∧ exampleSkip.WF 3 3 ∧
    (exampleRef.add exampleSkip).WF (min 2 3) (min 3 3) ∧
    (exampleRef.sub exampleSkip).WF (min 2 3) (min 3 3) ∧
    ∀ i j, i < min 2 3 → j < min 3 3 →
      (exampleRef.add exampleSkip).get i j = exampleRef.get i j + exampleSkip.get i j ∧
      (exampleRef.sub exampleSkip).get i j = exampleRef.get i j - exampleSkip.get i j ∧
      exampleRef.get? i j = some (exampleRef.get i j) ∧
      exampleSkip.get? i j = some (exampleSkip.get i j) :=
  ⟨by decide, by decide,
    add_sub_overlap 2 3 3 3 exampleRef exampleSkip (by decide) (by decide)⟩

/-- C17 (counterexample): index `0` is in range for the `1 × 0` grid, yet `remrow(0)`
returns the null `0 × 0` matrix; likewise `remcol(0)` on the `0 × 1` grid. -/
theorem remove_in_range_null :
    exampleNoCol.WF 1 0 ∧ ¬ ((0 : Int) < 0 ∨ (0 : Int) ≥ ((1 : Nat) : Int)) ∧
    exampleNoCol.remrow 0 = Mat.NIL ∧
    exampleNoRow.WF 0 1 ∧ exampleNoRow.remcol 0 = Mat.NIL :=
  ⟨by decide, by decide, by with_unfolding_all decide, by decide,
    by with_unfolding_all decide⟩

/-- C17 (amended): for every `n × m` matrix `A` and every integer index `d`, `remrow(d)`
returns the null `0 × 0` matrix if `d < 0` or `d ≥ n`, and otherwise the `(n-1) × m`
matrix of the rows of `A` other than row `d` in their original order, which is the null
matrix only when `n = 1` and `m = 0`; symmetrically `remcol(d)` returns null if `d < 0`
or `d ≥ m`, and otherwise the `n × (m-1)` matrix of the columns of `A` other than column
`d` in their original order, which is the null matrix only when `m = 1` and `n = 0`. -/
theorem remove_row_col_spec {K : Type} [LinearOrderedField K] (n m : Nat) (A : Mat K)
    (hA : A.WF n m) (d : Int) :
    (A.remrow d = Mat.NIL ↔ d < 0 ∨ d ≥ (n : Int) ∨ (n = 1 ∧ m = 0)) ∧
    (0 ≤ d → d < (n : Int) → (A.remrow d).WF (n - 1) m ∧
      ∀ i j, (A.remrow d).get i j = A.get (if (i : Int) < d then i else i + 1) j) ∧
    (A.remcol d = Mat.NIL ↔ d < 0 ∨ d ≥ (m : Int) ∨ (m = 1 ∧ n = 0)) ∧
    (0 ≤ d → d < (m : Int) → (A.remcol d).WF n (m - 1) ∧
      ∀ i j, (A.remcol d).get i j = A.get i (if (j : Int) < d then j else j + 1)) := by
  have hrow : 0 ≤ d → d < (n : Int) → (A.remrow d).WF (n - 1) m ∧
      ∀ i j, (A.remrow d).get i j = A.get (if (i : Int) < d then i else i + 1) j := by
    intro h0 h1
    obtain ⟨t, rfl⟩ := Int.eq_ofNat_of_zero_le h0
    have ht : t < n := by omega
    refine ⟨(Mat.remrow_spec hA ht).1, fun i j => ?_⟩
    rw [(Mat.remrow_spec hA ht).2]
    simp only [Nat.cast_lt]
  have hcol : 0 ≤ d → d < (m : Int) → (A.remcol d).WF n (m - 1) ∧
      ∀ i j, (A.remcol d).get i j = A.get i (if (j : Int) < d then j else j + 1) := by
    intro h0 h1
    obtain ⟨t, rfl⟩ := Int.eq_ofNat_of_zero_le h0
    have ht : t < m := by omega
    refine ⟨(Mat.remcol_spec hA ht).1, fun i j => ?_⟩
    rw [(Mat.remcol_spec hA ht).2]
    simp only [Nat.cast_lt]
  refine ⟨?_, hrow, ?_, hcol⟩
  · by_cases h : d < 0 ∨ d ≥ (n : Int)
    · have e : A.remrow d = Mat.NIL :=
        Mat.remrow_out_of_range A d (by rw [hA.1]; exact h)
      constructor
      · intro _
        rcases h with h | h
        · exact Or.inl h
        · exact Or.inr (Or.inl h)
      · intro _
        exact e
    · have h0 : 0 ≤ d := by omega
      have h1 : d < (n : Int) := by omega
      rw [Mat.WF_eq_NIL_iff (hrow h0 h1).1]
      constructor
      · intro ⟨a, b⟩
        exact Or.inr (Or.inr ⟨by omega, b⟩)
      · intro c
        rcases c with c | c | ⟨a, b⟩
        · omega
        · omega
        · exact ⟨by omega, b⟩
  · by_cases h : d < 0 ∨ d ≥ (m : Int)
    · have e : A.remcol d = Mat.NIL :=
        Mat.remcol_out_of_range A d (by rw [hA.2.1]; exact h)
      constructor
      · intro _
        rcases h with h | h
        · exact Or.inl h
        · exact Or.inr (Or.inl h)
      · intro _
        exact e
    · have h0 : 0 ≤ d := by omega
      have h1 : d < (m : Int) := by omega
      rw [Mat.WF_eq_NIL_iff (hcol h0 h1).1]
      constructor
      · intro ⟨a, b⟩
        exact Or.inr (Or.inr ⟨by omega, a⟩)
      · intro c
        rcases c with c | c | ⟨a, b⟩
        · omega
        · omega
        · exact ⟨b, by omega⟩

theorem remove_row_col_spec_witness :
    exampleSkip.WF 3 3 ∧
    (exampleSkip.remrow 1 = Mat.NIL ↔ (1 : Int) < 0 ∨ (1 : Int) ≥ ((3 : Nat) : Int) ∨ (3 = 1 ∧ 3 = 0)) ∧
    ((0 : Int) ≤ 1 → (1 : Int) < ((3 : Nat) : Int) → (exampleSkip.remrow 1).WF (3 - 1) 3 ∧
      ∀ i j, (exampleSkip.remrow 1).get i j
        = exampleSkip.get (if (i : Int) < 1 then i else i + 1) j) ∧
    (exampleSkip.remcol 1 = Mat.NIL ↔ (1 : Int) < 0 ∨ (1 : Int) ≥ ((3 : Nat) : Int) ∨ (3 = 1 ∧ 3 = 0)) ∧
    ((0 : Int) ≤ 1 → (1 : Int) < ((3 : Nat) : Int) → (exampleSkip.remcol 1).WF 3 (3 - 1) ∧
      ∀ i j, (exampleSkip.remcol 1).get i j
        = exampleSkip.get i (if (j : Int) < 1 then j else j + 1)) :=
  ⟨by decide, remove_row_col_spec 3 3 exampleSkip (by decide) 1⟩

/-- C18: for every destination matrix `D` (`n × m`), every matrix `S` (`p × q`) and all
offsets `sr ≥ 0`, `sc ≥ 0`, `emplace(S, sr, sc)` keeps the shape of `D`, sets
`D[i][j] = S[i-sr][j-sc]` for exactly the cells with `sr ≤ i < min(sr+p, n)` and
`sc ≤ j < min(sc+q, m)`, leaves every other entry of `D` unchanged, and performs no
out-of-range access even when `S` overhangs the bounds of `D`; `implant(S, s)` has the
same effect as `emplace(S, 0, s)`. -/
theorem emplace_clips {K : Type} [LinearOrderedField K] (n m p q : Nat) (D S : Mat K)
    (hD : D.WF n m) (hS : S.WF p q) (sr sc : Nat) :
    (D.emplace S sr sc).WF n m ∧
    (∀ i j, sr ≤ i ∧ i < min (sr + p) n ∧ sc ≤ j ∧ j < min (sc + q) m →
      (D.emplace S sr sc).get i j = S.get (i - sr) (j - sc)) ∧
    (∀ i j, ¬ (sr ≤ i ∧ i < min (sr + p) n ∧ sc ≤ j ∧ j < min (sc + q) m) →
      (D.emplace S sr sc).get i j = D.get i j) ∧
    D.emplaceChecked S sr sc = some (D.emplace S sr sc) ∧
    D.implant S sc = D.emplace S 0 sc ∧
    D.implantChecked S sc = some (D.implant S sc) := by
  refine ⟨(Mat.emplace_spec hD hS sr sc).1, fun i j h => ?_, fun i j h => ?_,
    Mat.emplaceChecked_eq hD hS sr sc, Mat.implant_eq_emplace D S sc,
    Mat.implantChecked_eq hD hS sc⟩
  · rw [(Mat.emplace_spec hD hS sr sc).2, if_pos h]
  · rw [(Mat.emplace_spec hD hS sr sc).2, if_neg h]

theorem emplace_clips_witness :
    exampleSkip.WF 3 3 ∧ exampleRef.WF 2 3 ∧
    (exampleSkip.emplace exampleRef 2 1).WF 3 3 ∧
    (∀ i j, 2 ≤ i ∧ i < min (2 + 2) 3 ∧ 1 ≤ j ∧ j < min (1 + 3) 3 →
      (exampleSkip.emplace exampleRef 2 1).get i j = exampleRef.get (i - 2) (j - 1)) ∧
    (∀ i j, ¬ (2 ≤ i ∧ i < min (2 + 2) 3 ∧ 1 ≤ j ∧ j < min (1 + 3) 3) →
      (exampleSkip.emplace exampleRef 2 1).get i j = exampleSkip.get i j) ∧
    exampleSkip.emplaceChecked exampleRef 2 1 = some (exampleSkip.emplace exampleRef 2 1) ∧
    exampleSkip.implant exampleRef 1 = exampleSkip.emplace exampleRef 0 1 ∧
    exampleSkip.implantChecked exampleRef 1 = some (exampleSkip.implant exampleRef 1) :=
  ⟨by decide, by decide,
    emplace_clips 3 3 2 3 exampleSkip exampleRef (by decide) (by decide) 2 1⟩

/-- C19: for every matrix `A` of any shape `n × m` (zero rows or zero columns included),
`transpose(A)` is `m × n` with entry `[j][i] = A[i][j]`, and `transpose(transpose(A))`
equals `A` exactly. -/
theorem transpose_involutive {K : Type} [LinearOrderedField K] (n m : Nat) (A : Mat K)
    (hA : A.WF n m) :
    A.transpose.WF m n ∧ (∀ i j, A.transpose.get j i = A.get i j) ∧
    A.transpose.transpose = A :=
  ⟨(Mat.transpose_spec hA).1, fun i j => (Mat.transpose_spec hA).2 j i,
    Mat.transpose_transpose hA⟩

theorem transpose_involutive_witness :
    exampleNoCol.WF 1 0 ∧
    exampleNoCol.transpose.WF 0 1 ∧
    (∀ i j, exampleNoCol.transpose.get j i = exampleNoCol.get i j) ∧
    exampleNoCol.transpose.transpose = exampleNoCol :=
  ⟨by decide, transpose_involutive 1 0 exampleNoCol (by decide)⟩

/-- C20: for every pair of matrices `A` (`n × p`) and `B` (`n × q`) with the same row
count `n ≥ 1` and `p, q ≥ 1`, `dot(A, B)` is defined (the cell `[0][0]` it reads exists)
and equals the top-left entry of `transpose(A) * B`, the sum over `k < n` of
`A[k][0] * B[k][0]`; and the squared norm of `A` is `dot(A, A)`. -/
theorem cdot_top_left {K : Type} [LinearOrderedField K] (n p q : Nat) (A B : Mat K)
    (hA : A.WF n p) (hB : B.WF n q) (_hn : 1 ≤ n) (hp : 1 ≤ p) (hq : 1 ≤ q) :
    A.cdotChecked B = some (A.cdot B) ∧
    A.cdot B = (A.transpose.matmul B).get 0 0 ∧
    A.cdot B = ∑ k in Finset.range n, A.get k 0 * B.get k 0 ∧
    A.crsq = A.cdot A :=
  ⟨Mat.cdotChecked_eq hA hB hp hq, rfl, Mat.cdot_first_col hA hB, rfl⟩

theorem cdot_top_left_witness :
    exampleRef.WF 2 3 ∧ exampleA.WF 2 2 ∧ 1 ≤ 2 ∧ 1 ≤ 3 ∧ 1 ≤ 2 ∧
    exampleRef.cdotChecked exampleA = some (exampleRef.cdot exampleA) ∧
    exampleRef.cdot exampleA = (exampleRef.transpose.matmul exampleA).get 0 0 ∧
    exampleRef.cdot exampleA
      = ∑ k in Finset.range 2, exampleRef.get k 0 * exampleA.get k 0 ∧
    exampleRef.crsq = exampleRef.cdot exampleRef :=
  ⟨by decide, by decide, by decide, by decide, by decide,
    cdot_top_left 2 3 2 exampleRef exampleA (by decide) (by decide) (by decide) (by decide)
      (by decide)⟩

/-! ## Verified claims: dot product, unit vector, elementary matrices, null operand -/

/-- C21 (counterexample): `dot` reads outside the product on the null `0 × 0` matrix, on
operands with different row counts, and on operands without columns. -/
theorem cdot_reads_outside :
    (Mat.NIL : Mat ℚ).cdotChecked Mat.NIL = none ∧
    exampleRef.WF 2 3 ∧ exampleSkip.WF 3 3 ∧ exampleRef.cdotChecked exampleSkip = none ∧
    exampleNoCol.WF 1 0 ∧ exampleNoCol.cdotChecked exampleNoCol = none :=
  ⟨by with_unfolding_all decide, by decide, by decide, by with_unfolding_all decide,
    by decide, by with_unfolding_all decide⟩

/-- C21 (amended): for every pair of matrices `A` (`n × p`) and `B` (`r × q`), `dot(A, B)`
returns a number without any out-of-range access exactly when `n = r`, `p ≥ 1` and
`q ≥ 1`; for different row counts, for operands without columns and for the null
`0 × 0` sentinel, the cell `[0][0]` it reads does not exist. -/
theorem cdot_defined_iff {K : Type} [LinearOrderedField K] (n p r q : Nat) (A B : Mat K)
    (hA : A.WF n p) (hB : B.WF r q) :
    (n = r ∧ 1 ≤ p ∧ 1 ≤ q → A.cdotChecked B = some (A.cdot B)) ∧
    (¬ (n = r ∧ 1 ≤ p ∧ 1 ≤ q) → A.cdotChecked B = none) := by
  refine ⟨fun h => ?_, fun h => Mat.cdotChecked_eq_none hA hB h⟩
  obtain ⟨e, hp, hq⟩ := h
  subst e
  exact Mat.cdotChecked_eq hA hB hp hq

theorem cdot_defined_iff_witness :
    exampleRef.WF 2 3 ∧ exampleA.WF 2 2 ∧
    (2 = 2 ∧ 1 ≤ 3 ∧ 1 ≤ 2 → exampleRef.cdotChecked exampleA = some (exampleRef.cdot exampleA)) ∧
    (¬ (2 = 2 ∧ 1 ≤ 3 ∧ 1 ≤ 2) → exampleRef.cdotChecked exampleA = none) :=
  ⟨by decide, by decide, cdot_defined_iff 2 3 2 2 exampleRef exampleA (by decide) (by decide)⟩

/-- C22: for every non-zero column vector `v` (`n × 1`), `norm(v)` is the non-negative
square root of the sum of the squares of its entries, `unit(v)` is `v` scaled by
`1 / norm(v)` (a division by a non-zero number), and `norm(unit(v)) = 1` in exact real
arithmetic; for `v = [3,4]ᵗ`, `norm(v) = 5` and `unit(v) = [0.6,0.8]ᵗ`. -/
theorem unit_has_norm_one :
    (∀ (n : Nat) (v : Mat ℝ), v.WF n 1 → (∃ k, k < n ∧ v.get k 0 ≠ 0) →
      v.cnorm Real.sqrt = Real.sqrt (∑ k in Finset.range n, v.get k 0 * v.get k 0) ∧
      0 ≤ v.cnorm Real.sqrt ∧
      v.unit Real.sqrt = v.scale (1 / v.cnorm Real.sqrt) ∧
      v.unitChecked Real.sqrt = some (v.unit Real.sqrt) ∧
      (v.unit Real.sqrt).cnorm Real.sqrt = 1) ∧
    exampleV34.cnorm Real.sqrt = 5 ∧
    exampleV34.unit Real.sqrt = ⟨2, 1, [[0.6], [0.8]]⟩ := by
  have hsqrt : ∀ x : ℝ, 0 < x → Real.sqrt x * Real.sqrt x = x :=
    fun _ hx => Real.mul_self_sqrt (le_of_lt hx)
  have gen : ∀ (n : Nat) (v : Mat ℝ), v.WF n 1 → (∃ k, k < n ∧ v.get k 0 ≠ 0) →
      v.cnorm Real.sqrt = Real.sqrt (∑ k in Finset.range n, v.get k 0 * v.get k 0) ∧
      0 ≤ v.cnorm Real.sqrt ∧
      v.unit Real.sqrt = v.scale (1 / v.cnorm Real.sqrt) ∧
      v.unitChecked Real.sqrt = some (v.unit Real.sqrt) ∧
      (v.unit Real.sqrt).cnorm Real.sqrt = 1 := by
    intro n v hv hne
    have h := Mat.cnorm_unit Real.sqrt hsqrt Real.sqrt_one hv hne
    refine ⟨Mat.cnorm_eq Real.sqrt hv, Real.sqrt_nonneg _, Mat.unit_eq_scale Real.sqrt hv,
      ?_, h.2⟩
    unfold Mat.unitChecked
    rw [if_neg h.1]
  have hw : exampleV34.WF 2 1 := by decide
  have h5 : exampleV34.cnorm Real.sqrt = 5 := by
    rw [Mat.cnorm_eq Real.sqrt hw]
    have e : ∑ k in Finset.range 2, exampleV34.get k 0 * exampleV34.get k 0 = 5 * 5 := by
      simp [Finset.sum_range_succ, exampleV34, Mat.get]
      norm_num
    rw [e]
    exact Real.sqrt_mul_self (by norm_num)
  refine ⟨gen, h5, ?_⟩
  rw [Mat.unit_eq_scale Real.sqrt hw, h5]
  apply Mat.ext_get (Mat.scale_spec hw _).1 (by simp [Mat.WF])
  intro i j hi hj
  rw [(Mat.scale_spec hw _).2]
  have hj0 : j = 0 := by omega
  subst hj0
  rcases i with _ | _ | i
  · simp [exampleV34, Mat.get]
    norm_num
  · simp [exampleV34, Mat.get]
    norm_num
  · omega

theorem unit_has_norm_one_witness :
    exampleV34.WF 2 1 ∧ (∃ k, k < 2 ∧ exampleV34.get k 0 ≠ 0) ∧
    exampleV34.cnorm Real.sqrt
      = Real.sqrt (∑ k in Finset.range 2, exampleV34.get k 0 * exampleV34.get k 0) ∧
    0 ≤ exampleV34.cnorm Real.sqrt ∧
    exampleV34.unit Real.sqrt = exampleV34.scale (1 / exampleV34.cnorm Real.sqrt) ∧
    exampleV34.unitChecked Real.sqrt = some (exampleV34.unit Real.sqrt) ∧
    (exampleV34.unit Real.sqrt).cnorm Real.sqrt = 1 :=
  have hne : ∃ k, k < 2 ∧ exampleV34.get k 0 ≠ 0 :=
    ⟨0, by decide, by simp [exampleV34, Mat.get]⟩
  ⟨by decide, hne, unit_has_norm_one.1 2 exampleV34 (by decide) hne⟩

/-- C23: for every `n ≥ 0`, `det(eye(n)) = 1`, the `0 × 0` case included. -/
theorem det_eye_one {K : Type} [LinearOrderedField K] (n : Nat) :
    (Mat.eye n : Mat K).det = 1 ∧ (Mat.eye 0 : Mat K).det = 1 := by
  have h : ∀ t : Nat, (Mat.eye t : Mat K).det = 1 := by
    intro t
    rw [Mat.det_eq (Mat.eye_spec t).1, Mat.toM_eye, Matrix.det_one]
  exact ⟨h n, h 0⟩

/-- C24: for every square matrix `A` that has a row consisting entirely of zeros,
`det(A) = 0`. -/
theorem det_zero_row {K : Type} [LinearOrderedField K] (n : Nat) (A : Mat K)
    (hA : A.WF n n) (i : Nat) (hi : i < n) (hrow : ∀ j, j < n → A.get i j = 0) :
    A.det = 0 := by
  rw [Mat.det_eq hA]
  apply Matrix.det_eq_zero_of_row_eq_zero ⟨i, hi⟩
  intro j
  rw [Mat.toM_apply]
  exact hrow j j.2

theorem det_zero_row_witness :
    exampleDep.WF 2 2 ∧ 1 < 2 ∧ (∀ j, j < 2 → exampleDep.get 1 j = 0) ∧ exampleDep.det = 0 :=
  have hrow : ∀ j, j < 2 → exampleDep.get 1 j = 0 := by
    intro j _
    rcases j with _ | _ | j <;> simp [exampleDep, Mat.get]
  ⟨by decide, by decide, hrow, det_zero_row 2 exampleDep (by decide) 1 (by decide) hrow⟩

/-- C25: for every `n`, all row indices `a, b < n` and every matrix `A` with `n` rows,
`matmul(swap(n, a, b), A)` is `A` with rows `a` and `b` exchanged and every other row
unchanged, and it is `A` itself when `a = b`. -/
theorem swap_matmul_rows {K : Type} [LinearOrderedField K] (n m a b : Nat) (A : Mat K)
    (hA : A.WF n m) (ha : a < n) (hb : b < n) :
    ((Mat.swap n a b).matmul A).WF n m ∧
    (∀ c, ((Mat.swap n a b).matmul A).get a c = A.get b c) ∧
    (∀ c, ((Mat.swap n a b).matmul A).get b c = A.get a c) ∧
    (∀ r c, r ≠ a → r ≠ b → ((Mat.swap n a b).matmul A).get r c = A.get r c) ∧
    (a = b → (Mat.swap n a b).matmul A = A) := by
  have h := Mat.swap_matmul_spec ha hb hA
  refine ⟨h.1, fun c => ?_, fun c => ?_, fun r c h1 h2 => ?_, fun e => ?_⟩
  · rw [h.2]
    simp [Mat.swapIdx]
  · rw [h.2, Mat.swapIdx_right]
  · rw [h.2]
    simp [Mat.swapIdx, h1, h2]
  · subst e
    exact Mat.swap_self_matmul ha hA

theorem swap_matmul_rows_witness :
    exampleRef.WF 2 3 ∧ 0 < 2 ∧ 1 < 2 ∧
    ((Mat.swap 2 0 1).matmul exampleRef).WF 2 3 ∧
    (∀ c, ((Mat.swap 2 0 1).matmul exampleRef).get 0 c = exampleRef.get 1 c) ∧
    (∀ c, ((Mat.swap 2 0 1).matmul exampleRef).get 1 c = exampleRef.get 0 c) ∧
    (∀ r c, r ≠ 0 → r ≠ 1 → ((Mat.swap 2 0 1).matmul exampleRef).get r c = exampleRef.get r c) ∧
    (0 = 1 → (Mat.swap 2 0 1).matmul exampleRef = exampleRef) :=
  ⟨by decide, by decide, by decide,
    swap_matmul_rows 2 3 0 1 exampleRef (by decide) (by decide) (by decide)⟩

/-- C26 (the code at the failing input): with `r1 = r2` the assignment
`m.mat[r2][r1] = v` overwrites the diagonal `1` of `eye(n)`, so `matmul(add(n, r, r, v), A)`
replaces row `r` by `v` times itself instead of adding `v` times row `r` to it:
`matmul(add(2, 0, 0, 2), [[2,1],[1,1]])` is `[[4,2],[1,1]]`, not `[[6,3],[1,1]]`. For
distinct `r1 ≠ r2` row `r2` becomes `row r2 + v * row r1`; in both cases every other row
is unchanged. -/
theorem static_add_overwrites_diagonal :
    (Mat.Static.add 2 0 0 2 : Mat ℚ) = ⟨2, 2, [[2, 0], [0, 1]]⟩ ∧
    (Mat.Static.add 2 0 0 2 : Mat ℚ).matmul exampleA = ⟨2, 2, [[4, 2], [1, 1]]⟩ ∧
    (Mat.Static.add 2 0 0 2 : Mat ℚ).matmul exampleA ≠ ⟨2, 2, [[6, 3], [1, 1]]⟩ ∧
    (∀ (K : Type) [LinearOrderedField K] (n m r1 r2 : Nat) (v : Int) (A : Mat K),
      A.WF n m → r1 < n → r2 < n →
      ((Mat.Static.add n r1 r2 v).matmul A).WF n m ∧
      (r1 = r2 → ∀ c, ((Mat.Static.add n r1 r2 v).matmul A).get r2 c
        = (v : K) * A.get r2 c) ∧
      (r1 ≠ r2 → ∀ c, ((Mat.Static.add n r1 r2 v).matmul A).get r2 c
        = A.get r2 c + (v : K) * A.get r1 c) ∧
      (∀ r c, r < n → r ≠ r2 →
        ((Mat.Static.add n r1 r2 v).matmul A).get r c = A.get r c)) := by
  refine ⟨by with_unfolding_all decide, by with_unfolding_all decide,
    by with_unfolding_all decide, fun K _ n m r1 r2 v A hA h1 h2 => ?_⟩
  have h := Mat.staticAdd_matmul h1 h2 v hA
  refine ⟨h.1, fun d c => ?_, fun d c => ?_, fun r c hr d => ?_⟩
  · rw [h.2 r2 c h2, if_pos rfl, if_pos d, d]
  · rw [h.2 r2 c h2, if_pos rfl, if_neg d]
  · rw [h.2 r c hr, if_neg d]

theorem static_add_overwrites_diagonal_witness :
    exampleA.WF 2 2 ∧ 0 < 2 ∧
    ((Mat.Static.add 2 0 0 2).matmul exampleA).WF 2 2 ∧
    (0 = 0 → ∀ c, ((Mat.Static.add 2 0 0 2).matmul exampleA).get 0 c
      = ((2 : Int) : ℚ) * exampleA.get 0 c) ∧
    (0 ≠ 0 → ∀ c, ((Mat.Static.add 2 0 0 2).matmul exampleA).get 0 c
      = exampleA.get 0 c + ((2 : Int) : ℚ) * exampleA.get 0 c) ∧
    (∀ r c, r < 2 → r ≠ 0 →
      ((Mat.Static.add 2 0 0 2).matmul exampleA).get r c = exampleA.get r c) :=
  ⟨by decide, by decide,
    static_add_overwrites_diagonal.2.2.2 ℚ 2 2 0 0 2 exampleA (by decide) (by decide)
      (by decide)⟩

/-- C27 (the code at failing inputs): `row(i)` allocates `n` columns and copies `m`
entries. On the `2 × 3` grid `[[1,2,3],[1,1,1]]`, `row(0)` writes outside its result;
on the `2 × 1` grid `[[1],[2]]`, `row(0)` is the `1 × 2` grid `[[1,0]]`, not `[[1]]`.
In general the write is out of range whenever `n < m`, and the result is `1 × n` with
row `i` followed by zeros whenever `m ≤ n`; only square grids give the `1 × m` row. -/
theorem row_sized_by_row_count :
    exampleRef.rowChecked 0 = none ∧
    exampleTall.row 0 = ⟨1, 2, [[1, 0]]⟩ ∧ exampleTall.rowChecked 0 = some ⟨1, 2, [[1, 0]]⟩ ∧
    (∀ (K : Type) [LinearOrderedField K] (n m i : Nat) (A : Mat K), A.WF n m → i < n →
      (n < m → A.rowChecked i = none) ∧
      (m ≤ n → A.rowChecked i = some (A.row i) ∧ (A.row i).WF 1 n ∧
        ∀ r, (A.row i).get 0 r = if r < m then A.get i r else 0)) := by
  refine ⟨by with_unfolding_all decide, by with_unfolding_all decide,
    by with_unfolding_all decide, fun K _ n m i A hA hi => ⟨fun h => ?_, fun h => ?_⟩⟩
  · exact Mat.rowChecked_eq_none hA h hi
  · refine ⟨Mat.rowChecked_eq hA h hi, (Mat.row_spec hA i).1, fun r => ?_⟩
    rw [(Mat.row_spec hA i).2]
    by_cases c : r < m
    · rw [if_pos ⟨rfl, c, lt_of_lt_of_le c h⟩, if_pos c]
    · rw [if_neg (fun d => c d.2.1), if_neg c]

theorem row_sized_by_row_count_witness :
    exampleA.WF 2 2 ∧ 1 < 2 ∧
    (2 < 2 → exampleA.rowChecked 1 = none) ∧
    (2 ≤ 2 → exampleA.rowChecked 1 = some (exampleA.row 1) ∧ (exampleA.row 1).WF 1 2 ∧
      ∀ r, (exampleA.row 1).get 0 r = if r < 2 then exampleA.get 1 r else 0) :=
  ⟨by decide, by decide,
    row_sized_by_row_count.2.2.2 ℚ 2 2 1 exampleA (by decide) (by decide)⟩

/-- C28 (counterexample): the product of the `1 × 0` grid with the null matrix is the
`1 × 0` grid, and the product of the null matrix with the `0 × 1` grid is the `0 × 1`
grid; neither is the null `0 × 0` matrix. -/
theorem matmul_null_degenerate :
    exampleNoCol.matmul Mat.NIL = ⟨1, 0, [[]]⟩ ∧ exampleNoCol.matmul Mat.NIL ≠ Mat.NIL ∧
    (exampleNoCol.matmul Mat.NIL).isNull = false ∧
    (Mat.NIL : Mat ℚ).matmul exampleNoRow = ⟨0, 1, []⟩ ∧
    (Mat.NIL : Mat ℚ).matmul exampleNoRow ≠ Mat.NIL ∧
    ((Mat.NIL : Mat ℚ).matmul exampleNoRow).isNull = false :=
  ⟨by with_unfolding_all decide, by with_unfolding_all decide, by with_unfolding_all decide,
    by with_unfolding_all decide, by with_unfolding_all decide, by with_unfolding_all decide⟩

/-- C28 (amended): for every matrix `X` of shape `n × m`, `matmul(NIL, X)` is the null
`0 × 0` matrix unless `n = 0` and `m > 0`, in which case it is the empty `0 × m` matrix;
`matmul(X, NIL)` is the null `0 × 0` matrix unless `m = 0` and `n > 0`, in which case it
is the empty `n × 0` matrix. -/
theorem matmul_null_operand {K : Type} [LinearOrderedField K] (n m : Nat) (X : Mat K)
    (hX : X.WF n m) :
    ((Mat.NIL : Mat K).matmul X = Mat.NIL ↔ ¬ (n = 0 ∧ 0 < m)) ∧
    (n = 0 → (Mat.NIL : Mat K).matmul X = Mat.new 0 m) ∧
    (X.matmul (Mat.NIL : Mat K) = Mat.NIL ↔ ¬ (m = 0 ∧ 0 < n)) ∧
    (m = 0 → X.matmul (Mat.NIL : Mat K) = Mat.new n 0) := by
  refine ⟨?_, (Mat.NIL_matmul hX).2, ?_, (Mat.matmul_NIL hX).2⟩
  · by_cases h : n = 0
    · rw [(Mat.NIL_matmul hX).2 h, Mat.new_eq_NIL_iff]
      constructor
      · intro c d
        omega
      · intro c
        exact ⟨rfl, by omega⟩
    · constructor
      · intro _ d
        exact h d.1
      · intro _
        exact (Mat.NIL_matmul hX).1 h
  · by_cases h : m = 0
    · rw [(Mat.matmul_NIL hX).2 h, Mat.new_eq_NIL_iff]
      constructor
      · intro c d
        omega
      · intro c
        exact ⟨by omega, rfl⟩
    · constructor
      · intro _ d
        exact h d.1
      · intro _
        exact (Mat.matmul_NIL hX).1 h

theorem matmul_null_operand_witness :
    exampleRef.WF 2 3 ∧
    ((Mat.NIL : Mat ℚ).matmul exampleRef = Mat.NIL ↔ ¬ (2 = 0 ∧ 0 < 3)) ∧
    (2 = 0 → (Mat.NIL : Mat ℚ).matmul exampleRef = Mat.new 0 3) ∧
    (exampleRef.matmul (Mat.NIL : Mat ℚ) = Mat.NIL ↔ ¬ (3 = 0 ∧ 0 < 2)) ∧
    (3 = 0 → exampleRef.matmul (Mat.NIL : Mat ℚ) = Mat.new 2 0) :=
  ⟨by decide, matmul_null_operand 2 3 exampleRef (by decide)⟩

/-- C29: for every matrix `X` of any shape, `add(NIL, X)`, `add(X, NIL)`, `sub(NIL, X)` and
`sub(X, NIL)` are the null `0 × 0` matrix, and `transpose(NIL)`, `ref(NIL)` and
`inverse(NIL)` are the null `0 × 0` matrix. -/
theorem null_propagates {K : Type} [LinearOrderedField K] (X : Mat K) :
    (Mat.NIL : Mat K).add X = Mat.NIL ∧ X.add (Mat.NIL : Mat K) = Mat.NIL ∧
    (Mat.NIL : Mat K).sub X = Mat.NIL ∧ X.sub (Mat.NIL : Mat K) = Mat.NIL ∧
    (Mat.NIL : Mat K).transpose = Mat.NIL ∧ (Mat.NIL : Mat K).ref = Mat.NIL ∧
    (Mat.NIL : Mat K).inverse = Mat.NIL ∧ (Mat.NIL : Mat K).isNull = true :=
  ⟨Mat.NIL_add X, Mat.add_NIL X, Mat.NIL_sub X, Mat.sub_NIL X, rfl, rfl, rfl, rfl⟩

/-- C30: for every square matrix and every elimination step with pivot position `(h, k)`
at which column `k` has a non-zero entry at or below row `h`, the row brought to
position `h` is the lowest-index row `r ≥ h` whose `|entry[r][k]|` is the maximum over
rows `h .. n-1`; in particular if `A[0][0] ≠ 0` and `|A[0][0]| ≥ |A[i][0]|` for all `i`,
the first step selects row `0` and performs no swap, and `PLU([[1,0],[-1,1]])` returns
`P = eye(2)`. -/
theorem pivot_first_maximal :
    (∀ (K : Type) [LinearOrderedField K] (n h k : Nat) (res : Mat K), res.WF n n →
      (∃ i, h ≤ i ∧ i < n ∧ res.get i k ≠ 0) →
      (Mat.pivotScan res n h k).2 ≠ 0 ∧
      ∃ r : Nat, (Mat.pivotScan res n h k).1 = (r : Int) ∧ h ≤ r ∧ r < n ∧
        (∀ i, h ≤ i → i < n → |res.get i k| ≤ |res.get r k|) ∧
        (∀ i, h ≤ i → i < r → |res.get i k| < |res.get r k|) ∧
        (∀ c, ((Mat.swap n r h).matmul res).get h c = res.get r c)) ∧
    (∀ (K : Type) [LinearOrderedField K] (n : Nat) (A : Mat K), A.WF n n → 0 < n →
      A.get 0 0 ≠ 0 → (∀ i, i < n → |A.get i 0| ≤ |A.get 0 0|) →
      (Mat.pivotScan A n 0 0).1 = 0 ∧
      (Mat.pluLoop n n 1 ⟨A.copy, Mat.new n n, Mat.eye n, 0, 0⟩).P = Mat.eye n ∧
      (Mat.refLoop n n 1 ⟨A.copy, 0, 0⟩).res = Mat.elimBelow A n 0 0) ∧
    exampleLower.PLU
      = [Mat.eye 2, ⟨2, 2, [[1, 0], [-1, 1]]⟩, ⟨2, 2, [[1, 0], [0, 1]]⟩] := by
  refine ⟨fun K _ n h k res hw hex => ?_, fun K _ n A hA hn hne hmax => ?_,
    by with_unfolding_all decide⟩
  · obtain ⟨hz, r, e, r1, r2, _, r4, r5⟩ := Mat.pivotScan_first_max (n := n) hex
    refine ⟨hz, r, e, r1, r2, r4, r5, fun c => ?_⟩
    rw [(Mat.swap_matmul_spec r2 (lt_of_le_of_lt r1 r2) hw).2, Mat.swapIdx_right]
  · have hmax2 : ∀ i, 0 ≤ i → i < n → |A.get i 0| ≤ |A.get 0 0| := fun i _ hi => hmax i hi
    rw [Mat.copy_eq hA]
    exact ⟨by exact_mod_cast (Mat.pivotScan_head hn hne hmax2).2,
      Mat.pluLoop_head hn hn hne hmax2, Mat.refLoop_head hn hn hne hmax2⟩

theorem pivot_first_maximal_witness :
    exampleLower.WF 2 2 ∧ 0 < 2 ∧ exampleLower.get 0 0 ≠ 0 ∧
    (∀ i, i < 2 → |exampleLower.get i 0| ≤ |exampleLower.get 0 0|) ∧
    (Mat.pivotScan exampleLower 2 0 0).1 = 0 ∧
    (Mat.pluLoop 2 2 1 ⟨exampleLower.copy, Mat.new 2 2, Mat.eye 2, 0, 0⟩).P = Mat.eye 2 ∧
    (Mat.refLoop 2 2 1 ⟨exampleLower.copy, 0, 0⟩).res = Mat.elimBelow exampleLower 2 0 0 :=
  have hne : exampleLower.get 0 0 ≠ 0 := by with_unfolding_all decide
  have hmax : ∀ i, i < 2 → |exampleLower.get i 0| ≤ |exampleLower.get 0 0| := by
    intro i hi
    rcases i with _ | _ | i
    · exact le_refl _
    · with_unfolding_all decide
    · omega
  ⟨by decide, by decide, hne, hmax,
    pivot_first_maximal.2.1 ℚ 2 exampleLower (by decide) (by decide) hne hmax⟩

/-! ## Verified claims: shared elimination, safety of divisions, termination, shapes -/

/-- C31: for every square matrix `A`, the `U` component returned by `PLU(A)` equals
`ref(A)`: both routines run the same elimination on the same grid. -/
theorem PLU_upper_is_ref :
    (∀ (K : Type) [LinearOrderedField K] (n : Nat) (A : Mat K), A.WF n n →
      ∃ P L : Mat K, A.PLU = [P, L, A.ref]) ∧
    exampleSkip.PLU.getLast? = some exampleSkip.ref :=
  ⟨fun _ _ _ _ hA => Mat.PLU_U_eq_ref hA, by with_unfolding_all decide⟩

theorem PLU_upper_is_ref_witness :
    exampleA.WF 2 2 ∧ ∃ P L : Mat ℚ, exampleA.PLU = [P, L, exampleA.ref] :=
  ⟨by decide, PLU_upper_is_ref.1 ℚ 2 exampleA (by decide)⟩

/-- C32: for every square matrix `A` with `(Q, R) = QR(A)`, `Q` is `gramschmidt(A)`, `R` is
`n × n`, `R[i][j] = 0` for every `j < i`, and `R[i][j]` is the dot product of column `i`
of `Q` with column `j` of `A` for every `j ≥ i`. -/
theorem QR_upper_factor {K : Type} [LinearOrderedField K] (sqrt : K → K) (n : Nat)
    (A : Mat K) (hA : A.WF n n) :
    (A.QR sqrt).1 = A.gramschmidt sqrt ∧ (A.QR sqrt).2.WF n n ∧
    (∀ i j, j < i → (A.QR sqrt).2.get i j = 0) ∧
    (∀ i j, i ≤ j → j < n →
      (A.QR sqrt).2.get i j = ((A.QR sqrt).1.col i).cdot (A.col j)) := by
  obtain ⟨h1, h2, h3⟩ := Mat.QR_spec sqrt hA
  refine ⟨h1, h2, fun i j hij => ?_, fun i j hij hj => ?_⟩
  · rw [h3, if_neg (by omega)]
  · rw [h3, if_pos ⟨by omega, hij, hj⟩, h1]

theorem QR_upper_factor_witness :
    exampleA.WF 2 2 ∧
    (exampleA.QR id).1 = exampleA.gramschmidt id ∧ (exampleA.QR id).2.WF 2 2 ∧
    (∀ i j, j < i → (exampleA.QR id).2.get i j = 0) ∧
    (∀ i j, i ≤ j → j < 2 →
      (exampleA.QR id).2.get i j = ((exampleA.QR id).1.col i).cdot (exampleA.col j)) :=
  ⟨by decide, QR_upper_factor id 2 exampleA (by decide)⟩

/-- C33: for every square matrix `A`, every division performed by `ref`, `det`, `inverse`
and `PLU` has a non-zero divisor: the runs with checked divisions return the results
of the routines. The pivot entry `res[h][k]` after the swap has as magnitude the
strictly positive column maximum; in `inverse` the divisions of the backward pass and
of the final scaling are only reached once the check of the diagonal has passed. -/
theorem divisions_nonzero_divisor :
    (∀ (K : Type) [LinearOrderedField K] (n : Nat) (A : Mat K), A.WF n n →
      A.refChecked = some A.ref ∧ A.detChecked = some A.det ∧
      A.inverseChecked = some A.inverse ∧ A.PLUChecked = some A.PLU) ∧
    (∀ (K : Type) [LinearOrderedField K] (n h k : Nat) (res : Mat K), res.WF n n →
      (Mat.pivotScan res n h k).2 ≠ 0 →
      ∃ r : Nat, (Mat.pivotScan res n h k).1 = (r : Int) ∧ h ≤ r ∧ r < n ∧
        0 < (Mat.pivotScan res n h k).2 ∧
        |((Mat.swap n r h).matmul res).get h k| = (Mat.pivotScan res n h k).2 ∧
        ((Mat.swap n r h).matmul res).get h k ≠ 0) := by
  refine ⟨fun K _ n A hA => ⟨Mat.refChecked_eq hA, Mat.detChecked_eq hA,
    Mat.inverseChecked_eq hA, Mat.PLUChecked_eq hA⟩, fun K _ n h k res hw hz => ?_⟩
  obtain ⟨r0, _, q2, q3, q4⟩ := Mat.pivotScan_pivot hz
  obtain ⟨_, r, e1, e2, e3, e5, _, _⟩ := Mat.pivotScan_first_max ⟨r0, q2, q3, q4⟩
  have hpos : 0 < (Mat.pivotScan res n h k).2 := by
    rw [e5]
    rw [e5] at hz
    exact lt_of_le_of_ne (abs_nonneg _) (Ne.symm hz)
  have hg : ((Mat.swap n r h).matmul res).get h k = res.get r k := by
    rw [(Mat.swap_matmul_spec e3 (lt_of_le_of_lt e2 e3) hw).2, Mat.swapIdx_right]
  refine ⟨r, e1, e2, e3, hpos, ?_, ?_⟩
  · rw [hg, e5]
  · rw [hg]
    intro q
    rw [e5, q, abs_zero] at hpos
    exact lt_irrefl _ hpos

theorem divisions_nonzero_divisor_witness :
    exampleSkip.WF 3 3 ∧
    exampleSkip.refChecked = some exampleSkip.ref ∧
    exampleSkip.detChecked = some exampleSkip.det ∧
    exampleSkip.inverseChecked = some exampleSkip.inverse ∧
    exampleSkip.PLUChecked = some exampleSkip.PLU :=
  ⟨by decide, divisions_nonzero_divisor.1 ℚ 3 exampleSkip (by decide)⟩

/-- C34: for every `n × m` input the elimination loop of `ref`, and likewise the loops of
`det`, `inverse` and `PLU`, terminates: every iteration increases the pivot column
index `k` by exactly one and the pivot row index `h` by at most one, so after `m`
iterations from `k = 0` the loop condition is false, and further iterations change
nothing. -/
theorem elimination_terminates {K : Type} [LinearOrderedField K] (n m : Nat) :
    (∀ s : Mat.RefState K, s.h < n ∧ s.k < m →
      (Mat.refLoop n m 1 s).k = s.k + 1 ∧ s.h ≤ (Mat.refLoop n m 1 s).h ∧
      (Mat.refLoop n m 1 s).h ≤ s.h + 1) ∧
    (∀ (a b : Nat) (s : Mat.RefState K),
      Mat.refLoop n m (a + b) s = Mat.refLoop n m b (Mat.refLoop n m a s)) ∧
    (∀ s : Mat.RefState K, s.k = 0 →
      ¬ ((Mat.refLoop n m m s).h < n ∧ (Mat.refLoop n m m s).k < m) ∧
      ∀ extra, Mat.refLoop n m (m + extra) s = Mat.refLoop n m m s) ∧
    (∀ s : Mat.DetState K, s.h < n ∧ s.k < m →
      (Mat.detLoop n m 1 s).k = s.k + 1 ∧ s.h ≤ (Mat.detLoop n m 1 s).h ∧
      (Mat.detLoop n m 1 s).h ≤ s.h + 1) ∧
    (∀ s : Mat.DetState K, s.k = 0 →
      ¬ ((Mat.detLoop n m m s).h < n ∧ (Mat.detLoop n m m s).k < m) ∧
      ∀ extra, Mat.detLoop n m (m + extra) s = Mat.detLoop n m m s) ∧
    (∀ s : Mat.InvState K, s.h < n ∧ s.k < m →
      (Mat.invLoop n m 1 s).k = s.k + 1 ∧ s.h ≤ (Mat.invLoop n m 1 s).h ∧
      (Mat.invLoop n m 1 s).h ≤ s.h + 1) ∧
    (∀ s : Mat.InvState K, s.k = 0 →
      ¬ ((Mat.invLoop n m m s).h < n ∧ (Mat.invLoop n m m s).k < m) ∧
      ∀ extra, Mat.invLoop n m (m + extra) s = Mat.invLoop n m m s) ∧
    (∀ s : Mat.PLUState K, s.h < n ∧ s.k < m →
      (Mat.pluLoop n m 1 s).k = s.k + 1 ∧ s.h ≤ (Mat.pluLoop n m 1 s).h ∧
      (Mat.pluLoop n m 1 s).h ≤ s.h + 1) ∧
    (∀ s : Mat.PLUState K, s.k = 0 →
      ¬ ((Mat.pluLoop n m m s).h < n ∧ (Mat.pluLoop n m m s).k < m) ∧
      ∀ extra, Mat.pluLoop n m (m + extra) s = Mat.pluLoop n m m s) :=
  ⟨fun s hc => Mat.refLoop_progress n m s hc,
    Mat.refLoop_add n m,
    fun s hk => ⟨Mat.refLoop_stop n m m s (by omega), Mat.refLoop_fuel n m m s (by omega)⟩,
    fun s hc => Mat.detLoop_progress n m s hc,
    fun s hk => ⟨(Mat.detLoop_fuel n m m s (by omega)).1,
      (Mat.detLoop_fuel n m m s (by omega)).2⟩,
    fun s hc => Mat.invLoop_progress n m s hc,
    fun s hk => ⟨Mat.invLoop_stop n m m s (by omega), Mat.invLoop_fuel n m m s (by omega)⟩,
    fun s hc => Mat.pluLoop_progress n m s hc,
    fun s hk => ⟨Mat.pluLoop_stop n m m s (by omega), Mat.pluLoop_fuel n m m s (by omega)⟩⟩

theorem elimination_terminates_witness :
    ((0 : Nat) < 2 ∧ (0 : Nat) < 3) ∧
    (Mat.refLoop 2 3 1 ⟨exampleRef, 0, 0⟩).k = 0 + 1 ∧
    0 ≤ (Mat.refLoop 2 3 1 ⟨exampleRef, 0, 0⟩).h ∧
    (Mat.refLoop 2 3 1 ⟨exampleRef, 0, 0⟩).h ≤ 0 + 1 :=
  ⟨by decide, (elimination_terminates 2 3).1 ⟨exampleRef, 0, 0⟩ (by decide)⟩

/-- C35 (the code at the failing input): on the `2 × 1` grid `[[1],[2]]`, `ref` leaves the
rows: its row update runs over the columns `k+1 .. n-1` and reads and writes
`res.mat[1][1]`, which does not exist; the same happens on every grid with more rows
than columns whose first column is not zero. Everywhere else the claim holds: the
dimension constructor, `eye`, `swap`, the elementary row-add matrix, `remrow`,
`remcol`, `matmul`, `add`, `sub`, scalar multiplication, `transpose`, `col`, `inverse`,
`PLU`, `gramschmidt` and `QR` return well-formed matrices on well-formed inputs with
in-range indices, `emplace` and `implant` keep the destination well-formed, and on
grids with at most as many rows as columns `ref` stays inside the grid and returns a
well-formed matrix. -/
theorem wellformed_except_tall_ref :
    exampleTall.WF 2 1 ∧ exampleTall.refGuarded = none ∧
    (∀ (K : Type) [LinearOrderedField K] (n m : Nat) (A : Mat K), A.WF n m → m < n →
      0 < m → (∃ i, i < n ∧ A.get i 0 ≠ 0) → A.refGuarded = none) ∧
    (∀ (K : Type) [LinearOrderedField K] (n m p q : Nat) (A B : Mat K),
      A.WF n m → B.WF p q →
      (∀ a b, (Mat.new a b : Mat K).WF a b) ∧
      (∀ a, (Mat.eye a : Mat K).WF a a) ∧
      (∀ a b c, b < a → c < a → (Mat.swap a b c : Mat K).WF a a) ∧
      (∀ a r1 r2 v, r1 < a → r2 < a → (Mat.Static.add a r1 r2 v : Mat K).WF a a) ∧
      (∀ d : Nat, d < n → (A.remrow d).WF (n - 1) m) ∧
      (∀ d : Nat, d < m → (A.remcol d).WF n (m - 1)) ∧
      (∀ d : Int, (A.remrow d).WF (A.remrow d).n (A.remrow d).m ∧
        (A.remcol d).WF (A.remcol d).n (A.remcol d).m) ∧
      (A.matmul B).WF (A.matmul B).n (A.matmul B).m ∧
      (A.add B).WF (min n p) (min m q) ∧
      (A.sub B).WF (min n p) (min m q) ∧
      (∀ c, (A.scale c).WF n m) ∧
      A.transpose.WF m n ∧
      (∀ i, i < m → (A.col i).WF n 1) ∧
      (n ≤ m → A.refGuarded = some A.ref ∧ A.ref.WF n m) ∧
      A.inverse.WF A.inverse.n A.inverse.m ∧
      (∀ X ∈ A.PLU, X.WF X.n X.m) ∧
      (∀ sqrt, (A.gramschmidt sqrt).WF n m) ∧
      (∀ sqrt, (A.QR sqrt).1.WF (A.QR sqrt).1.n (A.QR sqrt).1.m ∧
        (A.QR sqrt).2.WF (A.QR sqrt).2.n (A.QR sqrt).2.m) ∧
      (∀ sr sc, (A.emplace B sr sc).WF n m) ∧
      (∀ s, (A.implant B s).WF n m)) :=
  ⟨by decide, by with_unfolding_all decide,
    fun _ _ _ _ _ hA hmn hm hex => Mat.refGuarded_eq_none hA hmn hm hex,
    fun _ _ _ _ _ _ _ _ hA hB =>
    ⟨fun a b => Mat.WF_new a b,
      fun a => (Mat.eye_spec a).1,
      fun _ _ _ hb hc => (Mat.swap_spec hb hc).1,
      fun _ _ _ v h1 h2 => (Mat.staticAdd_spec h1 h2 v).1,
      fun _ hd => (Mat.remrow_spec hA hd).1,
      fun _ hd => (Mat.remcol_spec hA hd).1,
      fun d => ⟨Mat.remrow_WF hA d, Mat.remcol_WF hA d⟩,
      Mat.matmul_WF hA hB,
      (Mat.add_spec hA hB).1,
      (Mat.sub_spec hA hB).1,
      fun c => (Mat.scale_spec hA c).1,
      (Mat.transpose_spec hA).1,
      fun i _ => (Mat.col_spec hA i).1,
      fun hnm => ⟨Mat.refGuarded_eq hA hnm, (Mat.ref_echelon hA).1⟩,
      Mat.inverse_WF hA,
      Mat.PLU_WF hA,
      fun sqrt => Mat.gramschmidt_WF sqrt hA,
      fun sqrt => Mat.QR_WF sqrt hA,
      fun sr sc => (Mat.emplace_spec hA hB sr sc).1,
      fun s => (Mat.implant_spec hA hB s).1⟩⟩

theorem wellformed_except_tall_ref_witness :
    exampleTall.WF 2 1 ∧ 1 < 2 ∧ 0 < 1 ∧ (∃ i, i < 2 ∧ exampleTall.get i 0 ≠ 0) ∧
    exampleTall.refGuarded = none ∧
    exampleSkip.WF 3 3 ∧ exampleRef.WF 2 3 ∧
    exampleSkip.inverse.WF exampleSkip.inverse.n exampleSkip.inverse.m ∧
    (∀ X ∈ exampleSkip.PLU, X.WF X.n X.m) ∧
    (exampleSkip.gramschmidt id).WF 3 3 ∧
    (3 ≤ 3 → exampleSkip.refGuarded = some exampleSkip.ref ∧ exampleSkip.ref.WF 3 3) :=
  have hex : ∃ i, i < 2 ∧ exampleTall.get i 0 ≠ 0 :=
    ⟨0, by decide, by with_unfolding_all decide⟩
  have h := wellformed_except_tall_ref.2.2.2 ℚ 3 3 2 3 exampleSkip exampleRef (by decide)
    (by decide)
  ⟨by decide, by decide, by decide, hex,
    wellformed_except_tall_ref.2.2.1 ℚ 2 1 exampleTall (by decide) (by decide) (by decide) hex,
    by decide, by decide, h.2.2.2.2.2.2.2.2.2.2.2.2.2.2.1, h.2.2.2.2.2.2.2.2.2.2.2.2.2.2.2.1,
    h.2.2.2.2.2.2.2.2.2.2.2.2.2.2.2.2.1 id, h.2.2.2.2.2.2.2.2.2.2.2.2.2.1⟩

/-- C36: for every square matrix `A`, every entry of the `L` returned by `PLU(A)` has
absolute value at most `1`: the pivot is the entry of greatest magnitude in its column
from the pivot row downwards, so every stored multiplier has magnitude at most `1`. -/
theorem PLU_lower_bounded {K : Type} [LinearOrderedField K] (n : Nat) (A : Mat K)
    (hA : A.WF n n) :
    ∃ P L U : Mat K, A.PLU = [P, L, U] ∧ L.WF n n ∧ ∀ i j, |L.get i j| ≤ 1 :=
  Mat.PLU_L_bound hA

theorem PLU_lower_bounded_witness :
    exampleSkip.WF 3 3 ∧
    ∃ P L U : Mat ℚ, exampleSkip.PLU = [P, L, U] ∧ L.WF 3 3 ∧ ∀ i j, |L.get i j| ≤ 1 :=
  ⟨by decide, PLU_lower_bounded 3 exampleSkip (by decide)⟩

/-- C37: `ref` is idempotent on every `n × m` matrix `A` with `n ≤ m`:
`ref(ref(A)) = ref(A)` in exact arithmetic, because `ref(A)` is in echelon form, on which
no row is exchanged and every multiplier is `0`. -/
theorem ref_idempotent :
    (∀ (K : Type) [LinearOrderedField K] (n m : Nat) (A : Mat K), A.WF n m → n ≤ m →
      A.ref.ref = A.ref) ∧
    exampleRef.ref.ref = exampleRef.ref ∧ exampleSkip.ref.ref = exampleSkip.ref :=
  ⟨fun _ _ _ _ _ hA _ => Mat.ref_of_echelon (Mat.ref_echelon hA).1 (Mat.ref_echelon hA).2,
    by with_unfolding_all decide, by with_unfolding_all decide⟩

theorem ref_idempotent_witness :
    exampleSwap.WF 2 2 ∧ 2 ≤ 2 ∧ exampleSwap.ref.ref = exampleSwap.ref :=
  ⟨by decide, by decide, ref_idempotent.1 ℚ 2 2 exampleSwap (by decide) (by decide)⟩

/-- C38: for every pair of column vectors `A` and `B` of the same length `n ≥ 1` with `B`
not the zero vector, `cproj(A, B)` is `B` scaled by `dot(A, B) / squared-norm(B)`, a
division by a non-zero number, and the residual `A - cproj(A, B)` is orthogonal to `B`:
`dot(sub(A, cproj(A, B)), B) = 0` in exact arithmetic. -/
theorem cproj_residual_orthogonal {K : Type} [LinearOrderedField K] (n : Nat) (A B : Mat K)
    (hA : A.WF n 1) (hB : B.WF n 1) (_hn : 1 ≤ n) (hne : ∃ k, k < n ∧ B.get k 0 ≠ 0) :
    A.cproj B = B.scale (A.cdot B / B.crsq) ∧
    A.cprojChecked B = some (A.cproj B) ∧
    (A.sub (A.cproj B)).cdot B = 0 := by
  refine ⟨rfl, ?_, (Mat.cproj_residual hA hB hne).2⟩
  unfold Mat.cprojChecked
  rw [if_neg (Mat.crsq_ne_zero hB hne)]

theorem cproj_residual_orthogonal_witness :
    exampleTall.WF 2 1 ∧ exampleDir.WF 2 1 ∧ 1 ≤ 2 ∧ (∃ k, k < 2 ∧ exampleDir.get k 0 ≠ 0) ∧
    exampleTall.cproj exampleDir
      = exampleDir.scale (exampleTall.cdot exampleDir / exampleDir.crsq) ∧
    exampleTall.cprojChecked exampleDir = some (exampleTall.cproj exampleDir) ∧
    (exampleTall.sub (exampleTall.cproj exampleDir)).cdot exampleDir = 0 :=
  have hne : ∃ k, k < 2 ∧ exampleDir.get k 0 ≠ 0 :=
    ⟨0, by decide, by with_unfolding_all decide⟩
  ⟨by decide, by decide, by decide, hne,
    cproj_residual_orthogonal 2 exampleTall exampleDir (by decide) (by decide) (by decide) hne⟩

end NEURAL
